import Mathlib

/-!
# Mesh_2: region marking and the refinement driver

A shallow embedding of `Packages/Mesh_2/include/CGAL/Mesh_2.h`.

* Handles are natural numbers.  A triangulation is a record of the face list, the
  three-neighbour table, the constraint bits and the face marks.
* Every member function of `Mesh_2` becomes a function on the state record `Mesh_2`.
* A result of type `Option` is `none` when the run does not return: a
  `CGAL_assertion` fails, a null handle is dereferenced, or a loop is cut by its fuel.
* The collaborators that `Mesh_2.h` only calls (the triangulation primitives, the
  geometric traits and the conformance base class) are the fields of `Collaborators`.
-/

namespace CGAL

/-- Handle of a face of the triangulation. -/
abbrev Face_handle := Nat

/-- Handle of a vertex of the triangulation. -/
abbrev Vertex_handle := Nat

/-- An edge is a face together with the index of the opposite vertex. -/
abbrev Edge := Face_handle × Fin 3

/-- The traits members that `Mesh_2` reads: `is_bad_object`,
`compute_squared_minimum_sine_2_object` and `compute_squared_distance_2_object`. -/
structure Geom_traits (Point FT : Type) where
  is_bad : Point → Point → Point → Bool
  compute_squared_minimum_sine_2 : Point → Point → Point → FT
  compute_squared_distance_2 : Point → Point → FT

/-- The triangulation `Tr` as `Mesh_2` sees it: its traits object `_gt`, its dimension,
the sequence run through by `All_faces_iterator`, and the per-face accessors
`vertex(i)`, `neighbor(i)`, `is_constrained(i)` and `is_marked()`. -/
structure Triangulation (Point FT : Type) where
  gt : Geom_traits Point FT
  dimension : Int
  all_faces : List Face_handle
  infinite_face : Face_handle
  is_infinite : Face_handle → Bool
  vertex : Face_handle → Fin 3 → Vertex_handle
  neighbor : Face_handle → Fin 3 → Face_handle
  is_constrained : Face_handle → Fin 3 → Bool
  is_marked : Face_handle → Bool
  point : Vertex_handle → Point

/-- The faces run through by `Finite_faces_iterator`. -/
def Triangulation.finite_faces {Point FT : Type} (tr : Triangulation Point FT) :
    List Face_handle :=
  tr.all_faces.filter (fun f => !tr.is_infinite f)

/-- The effect of `f->set_marked(b)`. -/
def Triangulation.set_marked {Point FT : Type} (tr : Triangulation Point FT)
    (f : Face_handle) (b : Bool) : Triangulation Point FT :=
  { tr with is_marked := Function.update tr.is_marked f b }

/-- The loop `for(it = all_faces_begin(); it != all_faces_end(); ++it) it->set_marked(b)`. -/
def Triangulation.set_marked_all {Point FT : Type} (tr : Triangulation Point FT)
    (b : Bool) : Triangulation Point FT :=
  tr.all_faces.foldl (fun t f => t.set_marked f b) tr

/-! ## propagate_marks -/

/-- One pass of the body of `for(int i=0;i<3;i++)` in `propagate_marks`, on the pair
(marks, work queue): the neighbour across a non-constrained edge whose mark differs
from `mark` is marked and pushed at the back of the queue. -/
def propagate_visit {Point FT : Type} (tr : Triangulation Point FT) (mark : Bool)
    (fh : Face_handle) (st : (Face_handle → Bool) × List Face_handle) (i : Fin 3) :
    (Face_handle → Bool) × List Face_handle :=
  let nb := tr.neighbor fh i
  if !tr.is_constrained fh i && (mark != st.1 nb) then
    (Function.update st.1 nb mark, st.2 ++ [nb])
  else st

/-- The loop `while( !face_queue.empty() )` of `propagate_marks`; each unit of fuel pays
for one pop.  `none` when the fuel is spent with faces still queued. -/
def propagate_loop {Point FT : Type} (tr : Triangulation Point FT) (mark : Bool) :
    Nat → (Face_handle → Bool) → List Face_handle → Option (Face_handle → Bool)
  | _, marks, [] => some marks
  | 0, _, _ :: _ => none
  | fuel + 1, marks, fh :: rest =>
    let st := ([0, 1, 2] : List (Fin 3)).foldl (propagate_visit tr mark fh) (marks, rest)
    propagate_loop tr mark fuel st.1 st.2

/-- The function `propagate_marks(fh, mark)`: the start face is marked and queued, then
the queue is drained.  The loop is given one pop per face plus one. -/
def propagate_marks {Point FT : Type} (tr : Triangulation Point FT) (fh : Face_handle)
    (mark : Bool) : Option (Triangulation Point FT) :=
  (propagate_loop tr mark (tr.all_faces.length + 1)
      (Function.update tr.is_marked fh mark) [fh]).map
    (fun m => { tr with is_marked := m })

/-- The function `mark_convex_hull()`. -/
def mark_convex_hull {Point FT : Type} (tr : Triangulation Point FT) :
    Option (Triangulation Point FT) :=
  propagate_marks (tr.set_marked_all true) tr.infinite_face false

/-! ## propagate_marks with the log of its pushes -/

/-- One pass of the body of `for(int i=0;i<3;i++)` in `propagate_marks`, with the list
of the faces given to `face_queue.push` so far: the neighbour is added to the list when
it is pushed. -/
def propagate_visit_log {Point FT : Type} (tr : Triangulation Point FT) (mark : Bool)
    (fh : Face_handle) (sl : ((Face_handle → Bool) × List Face_handle) × List Face_handle)
    (i : Fin 3) : ((Face_handle → Bool) × List Face_handle) × List Face_handle :=
  (propagate_visit tr mark fh sl.1 i,
    if !tr.is_constrained fh i && (mark != sl.1.1 (tr.neighbor fh i)) then
      sl.2 ++ [tr.neighbor fh i]
    else sl.2)

/-- The loop `while( !face_queue.empty() )` of `propagate_marks`, with the list of the
faces pushed so far; each unit of fuel pays for one pop. -/
def propagate_loop_log {Point FT : Type} (tr : Triangulation Point FT) (mark : Bool) :
    Nat → (Face_handle → Bool) → List Face_handle → List Face_handle →
      Option ((Face_handle → Bool) × List Face_handle)
  | _, marks, [], log => some (marks, log)
  | 0, _, _ :: _, _ => none
  | fuel + 1, marks, fh :: rest, log =>
    let sl := ([0, 1, 2] : List (Fin 3)).foldl (propagate_visit_log tr mark fh)
      ((marks, rest), log)
    propagate_loop_log tr mark fuel sl.1.1 sl.1.2 sl.2

/-- The function `propagate_marks(fh, mark)`, with the list of the faces it pushes on its
work queue, the start face first. -/
def propagate_marks_log {Point FT : Type} (tr : Triangulation Point FT) (fh : Face_handle)
    (mark : Bool) : Option (Triangulation Point FT × List Face_handle) :=
  (propagate_loop_log tr mark (tr.all_faces.length + 1)
      (Function.update tr.is_marked fh mark) [fh] [fh]).map
    (fun r => ({ tr with is_marked := r.1 }, r.2))

/-- What holds of the marks `μ`, the work queue `q` and the list `log` of the pushed
faces all along `propagate_marks(start, m)`: no face was pushed twice, the pushed faces
are faces of the triangulation marked `m`, and the queued faces were pushed. -/
structure Logged {Point FT : Type} (tr : Triangulation Point FT) (m : Bool)
    (μ : Face_handle → Bool) (q log : List Face_handle) : Prop where
  nodup : log.Nodup
  marked : ∀ g ∈ log, μ g = m
  faces : ∀ g ∈ log, g ∈ tr.all_faces
  queued : ∀ g ∈ q, g ∈ log

/-! ## The map of bad faces -/

/-- Modelled from the spec: `CGAL/Double_map.h` is not among the sources.  The
BadFaceQueue is a mapping from face handle to priority with insert or overwrite, removal
by handle, and access to the entry of smallest priority.  It is kept as the list of its
entries in insertion order, one entry per handle. -/
abbrev Double_map (FT : Type) := List (Face_handle × FT)

/-- Modelled from the spec: `clear()` empties the map. -/
def Double_map.clear {FT : Type} : Double_map FT := []

/-- Modelled from the spec: `empty()`. -/
def Double_map.empty {FT : Type} (m : Double_map FT) : Bool := m.isEmpty

/-- Modelled from the spec: `erase(k)` removes the entry of `k`; removing an absent face
is a no-op. -/
def Double_map.erase {FT : Type} (m : Double_map FT) (k : Face_handle) : Double_map FT :=
  m.filter (fun e => decide (e.1 ≠ k))

/-- Modelled from the spec: `insert(k, d)`; inserting a face already present
overwrites. -/
def Double_map.insert {FT : Type} (m : Double_map FT) (k : Face_handle) (d : FT) :
    Double_map FT :=
  m.erase k ++ [(k, d)]

/-- Modelled from the spec: `front()` is the entry with the smallest priority; among
equal priorities the one inserted first. -/
def Double_map.front {FT : Type} [LinearOrder FT] : Double_map FT → Option (Face_handle × FT)
  | [] => none
  | e :: es =>
    match Double_map.front es with
    | none => some e
    | some e2 => if e.2 ≤ e2.2 then some e else some e2

/-- Modelled from the spec: `pop_front()` removes the entry returned by `front()`. -/
def Double_map.pop_front {FT : Type} [LinearOrder FT] (m : Double_map FT) : Double_map FT :=
  match m.front with
  | none => m
  | some e => m.erase e.1

/-! ## The state of the mesher and its collaborators -/

/-- The members of `Conform::Cluster` read by `refine_face`. -/
structure Cluster (FT : Type) where
  is_reduced : Bool
  rmin : FT

/-- The object state of `Mesh_2<Tr>`: the triangulation it inherits, the private data of
the conformance base class (`cdata`: clusters and edges to be conformed), and the four
data members declared in `Mesh_2.h`. -/
structure Mesh_2 (Point FT C : Type) where
  tr : Triangulation Point FT
  cdata : C
  bad_faces : Double_map FT
  initialized : Bool
  seeds : List Point
  seeds_mark : Bool

/-- The functions of the triangulation and of `Conform_triangulation_2` that `Mesh_2.h`
calls and does not define.  `locate` and `is_face` give `none` for a null handle or a
`false` answer.  `incident_faces` lists one turn of the face circulator.
`Conform_refine_step` returns the new state and the C++ return value. -/
structure Collaborators (Point FT C : Type) where
  locate : Triangulation Point FT → Point → Option Face_handle
  is_face : Triangulation Point FT → Vertex_handle → Vertex_handle → Vertex_handle →
    Option Face_handle
  incident_faces : Triangulation Point FT → Vertex_handle → List Face_handle
  circumcenter : Triangulation Point FT → Face_handle → Point
  get_conflicts_and_boundary : Triangulation Point FT → Point → Face_handle →
    List Face_handle × List Edge
  star_hole : Triangulation Point FT → Point → List Edge → List Face_handle →
    Triangulation Point FT × Vertex_handle
  is_locally_gabriel_conform : Triangulation Point FT → Face_handle → Fin 3 → Point → Bool
  get_cluster : Triangulation Point FT → C → Vertex_handle → Vertex_handle →
    Option (Cluster FT)
  add_contrained_edge_to_be_conform : Triangulation Point FT → C → Vertex_handle →
    Vertex_handle → C
  Conform_init : Triangulation Point FT → C → Triangulation Point FT × C
  Conform_is_conformed : Triangulation Point FT → C → Bool
  Conform_conform : Mesh_2 Point FT C → Option (Mesh_2 Point FT C)
  Conform_refine_step : Mesh_2 Point FT C → Mesh_2 Point FT C × Bool

/-- Counter-clockwise rotation of an index of 0, 1, 2 (`Triangulation_cw_ccw_2::ccw`). -/
def ccw (i : Fin 3) : Fin 3 := i + 1

/-- Clockwise rotation of an index of 0, 1, 2 (`Triangulation_cw_ccw_2::cw`). -/
def cw (i : Fin 3) : Fin 3 := i + 2

section Members

variable {Point FT C : Type}

/-! ## Access functions -/

/-- The function `is_bad(f)`. -/
def is_bad (tr : Triangulation Point FT) (f : Face_handle) : Bool :=
  tr.gt.is_bad (tr.point (tr.vertex f 0)) (tr.point (tr.vertex f 1))
    (tr.point (tr.vertex f 2))

/-- The function `squared_minimum_sine(va, vb, vc)`. -/
def squared_minimum_sine_v (tr : Triangulation Point FT) (va vb vc : Vertex_handle) : FT :=
  tr.gt.compute_squared_minimum_sine_2 (tr.point va) (tr.point vb) (tr.point vc)

/-- The function `squared_minimum_sine(fh)`. -/
def squared_minimum_sine (tr : Triangulation Point FT) (fh : Face_handle) : FT :=
  squared_minimum_sine_v tr (tr.vertex fh 0) (tr.vertex fh 1) (tr.vertex fh 2)

/-- The function `shortest_edge_squared_length(f)`. -/
def shortest_edge_squared_length [LinearOrder FT] (tr : Triangulation Point FT)
    (f : Face_handle) : FT :=
  let pa := tr.point (tr.vertex f 0)
  let pb := tr.point (tr.vertex f 1)
  let pc := tr.point (tr.vertex f 2)
  let a := tr.gt.compute_squared_distance_2 pb pc
  let b := tr.gt.compute_squared_distance_2 pc pa
  let c := tr.gt.compute_squared_distance_2 pa pb
  min a (min b c)

/-! ## Marking -/

/-- The body of the loop over the seeds in `mark_facets`. -/
def mark_seed (ext : Collaborators Point FT C) (seeds_mark : Bool)
    (tr : Triangulation Point FT) (sit : Point) : Option (Triangulation Point FT) :=
  match ext.locate tr sit with
  | some fh => propagate_marks tr fh seeds_mark
  | none => some tr

/-- The function `mark_facets()`. -/
def mark_facets (ext : Collaborators Point FT C) (s : Mesh_2 Point FT C) :
    Option (Mesh_2 Point FT C) :=
  if s.tr.dimension < 2 then some s
  else
    (if !s.seeds.isEmpty then
        s.seeds.foldlM (mark_seed ext s.seeds_mark) (s.tr.set_marked_all (!s.seeds_mark))
      else mark_convex_hull s.tr).bind fun tr1 =>
    (propagate_marks tr1 tr1.infinite_face false).bind fun tr2 =>
      some { s with tr := tr2 }

/-- The function `set_seeds(b, e, mark, do_it_now)`. -/
def set_seeds (ext : Collaborators Point FT C) (s : Mesh_2 Point FT C) (pts : List Point)
    (mark : Bool) (do_it_now : Bool) : Option (Mesh_2 Point FT C) :=
  let s1 := { s with seeds := pts, seeds_mark := mark }
  if do_it_now then mark_facets ext s1 else some s1

/-- The function `clear_seeds()`. -/
def clear_seeds (s : Mesh_2 Point FT C) : Mesh_2 Point FT C :=
  { s with seeds := [], seeds_mark := false }

/-! ## Maintenance of the map of bad faces -/

/-- The function `push_in_bad_faces(fh)`; `none` when `CGAL_assertion(fh->is_marked())`
fails. -/
def push_in_bad_faces (s : Mesh_2 Point FT C) (fh : Face_handle) :
    Option (Mesh_2 Point FT C) :=
  if s.tr.is_marked fh then
    some { s with bad_faces := s.bad_faces.insert fh (squared_minimum_sine s.tr fh) }
  else none

/-- The function `push_in_bad_faces(va, vb, vc)`; when `is_face` fails the handle stays
null and the call does not return. -/
def push_in_bad_faces_v (ext : Collaborators Point FT C) (s : Mesh_2 Point FT C)
    (va vb vc : Vertex_handle) : Option (Mesh_2 Point FT C) :=
  match ext.is_face s.tr va vb vc with
  | some fh => push_in_bad_faces s fh
  | none => none

/-- The body of the loop of `fill_facet_map`. -/
def fill_facet_step (s : Mesh_2 Point FT C) (fit : Face_handle) :
    Option (Mesh_2 Point FT C) :=
  if is_bad s.tr fit && s.tr.is_marked fit then push_in_bad_faces s fit else some s

/-- The function `fill_facet_map()`. -/
def fill_facet_map (s : Mesh_2 Point FT C) : Option (Mesh_2 Point FT C) :=
  s.tr.finite_faces.foldlM fill_facet_step s

/-- The body of the loop of `compute_new_bad_faces`. -/
def new_bad_face_step (s : Mesh_2 Point FT C) (fc : Face_handle) :
    Option (Mesh_2 Point FT C) :=
  if !s.tr.is_infinite fc then
    if is_bad s.tr fc && s.tr.is_marked fc then push_in_bad_faces s fc else some s
  else some s

/-- The function `compute_new_bad_faces(v)`. -/
def compute_new_bad_faces (ext : Collaborators Point FT C) (s : Mesh_2 Point FT C)
    (v : Vertex_handle) : Option (Mesh_2 Point FT C) :=
  (ext.incident_faces s.tr v).foldlM new_bad_face_step s

/-- The function `set_bad_faces(begin, end)`. -/
def set_bad_faces (s : Mesh_2 Point FT C) (fhs : List Face_handle) :
    Option (Mesh_2 Point FT C) :=
  fhs.foldlM push_in_bad_faces { s with bad_faces := Double_map.clear }

/-- The function `set_geom_traits(gt)`. -/
def set_geom_traits (s : Mesh_2 Point FT C) (gt : Geom_traits Point FT) :
    Mesh_2 Point FT C :=
  { s with tr := { s.tr with gt := gt } }

/-- The function `calculate_bad_faces()`. -/
def calculate_bad_faces (s : Mesh_2 Point FT C) : Option (Mesh_2 Point FT C) :=
  fill_facet_map s

/-! ## The refinement process -/

/-- The function `split_face(f, circum_center)`. -/
def split_face (ext : Collaborators Point FT C) (s : Mesh_2 Point FT C) (f : Face_handle)
    (circum_center : Point) : Option (Mesh_2 Point FT C) :=
  let marked := s.tr.is_marked f
  let zone := ext.get_conflicts_and_boundary s.tr circum_center f
  let bad := zone.1.foldl Double_map.erase s.bad_faces
  let ins := ext.star_hole s.tr circum_center zone.2 zone.1
  let tr2 := (ext.incident_faces ins.1 ins.2).foldl (fun t fc => t.set_marked fc marked) ins.1
  compute_new_bad_faces ext { s with tr := tr2, bad_faces := bad } ins.2

/-- The variables carried through the scan of the boundary edges in `refine_face`: the
data of the conformance base (which receives the edges to be conformed) and the two
flags. -/
structure Scan (C : Type) where
  cdata : C
  split_the_face : Bool
  keep_the_face_bad : Bool

/-- The body of the loop over `zone_of_pc_boundary` in `refine_face`. -/
def refine_face_edge [LinearOrder FT] (ext : Collaborators Point FT C)
    (tr : Triangulation Point FT) (f : Face_handle) (pc : Point) (st : Scan C) (e : Edge) :
    Scan C :=
  let fh := e.1
  let i := e.2
  let va := tr.vertex fh (cw i)
  let vb := tr.vertex fh (ccw i)
  if tr.is_constrained fh i && !ext.is_locally_gabriel_conform tr fh i pc then
    let enqueue : Scan C :=
      { cdata := ext.add_contrained_edge_to_be_conform tr st.cdata va vb,
        split_the_face := false, keep_the_face_bad := true }
    let skip : Scan C := { st with split_the_face := false }
    match ext.get_cluster tr st.cdata va vb, ext.get_cluster tr st.cdata vb va with
    | some _, some _ => enqueue
    | none, none => enqueue
    | some c, none =>
      if !c.is_reduced || decide (c.rmin ≥ shortest_edge_squared_length tr f) then enqueue
      else skip
    | none, some c2 =>
      if !c2.is_reduced || decide (c2.rmin ≥ shortest_edge_squared_length tr f) then enqueue
      else skip
  else st

/-- The function `refine_face(f)`; `none` when `CGAL_assertion(f->is_marked())` fails or
the re-enqueue does not return. -/
def refine_face [LinearOrder FT] (ext : Collaborators Point FT C) (s : Mesh_2 Point FT C)
    (f : Face_handle) : Option (Mesh_2 Point FT C) :=
  let pc := ext.circumcenter s.tr f
  let zone := ext.get_conflicts_and_boundary s.tr pc f
  let st := zone.2.foldl (refine_face_edge ext s.tr f pc)
    { cdata := s.cdata, split_the_face := true, keep_the_face_bad := false }
  let s1 := { s with cdata := st.cdata }
  let va := s.tr.vertex f 0
  let vb := s.tr.vertex f 1
  let vc := s.tr.vertex f 2
  if st.split_the_face then
    if s1.tr.is_marked f then split_face ext s1 f pc else none
  else if st.keep_the_face_bad then push_in_bad_faces_v ext s1 va vb vc
  else some s1

/-- The function `process_one_face()`; `none` also when the map is empty, where
`front()` has no entry to return. -/
def process_one_face [LinearOrder FT] (ext : Collaborators Point FT C)
    (s : Mesh_2 Point FT C) : Option (Mesh_2 Point FT C) :=
  match s.bad_faces.front with
  | none => none
  | some e => refine_face ext { s with bad_faces := s.bad_faces.pop_front } e.1

/-- The function `init()`. -/
def init (ext : Collaborators Point FT C) (s : Mesh_2 Point FT C) :
    Option (Mesh_2 Point FT C) :=
  (mark_facets ext { s with bad_faces := Double_map.clear }).bind fun s1 =>
    fill_facet_map
      { s1 with tr := (ext.Conform_init s1.tr s1.cdata).1,
                cdata := (ext.Conform_init s1.tr s1.cdata).2 }

/-- The function `refine_step()`: the state and the returned Boolean. -/
def refine_step [LinearOrder FT] (ext : Collaborators Point FT C) (s : Mesh_2 Point FT C) :
    Option (Mesh_2 Point FT C × Bool) :=
  let r := ext.Conform_refine_step s
  if !r.2 then
    if !r.1.bad_faces.empty then (process_one_face ext r.1).map (fun s2 => (s2, true))
    else some (r.1, false)
  else some (r.1, true)

/-- The condition of the `while` of `refine()`. -/
def refine_cond (ext : Collaborators Point FT C) (s : Mesh_2 Point FT C) : Bool :=
  !ext.Conform_is_conformed s.tr s.cdata || !s.bad_faces.empty

/-- The body of the `while` of `refine()`. -/
def refine_body [LinearOrder FT] (ext : Collaborators Point FT C) (s : Mesh_2 Point FT C) :
    Option (Mesh_2 Point FT C) :=
  (ext.Conform_conform s).bind fun s1 =>
    if !s1.bad_faces.empty then process_one_face ext s1 else some s1

/-- The `while` loop of `refine()`; each unit of fuel pays for one turn, and `none` when
the fuel is spent with the condition still true. -/
def refine_loop [LinearOrder FT] (ext : Collaborators Point FT C) :
    Nat → Mesh_2 Point FT C → Option (Mesh_2 Point FT C)
  | 0, s => if refine_cond ext s then none else some s
  | fuel + 1, s =>
    if refine_cond ext s then (refine_body ext s).bind (refine_loop ext fuel) else some s

/-- The function `refine()`. -/
def refine [LinearOrder FT] (ext : Collaborators Point FT C) (fuel : Nat)
    (s : Mesh_2 Point FT C) : Option (Mesh_2 Point FT C) :=
  (if !s.initialized then init ext s else some s).bind (refine_loop ext fuel)

/-- The caller's loop of the step-by-step interface: `refine_step()` is called until it
returns `false`; each unit of fuel pays for one call. -/
def refine_steps [LinearOrder FT] (ext : Collaborators Point FT C) :
    Nat → Mesh_2 Point FT C → Option (Mesh_2 Point FT C)
  | 0, _ => none
  | fuel + 1, s =>
    match refine_step ext s with
    | none => none
    | some (s1, true) => refine_steps ext fuel s1
    | some (s1, false) => some s1

/-- The loop that calls the conformance step until it returns `false`; each unit of fuel
pays for one call. -/
def Conform_steps (ext : Collaborators Point FT C) :
    Nat → Mesh_2 Point FT C → Option (Mesh_2 Point FT C)
  | 0, _ => none
  | fuel + 1, s =>
    if (ext.Conform_refine_step s).2 then Conform_steps ext fuel (ext.Conform_refine_step s).1
    else some (ext.Conform_refine_step s).1

/-! ## Predicates used to state the properties -/

/-- The face `g` is the neighbour of `f` across a non-constrained edge of `f`. -/
def Triangulation.adjacent (tr : Triangulation Point FT) (f g : Face_handle) : Prop :=
  ∃ i : Fin 3, tr.neighbor f i = g ∧ tr.is_constrained f i = false

/-- The face `g` is reached from `f` by a path of non-constrained edges: `g` is in the
connected component of `f`. -/
def Triangulation.connected (tr : Triangulation Point FT) (f g : Face_handle) : Prop :=
  Relation.ReflTransGen tr.adjacent f g

/-- The neighbours of a face of the triangulation are faces of the triangulation, and so
is the infinite face. -/
def Triangulation.well_formed (tr : Triangulation Point FT) : Prop :=
  (∀ f ∈ tr.all_faces, ∀ i : Fin 3, tr.neighbor f i ∈ tr.all_faces) ∧
    tr.infinite_face ∈ tr.all_faces

/-- The constraint bits agree on both sides of each edge: the neighbour across edge `i`
of `f` has `f` as a neighbour across an edge with the same bit. -/
def Triangulation.constraints_agree (tr : Triangulation Point FT) : Prop :=
  ∀ f ∈ tr.all_faces, ∀ i : Fin 3, ∃ j : Fin 3,
    tr.neighbor (tr.neighbor f i) j = f ∧
      tr.is_constrained (tr.neighbor f i) j = tr.is_constrained f i

/-- What the drained loop of `propagate_marks` has done, from the marks `μ` and the work
queue `q` it started with to the marks `ν` it ends with: no mark `m` is lost, a changed
face is marked `m` and reached from a queued face, and the non-constrained neighbours of
the queued and of the changed faces are marked `m`. -/
structure Drained (tr : Triangulation Point FT) (m : Bool) (μ : Face_handle → Bool)
    (q : List Face_handle) (ν : Face_handle → Bool) : Prop where
  mono : ∀ f, μ f = m → ν f = m
  changed : ∀ f, ν f ≠ μ f → ν f = m ∧ ∃ g ∈ q, tr.connected g f
  queue_done : ∀ g ∈ q, ∀ i : Fin 3, tr.is_constrained g i = false → ν (tr.neighbor g i) = m
  changed_done : ∀ f, ν f ≠ μ f → ∀ i : Fin 3, tr.is_constrained f i = false →
    ν (tr.neighbor f i) = m

/-- What `propagate_marks(start, m)` has done to the marks, from `μ` to `ν`. -/
structure Flooded (tr : Triangulation Point FT) (m : Bool) (μ : Face_handle → Bool)
    (start : Face_handle) (ν : Face_handle → Bool) : Prop where
  start_marked : ν start = m
  mono : ∀ f, μ f = m → ν f = m
  changed : ∀ f, ν f ≠ μ f → ν f = m ∧ tr.connected start f
  closure : ∀ f, f = start ∨ ν f ≠ μ f → ∀ i : Fin 3, tr.is_constrained f i = false →
    ν (tr.neighbor f i) = m

/-- The test `refine_face` makes on a boundary edge of the conflict zone: the edge is
constrained and the point `pc` does not conform to it (it encroaches the edge). -/
def encroached_constrained (ext : Collaborators Point FT C) (tr : Triangulation Point FT)
    (pc : Point) (e : Edge) : Bool :=
  tr.is_constrained e.1 e.2 && !ext.is_locally_gabriel_conform tr e.1 e.2 pc

/-- The cluster clause in the words of the specification: both or neither of
`get_cluster(va, vb)` and `get_cluster(vb, va)` succeed, or exactly one succeeds with a
cluster that is not reduced or whose `rmin` is at least the squared length of the
shortest edge of `f`. -/
def cluster_clause [LinearOrder FT] (ext : Collaborators Point FT C)
    (tr : Triangulation Point FT) (c : C) (f : Face_handle) (va vb : Vertex_handle) : Prop :=
  ((ext.get_cluster tr c va vb).isSome = true ∧ (ext.get_cluster tr c vb va).isSome = true) ∨
  ((ext.get_cluster tr c va vb).isSome = false ∧ (ext.get_cluster tr c vb va).isSome = false) ∨
  ∃ cl : Cluster FT,
    ((ext.get_cluster tr c va vb = some cl ∧ ext.get_cluster tr c vb va = none) ∨
      (ext.get_cluster tr c va vb = none ∧ ext.get_cluster tr c vb va = some cl)) ∧
    (cl.is_reduced = false ∨ cl.rmin ≥ shortest_edge_squared_length tr f)

/-! ## The debugging function -/

/-- The test `is_bad_faces_valid` makes on a drained entry: `is_face` on the three
vertices of the face gives the same handle, the face is marked, and it is bad. -/
def valid_entry (ext : Collaborators Point FT C) (tr : Triangulation Point FT)
    (fh : Face_handle) : Bool :=
  (match ext.is_face tr (tr.vertex fh 0) (tr.vertex fh 1) (tr.vertex fh 2) with
    | some fh2 => decide (fh = fh2)
    | none => false) && tr.is_marked fh && is_bad tr fh

/-- The loop `while(!bad_faces.empty())` of `is_bad_faces_valid`, on the map, the list
`bad_faces_list` and `result`; each unit of fuel pays for one pop. -/
def drain_bad_faces [LinearOrder FT] (ext : Collaborators Point FT C)
    (tr : Triangulation Point FT) :
    Nat → Double_map FT → List (FT × Face_handle) → Bool →
      Option (List (FT × Face_handle) × Bool)
  | 0, Q, acc, result => if Q.empty then some (acc, result) else none
  | fuel + 1, Q, acc, result =>
    if Q.empty then some (acc, result)
    else
      match Q.front with
      | none => none
      | some e =>
        drain_bad_faces ext tr fuel Q.pop_front (acc ++ [(e.2, e.1)])
          (result && valid_entry ext tr e.1)

/-- The function `is_bad_faces_valid()`: the state and the returned Boolean.  The first
loop is given one pop per entry of the map. -/
def is_bad_faces_valid [LinearOrder FT] (ext : Collaborators Point FT C)
    (s : Mesh_2 Point FT C) : Option (Mesh_2 Point FT C × Bool) :=
  (drain_bad_faces ext s.tr s.bad_faces.length s.bad_faces [] true).map fun r =>
    ({ s with bad_faces := r.1.foldl (fun Q x => Double_map.insert Q x.2 x.1) [] }, r.2)

/-! ## The insertion in a constrained edge -/

/-- The member `fc->index(v)` of the face class, the inverse of `vertex(i)`: the index
of the vertex `v` in a face that has `v`, as the faces of the circulator around `v`
do. -/
def Triangulation.index (tr : Triangulation Point FT) (f : Face_handle)
    (v : Vertex_handle) : Fin 3 :=
  if tr.vertex f 0 = v then 0 else if tr.vertex f 1 = v then 1 else 2

/-- The effect of `f->set_constraint(i, b)`. -/
def Triangulation.set_constraint (tr : Triangulation Point FT) (f : Face_handle)
    (i : Fin 3) (b : Bool) : Triangulation Point FT :=
  { tr with is_constrained := fun g j => if g = f ∧ j = i then b else tr.is_constrained g j }

/-- The functions of the triangulation that only `virtual_insert_in_the_edge` calls and
`Mesh_2.h` does not define.  `insert_in_edge` is `insert(p, EDGE, fh, i)`; `is_edge`
gives `none` for the answer `false`, which leaves its reference arguments untouched;
`incident_faces_from` lists one turn of the circulator `incident_faces(v, f)`, which
starts at `f`. -/
structure Edge_collaborators (Point FT : Type) where
  mirror_index : Triangulation Point FT → Face_handle → Fin 3 → Fin 3
  insert_in_edge : Triangulation Point FT → Point → Face_handle → Fin 3 →
    Triangulation Point FT × Vertex_handle
  is_edge : Triangulation Point FT → Vertex_handle → Vertex_handle →
    Option (Face_handle × Fin 3)
  incident_faces_from : Triangulation Point FT → Vertex_handle → Face_handle →
    List Face_handle

/-- The body `if( !is_infinite(fc) ) fc->set_marked(b)` run over a stretch of the
circulator. -/
def mark_finite (tr : Triangulation Point FT) (b : Bool) (fcs : List Face_handle) :
    Triangulation Point FT :=
  fcs.foldl (fun t fc => if !t.is_infinite fc then t.set_marked fc b else t) tr

/-- The number of faces the first `do ... while` of `virtual_insert_in_the_edge` goes
through: the circulator is advanced and then tested, so the loop stops at the first of
the positions 1, 2, ..., n (position n being the start again) whose face has `vb` next
to `vp`.  `none` when no face around `vp` passes the test: the loop does not end. -/
def right_stretch (tr : Triangulation Point FT) (vp vb : Vertex_handle)
    (fcs : List Face_handle) : Option Nat :=
  ((fcs.drop 1 ++ fcs.take 1).findIdx?
    (fun fc => decide (tr.vertex fc (ccw (tr.index fc vp)) = vb))).map (fun j => j + 1)

/-- The function `virtual_insert_in_the_edge(fh, edge_index, p)`: the state and the
returned vertex. -/
def virtual_insert_in_the_edge (ext : Collaborators Point FT C)
    (ed : Edge_collaborators Point FT) (s : Mesh_2 Point FT C) (fh : Face_handle)
    (edge_index : Fin 3) (p : Point) : Option (Mesh_2 Point FT C × Vertex_handle) :=
  let va := s.tr.vertex fh (cw edge_index)
  let vb := s.tr.vertex fh (ccw edge_index)
  let mark_at_right := s.tr.is_marked fh
  let mark_at_left := s.tr.is_marked (s.tr.neighbor fh edge_index)
  let tr1 := s.tr.set_constraint fh edge_index false
  let tr2 := tr1.set_constraint (tr1.neighbor fh edge_index)
    (ed.mirror_index tr1 fh edge_index) false
  let zone_of_p := (ext.get_conflicts_and_boundary tr2 p fh).1
  let tr3 := tr2.set_constraint fh edge_index true
  let tr4 := tr3.set_constraint (tr3.neighbor fh edge_index)
    (ed.mirror_index tr3 fh edge_index) true
  let bad := zone_of_p.foldl Double_map.erase s.bad_faces
  let ins := ed.insert_in_edge tr4 p fh edge_index
  let vp := ins.2
  let fh2 := match ed.is_edge ins.1 va vp with
    | some e => e.1
    | none => fh
  let fcs := ed.incident_faces_from ins.1 vp fh2
  match right_stretch ins.1 vp vb fcs with
  | none => none
  | some k =>
    let tr5 := mark_finite ins.1 mark_at_right (fcs.take k)
    let tr6 := mark_finite tr5 mark_at_left (if k < fcs.length then fcs.drop k else fcs)
    (compute_new_bad_faces ext { s with tr := tr6, bad_faces := bad } vp).map
      (fun t => (t, vp))

/-! ## The invariants of the map of bad faces -/

/-- Property P1 of the map of bad faces: every entry `(f, k)` refers to a face of the
triangulation that is marked and bad, and `k` is its squared minimum sine. -/
def P1 (tr : Triangulation Point FT) (Q : Double_map FT) : Prop :=
  ∀ x ∈ Q, x.1 ∈ tr.all_faces ∧ tr.is_marked x.1 = true ∧ is_bad tr x.1 = true ∧
    x.2 = squared_minimum_sine tr x.1

/-- Property P2 of the map of bad faces: every finite face that is marked and bad has
an entry. -/
def P2 (tr : Triangulation Point FT) (Q : Double_map FT) : Prop :=
  ∀ f ∈ tr.finite_faces, tr.is_marked f = true → is_bad tr f = true → f ∈ Q.map Prod.fst

/-- What an insertion does away from the new vertex, in the terms the map of bad faces
depends on.  `tr` is the triangulation before, `zone` the conflict zone, `tr2` the
triangulation after and `around` the faces around the new vertex.  The faces around
the new vertex are faces; a face outside the conflict zone stays and is not around the
new vertex, with its vertices, their points, its mark and its finiteness; and every
face after the insertion is around the new vertex or is such a face. -/
structure Retriangulated (tr : Triangulation Point FT) (zone : List Face_handle)
    (tr2 : Triangulation Point FT) (around : List Face_handle) : Prop where
  traits : tr2.gt = tr.gt
  around_faces : ∀ g ∈ around, g ∈ tr2.all_faces
  kept : ∀ g ∈ tr.all_faces, g ∉ zone → g ∈ tr2.all_faces ∧ g ∉ around
  kept_vertices : ∀ g ∈ tr.all_faces, g ∉ zone → ∀ i : Fin 3,
    tr2.vertex g i = tr.vertex g i ∧ tr2.point (tr.vertex g i) = tr.point (tr.vertex g i)
  kept_marks : ∀ g ∈ tr.all_faces, g ∉ zone →
    tr2.is_marked g = tr.is_marked g ∧ tr2.is_infinite g = tr.is_infinite g
  covered : ∀ g ∈ tr2.all_faces, g ∈ around ∨ (g ∈ tr.all_faces ∧ g ∉ zone)

/-! ## The values computed inside `split_face` and `virtual_insert_in_the_edge` -/

/-- The conflict zone `zone_of_cc` that `split_face(f, c)` computes. -/
def zone_of (ext : Collaborators Point FT C) (tr : Triangulation Point FT) (c : Point)
    (f : Face_handle) : List Face_handle :=
  (ext.get_conflicts_and_boundary tr c f).1

/-- The triangulation and the vertex `v` after the call of `star_hole` in
`split_face(f, c)`. -/
def star_of (ext : Collaborators Point FT C) (tr : Triangulation Point FT) (c : Point)
    (f : Face_handle) : Triangulation Point FT × Vertex_handle :=
  ext.star_hole tr c (ext.get_conflicts_and_boundary tr c f).2
    (ext.get_conflicts_and_boundary tr c f).1

/-- The triangulation in which `virtual_insert_in_the_edge(fh, i, p)` looks for the
conflicts of `p`: the edge is not constrained. -/
def edge_open (ed : Edge_collaborators Point FT) (tr : Triangulation Point FT)
    (fh : Face_handle) (i : Fin 3) : Triangulation Point FT :=
  (tr.set_constraint fh i false).set_constraint ((tr.set_constraint fh i false).neighbor fh i)
    (ed.mirror_index (tr.set_constraint fh i false) fh i) false

/-- The triangulation `virtual_insert_in_the_edge(fh, i, p)` hands to `insert`: the edge
is constrained again. -/
def edge_closed (ed : Edge_collaborators Point FT) (tr : Triangulation Point FT)
    (fh : Face_handle) (i : Fin 3) : Triangulation Point FT :=
  ((edge_open ed tr fh i).set_constraint fh i true).set_constraint
    (((edge_open ed tr fh i).set_constraint fh i true).neighbor fh i)
    (ed.mirror_index ((edge_open ed tr fh i).set_constraint fh i true) fh i) true

/-- The conflict zone `zone_of_p` of `virtual_insert_in_the_edge(fh, i, p)`. -/
def edge_zone (ext : Collaborators Point FT C) (ed : Edge_collaborators Point FT)
    (tr : Triangulation Point FT) (fh : Face_handle) (i : Fin 3) (p : Point) :
    List Face_handle :=
  (ext.get_conflicts_and_boundary (edge_open ed tr fh i) p fh).1

/-- The triangulation and the vertex `vp` after the call of `insert` in
`virtual_insert_in_the_edge(fh, i, p)`. -/
def edge_insertion (ed : Edge_collaborators Point FT) (tr : Triangulation Point FT)
    (fh : Face_handle) (i : Fin 3) (p : Point) : Triangulation Point FT × Vertex_handle :=
  ed.insert_in_edge (edge_closed ed tr fh i) p fh i

/-- The turn of the circulator `incident_faces(vp, fh)` in
`virtual_insert_in_the_edge(fh, i, p)`, after `is_edge` has reset `fh`. -/
def edge_turn (ed : Edge_collaborators Point FT) (tr : Triangulation Point FT)
    (fh : Face_handle) (i : Fin 3) (p : Point) : List Face_handle :=
  ed.incident_faces_from (edge_insertion ed tr fh i p).1 (edge_insertion ed tr fh i p).2
    (match ed.is_edge (edge_insertion ed tr fh i p).1 (tr.vertex fh (cw i))
        (edge_insertion ed tr fh i p).2 with
      | some e => e.1
      | none => fh)

/-! ## What the properties of the map of bad faces ask of the triangulation -/

/-- What `split_face(f, c)` needs from `get_conflicts_and_boundary`, `star_hole` and
`incident_faces`: the face `f` is in the conflict zone of `c`, the insertion is local to
the zone, and the faces listed around a vertex do not depend on the marks. -/
structure Split_contract (ext : Collaborators Point FT C) (tr : Triangulation Point FT)
    (f : Face_handle) (c : Point) : Prop where
  start_in_zone : f ∈ zone_of ext tr c f
  frame : Retriangulated tr (zone_of ext tr c f) (star_of ext tr c f).1
    (ext.incident_faces (star_of ext tr c f).1 (star_of ext tr c f).2)
  marks_free : ∀ m : Face_handle → Bool,
    ext.incident_faces { (star_of ext tr c f).1 with is_marked := m } (star_of ext tr c f).2 =
      ext.incident_faces (star_of ext tr c f).1 (star_of ext tr c f).2

/-- What `virtual_insert_in_the_edge(fh, i, p)` needs from `get_conflicts_and_boundary`,
`insert` and the two circulators: the insertion is local to the conflict zone, the turn
from `fh` stays among the faces around the new vertex, and the faces listed around a
vertex do not depend on the marks. -/
structure Edge_contract (ext : Collaborators Point FT C) (ed : Edge_collaborators Point FT)
    (tr : Triangulation Point FT) (fh : Face_handle) (i : Fin 3) (p : Point) : Prop where
  frame : Retriangulated (edge_closed ed tr fh i) (edge_zone ext ed tr fh i p)
    (edge_insertion ed tr fh i p).1
    (ext.incident_faces (edge_insertion ed tr fh i p).1 (edge_insertion ed tr fh i p).2)
  turn : ∀ g ∈ edge_turn ed tr fh i p,
    g ∈ ext.incident_faces (edge_insertion ed tr fh i p).1 (edge_insertion ed tr fh i p).2
  marks_free : ∀ m : Face_handle → Bool,
    ext.incident_faces { (edge_insertion ed tr fh i p).1 with is_marked := m }
        (edge_insertion ed tr fh i p).2 =
      ext.incident_faces (edge_insertion ed tr fh i p).1 (edge_insertion ed tr fh i p).2

/-- What `refine_step` needs from `Conform::refine_step()`: the step of the conformance
base leaves the triangulation and the map of bad faces alone, or it changes them by one
call of `virtual_insert_in_the_edge` on an insertion that meets `Edge_contract`. -/
def Conform_step_contract (ext : Collaborators Point FT C) (ed : Edge_collaborators Point FT)
    (s : Mesh_2 Point FT C) : Prop :=
  ((ext.Conform_refine_step s).1.tr = s.tr ∧
      (ext.Conform_refine_step s).1.bad_faces = s.bad_faces) ∨
    ∃ fh i p t, Edge_contract ext ed s.tr fh i p ∧
      virtual_insert_in_the_edge ext ed s fh i p = some t ∧
      (ext.Conform_refine_step s).1.tr = t.1.tr ∧
      (ext.Conform_refine_step s).1.bad_faces = t.1.bad_faces

/-- What `process_one_face()` needs from the triangulation for the face `f` at the front
of the map: `is_face` on the three vertices of `f` finds `f`, and the insertion of the
circumcentre of `f` meets `Split_contract`. -/
def Face_contract [LinearOrder FT] (ext : Collaborators Point FT C)
    (s : Mesh_2 Point FT C) : Prop :=
  ∀ e, s.bad_faces.front = some e →
    ext.is_face s.tr (s.tr.vertex e.1 0) (s.tr.vertex e.1 1) (s.tr.vertex e.1 2) = some e.1 ∧
      Split_contract ext s.tr e.1 (ext.circumcenter s.tr e.1)

/-- The scan of the boundary edges in `refine_face(f)`: the data of the conformance base
and the two flags after the loop. -/
def boundary_scan [LinearOrder FT] (ext : Collaborators Point FT C) (s : Mesh_2 Point FT C)
    (f : Face_handle) : Scan C :=
  (ext.get_conflicts_and_boundary s.tr (ext.circumcenter s.tr f) f).2.foldl
    (refine_face_edge ext s.tr f (ext.circumcenter s.tr f))
    { cdata := s.cdata, split_the_face := true, keep_the_face_bad := false }

/-- The call `refine_step()` drops a face: the conformance step returns `false`, and the
scan for the face at the front of the map ends with both flags `false` (some constrained
boundary edge is encroached and the terminator rule lets none of them be split). -/
def drops_face [LinearOrder FT] (ext : Collaborators Point FT C) (s : Mesh_2 Point FT C) :
    Prop :=
  (ext.Conform_refine_step s).2 = false ∧
    ∃ e, (ext.Conform_refine_step s).1.bad_faces.front = some e ∧
      (boundary_scan ext (ext.Conform_refine_step s).1 e.1).split_the_face = false ∧
      (boundary_scan ext (ext.Conform_refine_step s).1 e.1).keep_the_face_bad = false

/-- The marks after the two loops over the circulator in `virtual_insert_in_the_edge`:
`fcs` is the turn of the circulator, `k` the number of faces the first loop goes through,
and the second loop goes through the rest of the turn, or through the whole turn when
the first loop ends back at the start. -/
def edge_marks (ins : Triangulation Point FT) (mark_at_right mark_at_left : Bool)
    (fcs : List Face_handle) (k : Nat) : Face_handle → Bool :=
  fun g =>
    if g ∈ (if k < fcs.length then fcs.drop k else fcs) ∧ ins.is_infinite g = false then
      mark_at_left
    else if g ∈ fcs.take k ∧ ins.is_infinite g = false then mark_at_right
    else ins.is_marked g

/-! ## The marks and the components -/

/-- Every component bounded by constrained edges carries one mark: a face reached from
a face of the triangulation across non-constrained edges has the mark of that face. -/
def Marks_uniform (tr : Triangulation Point FT) : Prop :=
  ∀ f ∈ tr.all_faces, ∀ g, tr.connected f g → tr.is_marked g = tr.is_marked f

/-- The component of the infinite faces is unmarked: a face reached from an infinite
face across non-constrained edges is not marked. -/
def Outside_unmarked (tr : Triangulation Point FT) : Prop :=
  ∀ f ∈ tr.all_faces, tr.is_infinite f = true → ∀ g, tr.connected f g →
    tr.is_marked g = false

/-- The state of the marks that `mark_facets` leaves: uniform on every component, and
`false` on the component of the infinite faces. -/
def Marks_ok (tr : Triangulation Point FT) : Prop :=
  Marks_uniform tr ∧ Outside_unmarked tr

/-- A search for `g` from `f` across non-constrained edges, along paths of at most `n`
edges. -/
def reach (tr : Triangulation Point FT) : Nat → Face_handle → Face_handle → Bool
  | 0, f, g => decide (f = g)
  | n + 1, f, g =>
    decide (f = g) ||
      ([0, 1, 2] : List (Fin 3)).any
        (fun i => !tr.is_constrained f i && reach tr n (tr.neighbor f i) g)

/-- What the preservation of the marks asks of an insertion, from the triangulation
`tr` to `tr2`.  Every face of `tr2` descends from a face `anc g` of `tr` (itself, for a
face the insertion left alone; a face of the conflict zone, for a face around the new
vertex).  The neighbours of the faces of `tr2` are faces of `tr2`; two faces of `tr2` on
a non-constrained edge descend from one component of `tr`; and an infinite face of
`tr2` descends from the component of an infinite face of `tr`. -/
structure Descends (tr tr2 : Triangulation Point FT) (anc : Face_handle → Face_handle) :
    Prop where
  closed : ∀ g ∈ tr2.all_faces, ∀ i : Fin 3, tr2.neighbor g i ∈ tr2.all_faces
  anc_face : ∀ g ∈ tr2.all_faces, anc g ∈ tr.all_faces
  anc_adjacent : ∀ g ∈ tr2.all_faces, ∀ i : Fin 3, tr2.is_constrained g i = false →
    tr.connected (anc g) (anc (tr2.neighbor g i)) ∨
      tr.connected (anc (tr2.neighbor g i)) (anc g)
  anc_infinite : ∀ g ∈ tr2.all_faces, tr2.is_infinite g = true →
    ∃ z ∈ tr.all_faces, tr.is_infinite z = true ∧ tr.connected z (anc g)

/-- The face of the old triangulation from which a face descends after
`split_face(f, c)`: the faces around the new vertex descend from `f`. -/
def split_anc (ext : Collaborators Point FT C) (tr : Triangulation Point FT) (c : Point)
    (f : Face_handle) : Face_handle → Face_handle :=
  fun g =>
    if g ∈ ext.incident_faces (star_of ext tr c f).1 (star_of ext tr c f).2 then f else g

/-- The face of the old triangulation from which a face descends after
`virtual_insert_in_the_edge(fh, i, p)` whose first loop goes through `k` faces: the
faces of the second loop descend from the neighbour of `fh`, the other faces of the
first loop from `fh`. -/
def edge_anc (ed : Edge_collaborators Point FT) (tr : Triangulation Point FT)
    (fh : Face_handle) (i : Fin 3) (p : Point) (k : Nat) : Face_handle → Face_handle :=
  fun g =>
    if g ∈ (if k < (edge_turn ed tr fh i p).length then (edge_turn ed tr fh i p).drop k
        else edge_turn ed tr fh i p) then tr.neighbor fh i
    else if g ∈ (edge_turn ed tr fh i p).take k then fh
    else g

/-! ## The constrained edges and the conformance base -/

/-- The edge `i` of the face `f` is locally Gabriel on the side of `f`: the vertex of `f`
opposite the edge conforms to it. -/
def locally_gabriel (ext : Collaborators Point FT C) (tr : Triangulation Point FT)
    (f : Face_handle) (i : Fin 3) : Bool :=
  ext.is_locally_gabriel_conform tr f i (tr.point (tr.vertex f i))

/-- Invariant I3: every constrained edge, seen from each finite face it bounds, is
locally Gabriel or waits in the conformance base.  `pending c va vb` says that the edge
of end points `va`, `vb` is among the edges to be conformed of the data `c`. -/
def I3 (ext : Collaborators Point FT C) (pending : C → Vertex_handle → Vertex_handle → Bool)
    (tr : Triangulation Point FT) (c : C) : Prop :=
  ∀ f ∈ tr.finite_faces, ∀ i : Fin 3, tr.is_constrained f i = true →
    locally_gabriel ext tr f i = true ∨
      pending c (tr.vertex f (cw i)) (tr.vertex f (ccw i)) = true ∨
      pending c (tr.vertex f (ccw i)) (tr.vertex f (cw i)) = true

/-- Every constrained edge, seen from each finite face it bounds, is locally Gabriel. -/
def All_gabriel (ext : Collaborators Point FT C) (tr : Triangulation Point FT) : Prop :=
  ∀ f ∈ tr.finite_faces, ∀ i : Fin 3, tr.is_constrained f i = true →
    locally_gabriel ext tr f i = true

/-- What invariant I3 asks of `star_hole` in `split_face(f, c)`.  The Gabriel test does
not read the marks.  A finite face away from the new vertex was a finite face before,
and each of its constrained edges was constrained, with the same end points and the same
answer of the Gabriel test.  A constrained edge of a finite face around the new vertex
is a constrained boundary edge of the conflict zone, and the Gabriel test of the new
vertex against it is the test of the point `c` against that boundary edge. -/
structure Gabriel_frame (ext : Collaborators Point FT C) (tr : Triangulation Point FT)
    (f : Face_handle) (c : Point) : Prop where
  marks_free : ∀ (m : Face_handle → Bool) (g : Face_handle) (i : Fin 3) (p : Point),
    ext.is_locally_gabriel_conform { (star_of ext tr c f).1 with is_marked := m } g i p =
      ext.is_locally_gabriel_conform (star_of ext tr c f).1 g i p
  kept : ∀ g ∈ (star_of ext tr c f).1.finite_faces,
    g ∉ ext.incident_faces (star_of ext tr c f).1 (star_of ext tr c f).2 →
    ∀ i : Fin 3, (star_of ext tr c f).1.is_constrained g i = true →
      g ∈ tr.finite_faces ∧ tr.is_constrained g i = true ∧
      (star_of ext tr c f).1.vertex g (cw i) = tr.vertex g (cw i) ∧
      (star_of ext tr c f).1.vertex g (ccw i) = tr.vertex g (ccw i) ∧
      locally_gabriel ext (star_of ext tr c f).1 g i = locally_gabriel ext tr g i
  fan : ∀ g ∈ (star_of ext tr c f).1.finite_faces,
    g ∈ ext.incident_faces (star_of ext tr c f).1 (star_of ext tr c f).2 →
    ∀ i : Fin 3, (star_of ext tr c f).1.is_constrained g i = true →
      ∃ e ∈ (ext.get_conflicts_and_boundary tr c f).2,
        tr.is_constrained e.1 e.2 = true ∧
        (star_of ext tr c f).1.vertex g (cw i) = tr.vertex e.1 (ccw e.2) ∧
        (star_of ext tr c f).1.vertex g (ccw i) = tr.vertex e.1 (cw e.2) ∧
        locally_gabriel ext (star_of ext tr c f).1 g i =
          ext.is_locally_gabriel_conform tr e.1 e.2 c

/-- What invariant I3 asks of the collaborators for one `process_one_face()`: an edge
that waits in the conformance base still waits after
`add_contrained_edge_to_be_conform`, and the insertion of the circumcentre of the face
at the front of the map meets `Gabriel_frame`. -/
def Gabriel_contract [LinearOrder FT] (ext : Collaborators Point FT C)
    (pending : C → Vertex_handle → Vertex_handle → Bool) (s : Mesh_2 Point FT C) : Prop :=
  (∀ c va vb x y, pending c x y = true →
      pending (ext.add_contrained_edge_to_be_conform s.tr c va vb) x y = true) ∧
    ∀ e, s.bad_faces.front = some e →
      Gabriel_frame ext s.tr e.1 (ext.circumcenter s.tr e.1)

/-- The case of the terminator in the words of the specification: exactly one of
`get_cluster(va, vb)` and `get_cluster(vb, va)` succeeds, with a cluster that is reduced
and whose `rmin` is below the squared length of the shortest edge of `f`. -/
def cluster_protects [LinearOrder FT] (ext : Collaborators Point FT C)
    (tr : Triangulation Point FT) (c : C) (f : Face_handle) (va vb : Vertex_handle) : Prop :=
  ∃ cl : Cluster FT,
    ((ext.get_cluster tr c va vb = some cl ∧ ext.get_cluster tr c vb va = none) ∨
      (ext.get_cluster tr c va vb = none ∧ ext.get_cluster tr c vb va = some cl)) ∧
    cl.is_reduced = true ∧ cl.rmin < shortest_edge_squared_length tr f

/-- The boundary edge `e` is one that the scan of `refine_face(f)` hands to
`add_contrained_edge_to_be_conform` when the data of the conformance base is `c`: it is
constrained, encroached by `pc`, and the cluster clause holds. -/
def enqueues_edge [LinearOrder FT] (ext : Collaborators Point FT C)
    (tr : Triangulation Point FT) (f : Face_handle) (pc : Point) (c : C) (e : Edge) : Prop :=
  encroached_constrained ext tr pc e = true ∧
    cluster_clause ext tr c f (tr.vertex e.1 (cw e.2)) (tr.vertex e.1 (ccw e.2))

/-- The test that ends the first loop of `virtual_insert_in_the_edge`: the face `fc`
around `vp` has `vb` as the vertex that follows `vp`. -/
def follows (tr : Triangulation Point FT) (vp vb : Vertex_handle) (fc : Face_handle) : Bool :=
  decide (tr.vertex fc (ccw (tr.index fc vp)) = vb)

/-- The faces of the turn `fcs` around `vp` on the side where the turn starts, in the
words of the specification: the walk switches sides when it reaches the face adjacent to
`vb`. -/
def near_side (tr : Triangulation Point FT) (vp vb : Vertex_handle)
    (fcs : List Face_handle) : List Face_handle :=
  fcs.takeWhile (fun fc => !follows tr vp vb fc)

/-- The faces of the turn `fcs` around `vp` from the face adjacent to `vb` on: the
other side of the line through `vp` and `vb`. -/
def far_side (tr : Triangulation Point FT) (vp vb : Vertex_handle)
    (fcs : List Face_handle) : List Face_handle :=
  fcs.dropWhile (fun fc => !follows tr vp vb fc)

/-- The condition under which the specification has `refine_face(f)` enqueue the boundary
edge `e` for conformance, as a test on the data `c` of the conformance base: the edge is
constrained, the point `pc` encroaches it, and both or neither of `get_cluster(va, vb)`
and `get_cluster(vb, va)` succeed, or exactly one succeeds with a cluster that is not
reduced or whose `rmin` is at least the squared length of the shortest edge of `f`. -/
def enqueue_test [LinearOrder FT] (ext : Collaborators Point FT C)
    (tr : Triangulation Point FT) (f : Face_handle) (pc : Point) (c : C) (e : Edge) : Bool :=
  tr.is_constrained e.1 e.2 && !ext.is_locally_gabriel_conform tr e.1 e.2 pc &&
    (match ext.get_cluster tr c (tr.vertex e.1 (cw e.2)) (tr.vertex e.1 (ccw e.2)),
        ext.get_cluster tr c (tr.vertex e.1 (ccw e.2)) (tr.vertex e.1 (cw e.2)) with
      | some _, some _ => true
      | none, none => true
      | some cl, none =>
        !cl.is_reduced || decide (cl.rmin ≥ shortest_edge_squared_length tr f)
      | none, some cl =>
        !cl.is_reduced || decide (cl.rmin ≥ shortest_edge_squared_length tr f))

/-- The data of the conformance base after the boundary edges `l` have been looked at, in
the words of the specification: each edge that passes `enqueue_test` is enqueued by
`add_contrained_edge_to_be_conform`, in the order of the list, and nothing else is. -/
def enqueued_data [LinearOrder FT] (ext : Collaborators Point FT C)
    (tr : Triangulation Point FT) (f : Face_handle) (pc : Point) (l : List Edge) (c : C) : C :=
  l.foldl (fun d e =>
    if enqueue_test ext tr f pc d e then
      ext.add_contrained_edge_to_be_conform tr d (tr.vertex e.1 (cw e.2))
        (tr.vertex e.1 (ccw e.2))
    else d) c

end Members

/-! ## A small mesh to run the functions on

One triangle with vertices 1, 2, 3 at (0,0), (4,0), (0,4), its three edges constrained, and
the three infinite faces around it (vertex 0 is the infinite vertex).  Face `f` is the
face opposite vertex `f` of the tetrahedron 0, 1, 2, 3. -/

/-- Squared distance of two integer points. -/
def sq_dist (p q : Int × Int) : Int :=
  (p.1 - q.1) * (p.1 - q.1) + (p.2 - q.2) * (p.2 - q.2)

/-- Thousandths of the squared sine of the smallest angle of the triangle `a b c`. -/
def sq_min_sine (a b c : Int × Int) : Int :=
  let x := (b.1 - a.1) * (c.2 - a.2) - (b.2 - a.2) * (c.1 - a.1)
  let s1 := sq_dist b c
  let s2 := sq_dist c a
  let s3 := sq_dist a b
  (1000 * (x * x) * min s1 (min s2 s3)) / (s1 * s2 * s3)

/-- Traits with an angle bound: a triangle is bad when the squared sine of its smallest
angle is below `bound` thousandths. -/
def angle_traits (bound : Int) : Geom_traits (Int × Int) Int where
  is_bad := fun a b c => decide (sq_min_sine a b c < bound)
  compute_squared_minimum_sine_2 := sq_min_sine
  compute_squared_distance_2 := sq_dist

/-- The triangulation of the one triangle, no face marked. -/
def tetra (bound : Int) : Triangulation (Int × Int) Int where
  gt := angle_traits bound
  dimension := 2
  all_faces := [0, 1, 2, 3]
  infinite_face := 1
  is_infinite := fun f => f != 0
  vertex := fun f i => (f + 1 + i.val) % 4
  neighbor := fun f i => (f + 1 + i.val) % 4
  is_constrained := fun f i => f == 0 || f + i.val == 3
  is_marked := fun _ => false
  point := fun v => if v = 2 then (4, 0) else if v = 3 then (0, 4) else (0, 0)

/-- Stand-ins for the collaborators on `tetra`.  The conformance base has nothing to do
(it reports `is_conformed()`, its step returns `false`) and its `init` applies `binit` to
its data.  A point is located in the triangle or in the infinite face 1; the conflict
zone of a point is the face itself; the circumcentre is the midpoint (2,2) of the
hypotenuse; a point conforms to an edge when it is not strictly inside its diametral
disk; and an edge has a reduced cluster of `rmin` 0 at its endpoint of smaller handle
only. -/
def stub {C : Type} (binit : C → C) : Collaborators (Int × Int) Int C where
  locate := fun _ p =>
    if 0 ≤ p.1 ∧ 0 ≤ p.2 ∧ p.1 + p.2 ≤ 4 then some 0 else some 1
  is_face := fun tr va vb vc =>
    tr.all_faces.find? (fun f =>
      [va, vb, vc].all (fun v => decide (v ∈ [tr.vertex f 0, tr.vertex f 1, tr.vertex f 2])))
  incident_faces := fun tr v =>
    tr.all_faces.filter (fun f => decide (v ∈ [tr.vertex f 0, tr.vertex f 1, tr.vertex f 2]))
  circumcenter := fun _ _ => (2, 2)
  get_conflicts_and_boundary := fun tr _ f =>
    ([f], [(tr.neighbor f 0, 2), (tr.neighbor f 1, 1), (tr.neighbor f 2, 0)])
  star_hole := fun tr _ _ _ => (tr, 0)
  is_locally_gabriel_conform := fun tr fh i p =>
    let a := tr.point (tr.vertex fh (cw i))
    let b := tr.point (tr.vertex fh (ccw i))
    decide (0 ≤ (p.1 - a.1) * (p.1 - b.1) + (p.2 - a.2) * (p.2 - b.2))
  get_cluster := fun _ _ va vb => if va < vb then some ⟨true, 0⟩ else none
  add_contrained_edge_to_be_conform := fun _ c _ _ => c
  Conform_init := fun tr c => (tr, binit c)
  Conform_is_conformed := fun _ _ => true
  Conform_conform := fun s => some s
  Conform_refine_step := fun s => (s, false)

/-- A freshly constructed mesher on `tetra` with the given seeds. -/
def mesh {C : Type} (bound : Int) (c : C) (seeds : List (Int × Int)) (seeds_mark : Bool) :
    Mesh_2 (Int × Int) Int C where
  tr := tetra bound
  cdata := c
  bad_faces := []
  initialized := false
  seeds := seeds
  seeds_mark := seeds_mark

/-! ## A prepared run with a sharp corner

Points are named by their vertex handle.  The domain is the quadrilateral 2, 1, 3, 4 with
its four sides constrained, cut by the diagonal 2-3 into the faces 0 = (2,1,3) and
1 = (2,3,4); faces 2 to 5 are the infinite faces on the sides 2-1, 1-3, 3-4, 4-2.  The
side 2-1 lies in a reduced cluster at vertex 1.  The collaborators are doubles that
answer from tables: both circumcentres encroach the side 2-1 as long as it is whole, the
conformance base splits it at a new vertex 5 (faces 0 and 2 are cut, faces 6 and 7 are
new), and afterwards the circumcentre of face 1 encroaches nothing, so `star_hole` can
insert it as vertex 6 in place of faces 1 and 0 (faces 8 and 9 are new). -/

/-- Entry `i` of row `f` of a table of three columns. -/
def table3 (rows : List (List Nat)) (f : Nat) (i : Fin 3) : Nat :=
  (rows.getD f []).getD i.val 0

/-- Traits answering from tables: the faces (2,1,3) and (2,3,4) are bad, (2,3,4) the
worse; the edge 1-3 is the shortest of the first and 3-4 the shortest of the second. -/
def corner_traits : Geom_traits Nat Int where
  is_bad := fun a b c => decide ((a, b, c) = (2, 1, 3) ∨ (a, b, c) = (2, 3, 4))
  compute_squared_minimum_sine_2 := fun a b c =>
    if (a, b, c) = (2, 3, 4) then 100 else if (a, b, c) = (2, 1, 3) then 200 else 900
  compute_squared_distance_2 := fun p q =>
    if (p, q) = (1, 3) ∨ (p, q) = (3, 1) then 20
    else if (p, q) = (3, 4) ∨ (p, q) = (4, 3) then 41 else 400

/-- The triangulation before any insertion. -/
def corner0 : Triangulation Nat Int where
  gt := corner_traits
  dimension := 2
  all_faces := [0, 1, 2, 3, 4, 5]
  infinite_face := 2
  is_infinite := fun f => decide (2 ≤ f)
  vertex := table3 [[2, 1, 3], [2, 3, 4], [1, 2, 0], [3, 1, 0], [4, 3, 0], [2, 4, 0]]
  neighbor := table3 [[3, 1, 2], [4, 5, 0], [5, 3, 0], [2, 4, 0], [3, 5, 1], [4, 2, 1]]
  is_constrained := fun f i =>
    decide ((f, i.val) ∈ [(0, 0), (0, 2), (1, 0), (1, 1), (2, 2), (3, 2), (4, 2), (5, 2)])
  is_marked := fun _ => false
  point := fun v => v

/-- The triangulation after the side 2-1 has been split at vertex 5, with the marks
`virtual_insert_in_the_edge` gives. -/
def corner1 : Triangulation Nat Int where
  gt := corner_traits
  dimension := 2
  all_faces := [0, 1, 2, 3, 4, 5, 6, 7]
  infinite_face := 2
  is_infinite := fun f => decide (f ∈ [2, 3, 4, 5, 7])
  vertex := table3
    [[2, 5, 3], [2, 3, 4], [5, 2, 0], [3, 1, 0], [4, 3, 0], [2, 4, 0], [5, 1, 3], [1, 5, 0]]
  neighbor := table3
    [[6, 1, 2], [4, 5, 0], [5, 7, 0], [7, 4, 6], [3, 5, 1], [4, 2, 1], [3, 0, 7], [2, 3, 6]]
  is_constrained := fun f i =>
    decide ((f, i.val) ∈
      [(0, 2), (2, 2), (6, 2), (7, 2), (6, 0), (3, 2), (1, 0), (4, 2), (1, 1), (5, 2)])
  is_marked := fun f => decide (f ∈ [0, 1, 6])
  point := fun v => v

/-- The triangulation after vertex 6 has replaced the faces 1 and 0 of `corner1`; the
marks are those handed over. -/
def corner2 (marks : Face_handle → Bool) : Triangulation Nat Int where
  gt := corner_traits
  dimension := 2
  all_faces := [0, 1, 2, 3, 4, 5, 6, 7, 8, 9]
  infinite_face := 2
  is_infinite := fun f => decide (f ∈ [2, 3, 4, 5, 7])
  vertex := table3
    [[4, 2, 6], [3, 4, 6], [5, 2, 0], [3, 1, 0], [4, 3, 0], [2, 4, 0], [5, 1, 3], [1, 5, 0],
      [2, 5, 6], [5, 3, 6]]
  neighbor := table3
    [[8, 1, 5], [0, 9, 4], [5, 7, 8], [7, 4, 6], [3, 5, 1], [4, 2, 0], [3, 9, 7], [2, 3, 6],
      [9, 0, 2], [1, 8, 6]]
  is_constrained := fun f i =>
    decide ((f, i.val) ∈
      [(8, 2), (2, 2), (6, 2), (7, 2), (6, 0), (3, 2), (1, 2), (4, 2), (0, 2), (5, 2)])
  is_marked := marks
  point := fun v => v

/-- The doubles of the prepared run.  The data of the conformance base is its list of
edges to be conformed; its loop and its step split the pending side as
`virtual_insert_in_the_edge` does: the cut faces 0 and 2 leave the map of bad faces and
no face around vertex 5 is bad. -/
def corner_stub : Collaborators Nat Int (List (Vertex_handle × Vertex_handle)) where
  locate := fun _ _ => none
  is_face := fun tr va vb vc =>
    tr.all_faces.find? (fun f =>
      [va, vb, vc].all (fun v => decide (v ∈ [tr.vertex f 0, tr.vertex f 1, tr.vertex f 2])))
  incident_faces := fun tr v =>
    tr.all_faces.filter (fun f => decide (v ∈ [tr.vertex f 0, tr.vertex f 1, tr.vertex f 2]))
  circumcenter := fun _ f => if f = 1 then 6 else 7
  get_conflicts_and_boundary := fun tr _ _ =>
    if tr.all_faces.length = 6 then ([1, 0], [(2, 2), (3, 2), (4, 2), (5, 2)])
    else ([1, 0], [(2, 2), (6, 1), (4, 2), (5, 2)])
  star_hole := fun tr _ _ _ => (corner2 tr.is_marked, 6)
  is_locally_gabriel_conform := fun tr fh i _ =>
    !(decide (tr.all_faces.length = 6) && decide (fh = 2) && decide (i = 2))
  get_cluster := fun _ _ va vb => if va = 1 ∧ vb = 2 then some ⟨true, 30⟩ else none
  add_contrained_edge_to_be_conform := fun _ c va vb => c ++ [(va, vb)]
  Conform_init := fun tr _ => (tr, [])
  Conform_is_conformed := fun _ c => c.isEmpty
  Conform_conform := fun s =>
    if s.cdata.isEmpty then some s
    else some { s with tr := corner1, cdata := [],
                       bad_faces := (s.bad_faces.erase 0).erase 2 }
  Conform_refine_step := fun s =>
    if s.cdata.isEmpty then (s, false)
    else ({ s with tr := corner1, cdata := [],
                   bad_faces := (s.bad_faces.erase 0).erase 2 }, true)

/-- A freshly constructed mesher on `corner0`, without seeds. -/
def corner_mesh : Mesh_2 Nat Int (List (Vertex_handle × Vertex_handle)) where
  tr := corner0
  cdata := []
  bad_faces := []
  initialized := false
  seeds := []
  seeds_mark := false

/-- A mesher on `corner1` at rest: the bad face 1 is the one entry of the map of bad
faces and nothing waits to be conformed. -/
def corner_ready : Mesh_2 Nat Int (List (Vertex_handle × Vertex_handle)) where
  tr := corner1
  cdata := []
  bad_faces := [(1, 100)]
  initialized := false
  seeds := []
  seeds_mark := false

/-! ## The split of the side 2-1 of the sharp corner

The conformance base splits the side 2-1 of `corner0` at the new vertex 5 by a call
`virtual_insert_in_the_edge(0, 2, 5)`: face 0 is at the right of the edge from vertex 1 to
vertex 2 and the infinite face 2 at its left.  The insertion cuts both; four faces are
around vertex 5 afterwards, two finite ones in the domain and two infinite ones. -/

/-- The triangulation `corner0` with the marks `mark_facets` gives: the two faces of the
domain are marked. -/
def corner0m : Triangulation Nat Int :=
  { corner0 with is_marked := fun f => decide (f ∈ [0, 1]) }

/-- The triangulation after the side 2-1 has been split at vertex 5 when the insertion
reuses the handle 0 of the cut face of the domain for the infinite face (1,5,0) and gives
the new handle 7 to the face (2,5,3): the faces 0 and 7 of `corner1` change places. -/
def corner1r (marks : Face_handle → Bool) : Triangulation Nat Int where
  gt := corner_traits
  dimension := 2
  all_faces := [0, 1, 2, 3, 4, 5, 6, 7]
  infinite_face := 2
  is_infinite := fun f => decide (f ∈ [2, 3, 4, 5, 0])
  vertex := table3
    [[1, 5, 0], [2, 3, 4], [5, 2, 0], [3, 1, 0], [4, 3, 0], [2, 4, 0], [5, 1, 3], [2, 5, 3]]
  neighbor := table3
    [[2, 3, 6], [4, 5, 7], [5, 0, 7], [0, 4, 6], [3, 5, 1], [4, 2, 1], [3, 7, 0], [6, 1, 2]]
  is_constrained := fun f i =>
    decide ((f, i.val) ∈
      [(7, 2), (2, 2), (6, 2), (0, 2), (6, 0), (3, 2), (1, 0), (4, 2), (1, 1), (5, 2)])
  is_marked := marks
  point := fun v => v

/-- One turn of the face circulator around `v` from `start`, counter-clockwise: the face
after `f` is its neighbour across the edge that follows `v`. -/
def turn_around (tr : Triangulation Nat Int) (v : Vertex_handle) (start : Face_handle) :
    Nat → Face_handle → List Face_handle
  | 0, _ => []
  | n + 1, f =>
    f :: (if tr.neighbor f (ccw (tr.index f v)) = start then []
          else turn_around tr v start n (tr.neighbor f (ccw (tr.index f v))))

/-- The doubles of the triangulation functions of the edge insertion.  The new vertex is
5 and the insertion leaves the mark of every handle as it finds it; with `reuse` the
handle of the cut face of the domain comes back as an infinite face (`corner1r`), without
it every handle stays on its side (`corner1`). -/
def corner_edge (reuse : Bool) : Edge_collaborators Nat Int where
  mirror_index := fun tr f i =>
    if tr.neighbor (tr.neighbor f i) 0 = f then 0
    else if tr.neighbor (tr.neighbor f i) 1 = f then 1 else 2
  insert_in_edge := fun tr _ _ _ =>
    (if reuse then corner1r tr.is_marked else { corner1 with is_marked := tr.is_marked }, 5)
  is_edge := fun tr va vb =>
    tr.all_faces.findSome? (fun f =>
      ([0, 1, 2] : List (Fin 3)).findSome? (fun i =>
        if tr.vertex f (cw i) = va ∧ tr.vertex f (ccw i) = vb then some (f, i) else none))
  incident_faces_from := fun tr v f => turn_around tr v f tr.all_faces.length f

/-- The doubles of `corner_stub`, with the conflict zone of the point 5 on the side 2-1:
the two faces on the side. -/
def edge_stub : Collaborators Nat Int (List (Vertex_handle × Vertex_handle)) :=
  { corner_stub with
    get_conflicts_and_boundary := fun tr p f =>
      if p = 5 then ([0, 2], []) else corner_stub.get_conflicts_and_boundary tr p f }

/-- A mesher on `corner0m` after `init()`, with the side 2-1 waiting to be conformed. -/
def corner_pending : Mesh_2 Nat Int (List (Vertex_handle × Vertex_handle)) where
  tr := corner0m
  cdata := [(2, 1)]
  bad_faces := [(0, 200), (1, 100)]
  initialized := false
  seeds := []
  seeds_mark := false

/-- The doubles of `edge_stub`, with a step of the conformance base that splits the
pending side 2-1 by the call `virtual_insert_in_the_edge(0, 2, 5)`. -/
def conform_stub : Collaborators Nat Int (List (Vertex_handle × Vertex_handle)) :=
  { edge_stub with
    Conform_refine_step := fun s =>
      if s.cdata.isEmpty then (s, false)
      else
        match virtual_insert_in_the_edge edge_stub (corner_edge false) s 0 2 5 with
        | some t => ({ t.1 with cdata := [] }, true)
        | none => (s, false) }

/-- The edges to be conformed of the doubles `corner_stub`: the pairs of the list. -/
def corner_waits (c : List (Vertex_handle × Vertex_handle)) (va vb : Vertex_handle) : Bool :=
  decide ((va, vb) ∈ c)

/-- The state of `corner_ready` after `init()`. -/
def corner_started : Mesh_2 Nat Int (List (Vertex_handle × Vertex_handle)) :=
  (init corner_stub corner_ready).getD corner_ready

/-- The state of `corner_started` after one `process_one_face()`. -/
def corner_refined : Mesh_2 Nat Int (List (Vertex_handle × Vertex_handle)) :=
  (process_one_face corner_stub corner_started).getD corner_started

/-! ## A criterion that no triangle meets

The domain is the quadrilateral of `corner0` and every triangle is bad.  The doubles
insert the circumcentre of a face inside the face: the conflict zone is the face itself
and `star_hole` cuts it into three.  The point of a vertex is named by the handle of the
vertex, no circumcentre encroaches an edge, and the conformance base has nothing to
do. -/

/-- Traits for which every triangle is bad. -/
def greedy_traits : Geom_traits Nat Int where
  is_bad := fun _ _ _ => true
  compute_squared_minimum_sine_2 := fun _ _ _ => 0
  compute_squared_distance_2 := fun _ _ => 1

/-- The triangulation after the vertex `v` has been inserted in the face `f` = (a, b, c):
`f` becomes (v, b, c) and the two new faces are (a, v, c) and (a, b, v).  The new faces
are finite when `f` is, and come unmarked. -/
def split3 (tr : Triangulation Nat Int) (f : Face_handle) (v : Vertex_handle) :
    Triangulation Nat Int :=
  { tr with
    all_faces := tr.all_faces ++ [tr.all_faces.length, tr.all_faces.length + 1]
    is_infinite := fun g => if g ∈ tr.all_faces then tr.is_infinite g else tr.is_infinite f
    vertex := fun g i =>
      if g = f then (if i = 0 then v else tr.vertex f i)
      else if g = tr.all_faces.length then (if i = 1 then v else tr.vertex f i)
      else if g = tr.all_faces.length + 1 then (if i = 2 then v else tr.vertex f i)
      else tr.vertex g i
    neighbor := fun g i =>
      if g = f then
        (if i = 0 then tr.neighbor f 0 else if i = 1 then tr.all_faces.length
          else tr.all_faces.length + 1)
      else if g = tr.all_faces.length then
        (if i = 0 then f else if i = 1 then tr.neighbor f 1 else tr.all_faces.length + 1)
      else if g = tr.all_faces.length + 1 then
        (if i = 0 then f else if i = 1 then tr.all_faces.length else tr.neighbor f 2)
      else if tr.neighbor g i = f then
        (if g = tr.neighbor f 1 then tr.all_faces.length
          else if g = tr.neighbor f 2 then tr.all_faces.length + 1 else f)
      else tr.neighbor g i
    is_constrained := fun g i =>
      if g = f then decide (i = 0) && tr.is_constrained f 0
      else if g = tr.all_faces.length then decide (i = 1) && tr.is_constrained f 1
      else if g = tr.all_faces.length + 1 then decide (i = 2) && tr.is_constrained f 2
      else tr.is_constrained g i
    is_marked := fun g => if g ∈ tr.all_faces then tr.is_marked g else false }

/-- The doubles of the run on which every triangle is bad. -/
def grow : Collaborators Nat Int Unit where
  locate := fun _ _ => none
  is_face := fun tr va vb vc =>
    tr.all_faces.find? (fun f =>
      [va, vb, vc].all (fun v => decide (v ∈ [tr.vertex f 0, tr.vertex f 1, tr.vertex f 2])))
  incident_faces := fun tr v =>
    tr.all_faces.filter (fun f => decide (v ∈ [tr.vertex f 0, tr.vertex f 1, tr.vertex f 2]))
  circumcenter := fun tr _ => tr.all_faces.length
  get_conflicts_and_boundary := fun tr _ f =>
    ([f], ([0, 1, 2] : List (Fin 3)).map (fun i =>
      (tr.neighbor f i,
        if tr.neighbor (tr.neighbor f i) 0 = f then 0
        else if tr.neighbor (tr.neighbor f i) 1 = f then 1 else 2)))
  star_hole := fun tr p _ zone =>
    match zone with
    | [f] => (split3 tr f p, p)
    | _ => (tr, 0)
  is_locally_gabriel_conform := fun _ _ _ _ => true
  get_cluster := fun _ _ _ _ => none
  add_contrained_edge_to_be_conform := fun _ c _ _ => c
  Conform_init := fun tr c => (tr, c)
  Conform_is_conformed := fun _ _ => true
  Conform_conform := fun s => some s
  Conform_refine_step := fun s => (s, false)

/-- A freshly constructed mesher on the quadrilateral of `corner0`, with the criterion
that no triangle meets. -/
def greedy_mesh : Mesh_2 Nat Int Unit where
  tr := { corner0 with gt := greedy_traits }
  cdata := ()
  bad_faces := []
  initialized := false
  seeds := []
  seeds_mark := false

/-- What every state of the run on `greedy_mesh` has: every triangle is bad, the map of
bad faces is not empty, and its entries are marked finite faces of the triangulation. -/
def Growing (u : Mesh_2 Nat Int Unit) : Prop :=
  (∀ a b c, u.tr.gt.is_bad a b c = true) ∧ u.bad_faces ≠ [] ∧
    ∀ x ∈ u.bad_faces, x.1 ∈ u.tr.all_faces ∧ u.tr.is_marked x.1 = true ∧
      u.tr.is_infinite x.1 = false

/-! ## A circumcentre that encroaches two sides

The doubles of `corner_stub`, with the circumcentres encroaching the side 4-3 as well as
the side 2-1 of `corner0`.  The side 2-1 lies in the reduced cluster at vertex 1; the
side 4-3 has no cluster at either end. -/

/-- The doubles of `corner_stub` where the Gabriel test also fails on the side 4-3, seen
from the infinite face 4. -/
def two_sides_stub : Collaborators Nat Int (List (Vertex_handle × Vertex_handle)) :=
  { corner_stub with
    is_locally_gabriel_conform := fun tr fh i _ =>
      !(decide (tr.all_faces.length = 6) && (decide (fh = 2) || decide (fh = 4)) &&
        decide (i = 2)) }

/-- A mesher on `corner0m` from whose map the face 1 has just been popped. -/
def corner_popped : Mesh_2 Nat Int (List (Vertex_handle × Vertex_handle)) where
  tr := corner0m
  cdata := []
  bad_faces := [(0, 200)]
  initialized := false
  seeds := []
  seeds_mark := false

/-! ## The run of `refine()` on the sharp corner

The states at the head of the loop of `refine()` on `corner_mesh`: after `init()` both
faces of the domain are in the map; the first turn drops face 1 under the terminator
rule; the second turn enqueues the side 2-1 for face 0 and enters face 0 again; the
third turn splits the side and leaves the map empty. -/

/-- The state of `corner_mesh` after `init()`. -/
def corner_run1 : Mesh_2 Nat Int (List (Vertex_handle × Vertex_handle)) :=
  (init corner_stub corner_mesh).getD corner_mesh

/-- The state of `corner_run1` after one `process_one_face()`. -/
def corner_run2 : Mesh_2 Nat Int (List (Vertex_handle × Vertex_handle)) :=
  (process_one_face corner_stub corner_run1).getD corner_run1

/-- The state of `corner_run2` after one `process_one_face()`. -/
def corner_run3 : Mesh_2 Nat Int (List (Vertex_handle × Vertex_handle)) :=
  (process_one_face corner_stub corner_run2).getD corner_run2

/-- The state of `corner_run3` after `conform()`. -/
def corner_run4 : Mesh_2 Nat Int (List (Vertex_handle × Vertex_handle)) :=
  (corner_stub.Conform_conform corner_run3).getD corner_run3

/-- The number of faces the run on the sharp corner can still make: it ends with ten. -/
def corner_budget (tr : Triangulation Nat Int) : Nat := 10 - tr.all_faces.length

/-! ## A square with a vertex near its lower side

The input is the square of corners 1 = (0,0), 2 = (4,0), 3 = (4,4), 4 = (0,4), its four
sides constrained, and one more vertex 5 = (2,1) inside it; vertex 0 is the infinite
vertex.  Faces 0 to 3 are the triangles (5,1,2), (5,2,3), (5,3,4), (5,4,1) around vertex 5
and faces 4 to 7 are the infinite faces on the sides 2-1, 3-2, 4-3, 1-4.  Vertex 5 lies
inside the disk of diameter 1-2 and of no other side, so the conformance base has the
lower side to split, at its midpoint (2,0).  The sides meet at right angles, so no vertex
has a cluster.  The smallest angle of a triangle before and after the split has a squared
sine of 0.2, and the criterion asks for 0.125 (20.7 degrees): no face is ever bad.

The stand-ins of the triangulation compute from the coordinates and from the tables of
the faces, for any triangulation they are given. -/

/-- Twice the signed area of the triangle `a b c`: positive when it turns
counter-clockwise. -/
def orient (a b c : Int × Int) : Int :=
  (b.1 - a.1) * (c.2 - a.2) - (b.2 - a.2) * (c.1 - a.1)

/-- The scalar product of the vectors from `p` to `a` and from `p` to `b`: negative when
`p` is strictly inside the disk of diameter `a b`. -/
def dot_from (p a b : Int × Int) : Int :=
  (a.1 - p.1) * (b.1 - p.1) + (a.2 - p.2) * (b.2 - p.2)

/-- The determinant of the in-circle test: positive when `p` is strictly inside the circle
through the counter-clockwise triangle `a b c`. -/
def in_circle (a b c p : Int × Int) : Int :=
  let ax := a.1 - p.1
  let ay := a.2 - p.2
  let bx := b.1 - p.1
  let bY := b.2 - p.2
  let cx := c.1 - p.1
  let cy := c.2 - p.2
  (ax * ax + ay * ay) * (bx * cy - bY * cx) - (bx * bx + bY * bY) * (ax * cy - ay * cx) +
    (cx * cx + cy * cy) * (ax * bY - ay * bx)

/-- The midpoint of two points with even sums of coordinates. -/
def midpoint2 (a b : Int × Int) : Int × Int := ((a.1 + b.1) / 2, (a.2 + b.2) / 2)

/-- The face `g` has the vertex `v`. -/
def has_vertex {Point FT : Type} (tr : Triangulation Point FT) (g : Face_handle)
    (v : Vertex_handle) : Bool :=
  decide (v ∈ [tr.vertex g 0, tr.vertex g 1, tr.vertex g 2])

/-- The index in the neighbour across the edge `i` of `f` of the edge they share
(`mirror_index`). -/
def tds_mirror_index {Point FT : Type} (tr : Triangulation Point FT) (f : Face_handle)
    (i : Fin 3) : Fin 3 :=
  if tr.neighbor (tr.neighbor f i) 0 = f then 0
  else if tr.neighbor (tr.neighbor f i) 1 = f then 1 else 2

/-- The effect of `f->set_vertex(i, v)`. -/
def tds_set_vertex {Point FT : Type} (tr : Triangulation Point FT) (f : Face_handle)
    (i : Fin 3) (v : Vertex_handle) : Triangulation Point FT :=
  { tr with vertex := fun g j => if g = f ∧ j = i then v else tr.vertex g j }

/-- The effect of `f->set_neighbor(i, n)`. -/
def tds_set_neighbor {Point FT : Type} (tr : Triangulation Point FT) (f : Face_handle)
    (i : Fin 3) (n : Face_handle) : Triangulation Point FT :=
  { tr with neighbor := fun g j => if g = f ∧ j = i then n else tr.neighbor g j }

/-- The faces `f` and `g` are made neighbours across the edge `i` of `f` and the edge `j`
of `g`. -/
def tds_set_adjacency {Point FT : Type} (tr : Triangulation Point FT) (f : Face_handle)
    (i : Fin 3) (g : Face_handle) (j : Fin 3) : Triangulation Point FT :=
  tds_set_neighbor (tds_set_neighbor tr f i g) g j f

/-- A new face with the given vertices and neighbours; its handle is the number of faces
so far, it has no constrained edge and no mark. -/
def tds_create_face {Point FT : Type} (tr : Triangulation Point FT)
    (v0 v1 v2 : Vertex_handle) (n0 n1 n2 : Face_handle) : Triangulation Point FT :=
  { tr with
    all_faces := tr.all_faces ++ [tr.all_faces.length]
    vertex := fun g j =>
      if g = tr.all_faces.length then (if j = 0 then v0 else if j = 1 then v1 else v2)
      else tr.vertex g j
    neighbor := fun g j =>
      if g = tr.all_faces.length then (if j = 0 then n0 else if j = 1 then n1 else n2)
      else tr.neighbor g j
    is_constrained := fun g j =>
      if g = tr.all_faces.length then false else tr.is_constrained g j
    is_marked := fun g => if g = tr.all_faces.length then false else tr.is_marked g }

/-- The insertion of the vertex `v` in the face `f` = (v0, v1, v2): `f` becomes
(v, v1, v2) and two new faces (v0, v, v2) and (v0, v1, v) take the places next to the
neighbours 1 and 2 of `f`. -/
def tds_insert_in_face {Point FT : Type} (tr : Triangulation Point FT) (f : Face_handle)
    (v : Vertex_handle) : Triangulation Point FT :=
  let f1 := tr.all_faces.length
  let f2 := tr.all_faces.length + 1
  let t1 := tds_create_face tr (tr.vertex f 0) v (tr.vertex f 2) f (tr.neighbor f 1) f2
  let t2 := tds_create_face t1 (tr.vertex f 0) (tr.vertex f 1) v f f1 (tr.neighbor f 2)
  let t3 := tds_set_neighbor t2 (tr.neighbor f 1) (tds_mirror_index tr f 1) f1
  let t4 := tds_set_neighbor t3 (tr.neighbor f 2) (tds_mirror_index tr f 2) f2
  tds_set_neighbor (tds_set_neighbor (tds_set_vertex t4 f 0 v) f 1 f1) f 2 f2

/-- The flip of the edge `i` of the face `f`: `f` and its neighbour `n` exchange the
diagonal of the quadrilateral they make. -/
def tds_flip {Point FT : Type} (tr : Triangulation Point FT) (f : Face_handle) (i : Fin 3) :
    Triangulation Point FT :=
  let n := tr.neighbor f i
  let ni := tds_mirror_index tr f i
  let t1 := tds_set_vertex tr f (cw i) (tr.vertex n ni)
  let t2 := tds_set_vertex t1 n (cw ni) (tr.vertex f i)
  let t3 := tds_set_adjacency t2 f i (tr.neighbor n (ccw ni)) (tds_mirror_index tr n (ccw ni))
  let t4 := tds_set_adjacency t3 f (ccw i) n (ccw ni)
  tds_set_adjacency t4 n ni (tr.neighbor f (ccw i)) (tds_mirror_index tr f (ccw i))

/-- The insertion of the vertex `v` in the edge `i` of the face `f`: `v` is inserted in
`f` and the edge between the neighbour across the edge and the face now next to it is
flipped. -/
def tds_insert_in_edge {Point FT : Type} (tr : Triangulation Point FT) (f : Face_handle)
    (i : Fin 3) (v : Vertex_handle) : Triangulation Point FT :=
  tds_flip (tds_insert_in_face tr f v) (tr.neighbor f i) (tds_mirror_index tr f i)

/-- The handle of a new vertex: one more than the largest handle of a vertex of a
face. -/
def fresh_vertex {Point FT : Type} (tr : Triangulation Point FT) : Vertex_handle :=
  (tr.all_faces.flatMap (fun g => [tr.vertex g 0, tr.vertex g 1, tr.vertex g 2])).foldl
    max 0 + 1

/-- The constraints of the faces around the vertex `vp` inserted in the constrained edge
of end points `c1`, `c2`: of the two edges of a face at `vp`, the one to an end point is
constrained and the other is not; the edge opposite `vp` takes the constraint of the
neighbour across it. -/
def constraints_around {Point FT : Type} (tr : Triangulation Point FT)
    (vp c1 c2 : Vertex_handle) : Face_handle → Fin 3 → Bool :=
  fun g j =>
    if has_vertex tr g vp then
      if j = tr.index g vp then
        tr.is_constrained (tr.neighbor g j) (tds_mirror_index tr g j)
      else if tr.vertex g (cw (tr.index g vp)) = c1 ∨ tr.vertex g (cw (tr.index g vp)) = c2
      then decide (j = ccw (tr.index g vp))
      else decide (j = cw (tr.index g vp))
    else tr.is_constrained g j

/-- The stand-in of `insert(p, EDGE, f, i)` on a constrained edge: the new vertex gets a
fresh handle and the point `p`, it is inserted in the edge, a face is infinite when it
has the infinite vertex 0, and the constraints around the new vertex are set.  The cut
faces keep their handles and their marks; for the edge 0 the handle of `f` ends on the
far side of the edge. -/
def insert_in_constrained_edge (tr : Triangulation (Int × Int) Int) (p : Int × Int)
    (f : Face_handle) (i : Fin 3) : Triangulation (Int × Int) Int × Vertex_handle :=
  let vp := fresh_vertex tr
  let t1 := tds_insert_in_edge tr f i vp
  let t2 : Triangulation (Int × Int) Int :=
    { t1 with
      point := fun v => if v = vp then p else tr.point v
      is_infinite := fun g => has_vertex t1 g 0 }
  ({ t2 with
      is_constrained :=
        constraints_around t2 vp (tr.vertex f (cw i)) (tr.vertex f (ccw i)) }, vp)

/-- One turn of the face circulator around `v` from `start`, counter-clockwise: the face
after `f` is its neighbour across the edge that follows `v`. -/
def face_turn {Point FT : Type} (tr : Triangulation Point FT) (v : Vertex_handle)
    (start : Face_handle) : Nat → Face_handle → List Face_handle
  | 0, _ => []
  | n + 1, f =>
    f :: (if tr.neighbor f (ccw (tr.index f v)) = start then []
          else face_turn tr v start n (tr.neighbor f (ccw (tr.index f v))))

/-- The stand-ins of the triangulation functions of the edge insertion. -/
def square_edge : Edge_collaborators (Int × Int) Int where
  mirror_index := tds_mirror_index
  insert_in_edge := insert_in_constrained_edge
  is_edge := fun tr va vb =>
    tr.all_faces.findSome? (fun f =>
      ([0, 1, 2] : List (Fin 3)).findSome? (fun i =>
        if tr.vertex f (cw i) = va ∧ tr.vertex f (ccw i) = vb then some (f, i) else none))
  incident_faces_from := fun tr v f => face_turn tr v f tr.all_faces.length f

/-- The point `p` is in conflict with the face `g`: strictly inside the circle of a
finite face; for an infinite face, strictly on the outer side of its finite edge, or on
the edge strictly between its end points. -/
def in_conflict (tr : Triangulation (Int × Int) Int) (p : Int × Int) (g : Face_handle) :
    Bool :=
  if has_vertex tr g 0 then
    let a := tr.point (tr.vertex g (ccw (tr.index g 0)))
    let b := tr.point (tr.vertex g (cw (tr.index g 0)))
    decide (0 < orient a b p) || (decide (orient a b p = 0) && decide (dot_from p a b < 0))
  else
    decide (0 < in_circle (tr.point (tr.vertex g 0)) (tr.point (tr.vertex g 1))
      (tr.point (tr.vertex g 2)) p)

/-- The search for the conflict zone: from the faces still to look at, a face in
conflict joins the zone and its neighbours across non-constrained edges are looked at in
their turn. -/
def conflict_flood (tr : Triangulation (Int × Int) Int) (p : Int × Int) :
    Nat → List Face_handle → List Face_handle → List Face_handle
  | 0, _, zone => zone
  | _ + 1, [], zone => zone
  | n + 1, g :: todo, zone =>
    if g ∈ zone ∨ in_conflict tr p g = false then conflict_flood tr p n todo zone
    else
      conflict_flood tr p n
        (todo ++ (([0, 1, 2] : List (Fin 3)).filter
          (fun i => !tr.is_constrained g i)).map (tr.neighbor g))
        (zone ++ [g])

/-- The faces in conflict with `p` reached from `f`, and the edges of their boundary,
each seen from the face outside the zone. -/
def conflict_zone (tr : Triangulation (Int × Int) Int) (p : Int × Int) (f : Face_handle) :
    List Face_handle × List Edge :=
  let zone := conflict_flood tr p (4 * tr.all_faces.length) [f] []
  (zone, zone.flatMap (fun g =>
    (([0, 1, 2] : List (Fin 3)).filter (fun i => decide (tr.neighbor g i ∉ zone))).map
      (fun i => (tr.neighbor g i, tds_mirror_index tr g i))))

/-- The centre of the circle through `a`, `b`, `c`, when its coordinates are whole
numbers. -/
def circumcentre2 (a b c : Int × Int) : Int × Int :=
  let d := 2 * orient a b c
  let sa := a.1 * a.1 + a.2 * a.2
  let sb := b.1 * b.1 + b.2 * b.2
  let sc := c.1 * c.1 + c.2 * c.2
  ((sa * (b.2 - c.2) + sb * (c.2 - a.2) + sc * (a.2 - b.2)) / d,
    (sa * (c.1 - b.1) + sb * (a.1 - c.1) + sc * (b.1 - a.1)) / d)

/-- The constrained edges of the finite faces whose opposite vertex is strictly inside
their diametral disk, as pairs of end points. -/
def encroached_edges (tr : Triangulation (Int × Int) Int) :
    List (Vertex_handle × Vertex_handle) :=
  tr.finite_faces.flatMap (fun f =>
    (([0, 1, 2] : List (Fin 3)).filter (fun i =>
      tr.is_constrained f i &&
        decide (dot_from (tr.point (tr.vertex f i)) (tr.point (tr.vertex f (cw i)))
          (tr.point (tr.vertex f (ccw i))) < 0))).map
      (fun i => (tr.vertex f (cw i), tr.vertex f (ccw i))))

/-- The stand-ins of the collaborators on the square, with a conformance base that has
yet nothing to do: its data is the list of the encroached edges, which its `init` looks
for.  `star_hole` is not reached on this input, on which no face is bad. -/
def square_base : Collaborators (Int × Int) Int (List (Vertex_handle × Vertex_handle)) where
  locate := fun tr p =>
    (tr.finite_faces.find? (fun g =>
      decide (0 ≤ orient (tr.point (tr.vertex g 0)) (tr.point (tr.vertex g 1)) p) &&
      decide (0 ≤ orient (tr.point (tr.vertex g 1)) (tr.point (tr.vertex g 2)) p) &&
      decide (0 ≤ orient (tr.point (tr.vertex g 2)) (tr.point (tr.vertex g 0)) p))).orElse
      (fun _ => some tr.infinite_face)
  is_face := fun tr va vb vc =>
    tr.all_faces.find? (fun f =>
      [va, vb, vc].all (fun v => decide (v ∈ [tr.vertex f 0, tr.vertex f 1, tr.vertex f 2])))
  incident_faces := fun tr v => tr.all_faces.filter (fun f => has_vertex tr f v)
  circumcenter := fun tr f =>
    circumcentre2 (tr.point (tr.vertex f 0)) (tr.point (tr.vertex f 1))
      (tr.point (tr.vertex f 2))
  get_conflicts_and_boundary := conflict_zone
  star_hole := fun tr _ _ _ => (tr, 0)
  is_locally_gabriel_conform := fun tr fh i p =>
    decide (0 ≤ dot_from p (tr.point (tr.vertex fh (cw i))) (tr.point (tr.vertex fh (ccw i))))
  get_cluster := fun _ _ _ _ => none
  add_contrained_edge_to_be_conform := fun _ c va vb => c ++ [(va, vb)]
  Conform_init := fun tr _ => (tr, encroached_edges tr)
  Conform_is_conformed := fun _ c => c.isEmpty
  Conform_conform := fun s => some s
  Conform_refine_step := fun s => (s, false)

/-- One step of the conformance base on the square: the first edge that waits is found
by `is_edge` and split at its midpoint by `virtual_insert_in_the_edge`, and the
encroached edges are looked for again. -/
def square_split (s : Mesh_2 (Int × Int) Int (List (Vertex_handle × Vertex_handle))) :
    Option (Mesh_2 (Int × Int) Int (List (Vertex_handle × Vertex_handle))) :=
  match s.cdata with
  | [] => some s
  | e :: _ =>
    match square_edge.is_edge s.tr e.1 e.2 with
    | none => none
    | some fi =>
      (virtual_insert_in_the_edge square_base square_edge s fi.1 fi.2
          (midpoint2 (s.tr.point e.1) (s.tr.point e.2))).map
        (fun t => { t.1 with cdata := encroached_edges t.1.tr })

/-- The loop of the conformance base on the square: edges are split as long as one
waits; each unit of fuel pays for one split. -/
def square_conform :
    Nat → Mesh_2 (Int × Int) Int (List (Vertex_handle × Vertex_handle)) →
      Option (Mesh_2 (Int × Int) Int (List (Vertex_handle × Vertex_handle)))
  | 0, s => if s.cdata.isEmpty then some s else none
  | n + 1, s => if s.cdata.isEmpty then some s else (square_split s).bind (square_conform n)

/-- The stand-ins of the collaborators on the square. -/
def square_stub : Collaborators (Int × Int) Int (List (Vertex_handle × Vertex_handle)) :=
  { square_base with
    Conform_conform := square_conform 8
    Conform_refine_step := fun s =>
      if s.cdata.isEmpty then (s, false)
      else
        match square_split s with
        | some t => (t, true)
        | none => (s, false) }

/-- The constrained Delaunay triangulation of the square and the vertex 5, no face
marked. -/
def square0 : Triangulation (Int × Int) Int where
  gt := angle_traits 125
  dimension := 2
  all_faces := [0, 1, 2, 3, 4, 5, 6, 7]
  infinite_face := 4
  is_infinite := fun f => decide (4 ≤ f)
  vertex := table3
    [[5, 1, 2], [5, 2, 3], [5, 3, 4], [5, 4, 1], [2, 1, 0], [3, 2, 0], [4, 3, 0], [1, 4, 0]]
  neighbor := table3
    [[4, 1, 3], [5, 2, 0], [6, 3, 1], [7, 0, 2], [7, 5, 0], [4, 6, 1], [5, 7, 2], [6, 4, 3]]
  is_constrained := fun f i => decide (f < 4 ∧ i = 0) || decide (4 ≤ f ∧ i = 2)
  is_marked := fun _ => false
  point := fun v =>
    if v = 2 then (4, 0) else if v = 3 then (4, 4) else if v = 4 then (0, 4)
    else if v = 5 then (2, 1) else (0, 0)

/-- A freshly constructed mesher on the square, without seeds. -/
def square_mesh : Mesh_2 (Int × Int) Int (List (Vertex_handle × Vertex_handle)) where
  tr := square0
  cdata := []
  bad_faces := []
  initialized := false
  seeds := []
  seeds_mark := false

/-- The tables of the triangulation agree with each other and with the coordinates of
the vertices `vs`: a face is infinite when it has the vertex 0; the neighbour across an
edge is a face that has the same edge, with the same constraint, and `f` as its neighbour
across it; a finite face turns counter-clockwise and has no vertex strictly inside its
circle. -/
def well_built (tr : Triangulation (Int × Int) Int) (vs : List Vertex_handle) : Bool :=
  tr.all_faces.all (fun f =>
    decide (tr.is_infinite f = has_vertex tr f 0) &&
    ([0, 1, 2] : List (Fin 3)).all (fun i =>
      decide (tr.neighbor f i ∈ tr.all_faces) &&
      decide (tr.neighbor (tr.neighbor f i) (tds_mirror_index tr f i) = f) &&
      decide (tr.vertex (tr.neighbor f i) (cw (tds_mirror_index tr f i)) =
        tr.vertex f (ccw i)) &&
      decide (tr.vertex (tr.neighbor f i) (ccw (tds_mirror_index tr f i)) =
        tr.vertex f (cw i)) &&
      decide (tr.is_constrained (tr.neighbor f i) (tds_mirror_index tr f i) =
        tr.is_constrained f i)) &&
    (has_vertex tr f 0 ||
      (decide (0 < orient (tr.point (tr.vertex f 0)) (tr.point (tr.vertex f 1))
          (tr.point (tr.vertex f 2))) &&
        vs.all (fun v =>
          decide (in_circle (tr.point (tr.vertex f 0)) (tr.point (tr.vertex f 1))
            (tr.point (tr.vertex f 2)) (tr.point v) ≤ 0)))))

/-- The constrained edges of the triangulation, as pairs of end points, each edge once
from each of its two faces. -/
def constrained_segments {Point FT : Type} (tr : Triangulation Point FT) :
    List (Vertex_handle × Vertex_handle) :=
  tr.all_faces.flatMap (fun f =>
    (([0, 1, 2] : List (Fin 3)).filter (fun i => tr.is_constrained f i)).map
      (fun i => (tr.vertex f (cw i), tr.vertex f (ccw i))))

/-- No two constrained edges that meet at a vertex make an angle under 90 degrees there:
no vertex has a cluster. -/
def no_sharp_corner (tr : Triangulation (Int × Int) Int) : Bool :=
  (constrained_segments tr).all (fun e1 =>
    (constrained_segments tr).all (fun e2 =>
      decide (e1.1 ≠ e2.1) || decide (e1.2 = e2.2) ||
        decide (dot_from (tr.point e1.1) (tr.point e1.2) (tr.point e2.2) ≤ 0)))

end CGAL

namespace CGAL

section Marking

variable {Point FT C : Type}

/-! ## The flood of `propagate_marks` -/

theorem propagate_visit_cases (tr : Triangulation Point FT) (m : Bool) (fh : Face_handle)
    (st : (Face_handle → Bool) × List Face_handle) (i : Fin 3) :
    (tr.is_constrained fh i = false ∧ st.1 (tr.neighbor fh i) ≠ m ∧
        propagate_visit tr m fh st i =
          (Function.update st.1 (tr.neighbor fh i) m, st.2 ++ [tr.neighbor fh i])) ∨
      ((tr.is_constrained fh i = true ∨ st.1 (tr.neighbor fh i) = m) ∧
        propagate_visit tr m fh st i = st) := by
  by_cases hc : tr.is_constrained fh i = false
  · by_cases hm : st.1 (tr.neighbor fh i) = m
    · right
      refine ⟨Or.inr hm, ?_⟩
      simp [propagate_visit, hc, hm]
    · left
      refine ⟨hc, hm, ?_⟩
      have hm2 : ¬ m = st.1 (tr.neighbor fh i) := fun h => hm h.symm
      simp [propagate_visit, hc, hm2]
  · right
    simp only [Bool.not_eq_false] at hc
    refine ⟨Or.inl hc, ?_⟩
    simp [propagate_visit, hc]

theorem propagate_visit_mono (tr : Triangulation Point FT) (m : Bool) (fh : Face_handle)
    (st : (Face_handle → Bool) × List Face_handle) (i : Fin 3) (f : Face_handle)
    (h : st.1 f = m) : (propagate_visit tr m fh st i).1 f = m := by
  rcases propagate_visit_cases tr m fh st i with ⟨_, _, e⟩ | ⟨_, e⟩
  · rw [e]
    by_cases hf : f = tr.neighbor fh i
    · subst hf; simp
    · simp [Function.update_noteq hf, h]
  · rw [e]; exact h

theorem propagate_visit_queue (tr : Triangulation Point FT) (m : Bool) (fh : Face_handle)
    (st : (Face_handle → Bool) × List Face_handle) (i : Fin 3) :
    ∀ g ∈ st.2, g ∈ (propagate_visit tr m fh st i).2 := by
  intro g hg
  rcases propagate_visit_cases tr m fh st i with ⟨_, _, e⟩ | ⟨_, e⟩
  · rw [e]; simp [hg]
  · rw [e]; exact hg

theorem propagate_visit_changed (tr : Triangulation Point FT) (m : Bool) (fh : Face_handle)
    (st : (Face_handle → Bool) × List Face_handle) (i : Fin 3) (f : Face_handle)
    (h : (propagate_visit tr m fh st i).1 f ≠ st.1 f) :
    (propagate_visit tr m fh st i).1 f = m ∧ f ∈ (propagate_visit tr m fh st i).2 ∧
      tr.adjacent fh f := by
  rcases propagate_visit_cases tr m fh st i with ⟨hc, _, e⟩ | ⟨_, e⟩
  · rw [e] at h ⊢
    by_cases hf : f = tr.neighbor fh i
    · subst hf
      exact ⟨by simp, by simp, i, rfl, hc⟩
    · simp [Function.update_noteq hf] at h
  · rw [e] at h; exact absurd rfl h

theorem propagate_visit_new (tr : Triangulation Point FT) (m : Bool) (fh : Face_handle)
    (st : (Face_handle → Bool) × List Face_handle) (i : Fin 3) (g : Face_handle)
    (h : g ∈ (propagate_visit tr m fh st i).2) : g ∈ st.2 ∨ tr.adjacent fh g := by
  rcases propagate_visit_cases tr m fh st i with ⟨hc, _, e⟩ | ⟨_, e⟩
  · rw [e] at h
    simp only [List.mem_append, List.mem_singleton] at h
    rcases h with h | h
    · exact Or.inl h
    · subst h
      exact Or.inr ⟨i, rfl, hc⟩
  · rw [e] at h; exact Or.inl h

theorem propagate_visit_done (tr : Triangulation Point FT) (m : Bool) (fh : Face_handle)
    (st : (Face_handle → Bool) × List Face_handle) (i : Fin 3)
    (h : tr.is_constrained fh i = false) :
    (propagate_visit tr m fh st i).1 (tr.neighbor fh i) = m := by
  rcases propagate_visit_cases tr m fh st i with ⟨_, _, e⟩ | ⟨hc, e⟩
  · rw [e]; simp
  · rw [e]
    rcases hc with hc | hc
    · rw [h] at hc; exact absurd hc (by decide)
    · exact hc

/-! The three visits of one pop, as a fold over the list of indices. -/

theorem propagate_scan_mono (tr : Triangulation Point FT) (m : Bool) (fh : Face_handle)
    (l : List (Fin 3)) (st : (Face_handle → Bool) × List Face_handle) (f : Face_handle)
    (h : st.1 f = m) : (l.foldl (propagate_visit tr m fh) st).1 f = m := by
  induction l generalizing st with
  | nil => exact h
  | cons i l ih => exact ih _ (propagate_visit_mono tr m fh st i f h)

theorem propagate_scan_queue (tr : Triangulation Point FT) (m : Bool) (fh : Face_handle)
    (l : List (Fin 3)) (st : (Face_handle → Bool) × List Face_handle) (g : Face_handle)
    (h : g ∈ st.2) : g ∈ (l.foldl (propagate_visit tr m fh) st).2 := by
  induction l generalizing st with
  | nil => exact h
  | cons i l ih => exact ih _ (propagate_visit_queue tr m fh st i g h)

theorem propagate_scan_changed (tr : Triangulation Point FT) (m : Bool) (fh : Face_handle)
    (l : List (Fin 3)) (st : (Face_handle → Bool) × List Face_handle) (f : Face_handle)
    (h : (l.foldl (propagate_visit tr m fh) st).1 f ≠ st.1 f) :
    (l.foldl (propagate_visit tr m fh) st).1 f = m ∧
      f ∈ (l.foldl (propagate_visit tr m fh) st).2 ∧ tr.adjacent fh f := by
  induction l generalizing st with
  | nil => exact absurd rfl h
  | cons i l ih =>
    simp only [List.foldl_cons] at h ⊢
    by_cases h1 : (l.foldl (propagate_visit tr m fh) (propagate_visit tr m fh st i)).1 f
        = (propagate_visit tr m fh st i).1 f
    · have h2 : (propagate_visit tr m fh st i).1 f ≠ st.1 f := by rw [← h1]; exact h
      obtain ⟨a, b, c⟩ := propagate_visit_changed tr m fh st i f h2
      exact ⟨by rw [h1]; exact a, propagate_scan_queue tr m fh l _ f b, c⟩
    · exact ih _ h1

theorem propagate_scan_new (tr : Triangulation Point FT) (m : Bool) (fh : Face_handle)
    (l : List (Fin 3)) (st : (Face_handle → Bool) × List Face_handle) (g : Face_handle)
    (h : g ∈ (l.foldl (propagate_visit tr m fh) st).2) : g ∈ st.2 ∨ tr.adjacent fh g := by
  induction l generalizing st with
  | nil => exact Or.inl h
  | cons i l ih =>
    rcases ih _ h with h1 | h1
    · exact propagate_visit_new tr m fh st i g h1
    · exact Or.inr h1

theorem propagate_scan_done (tr : Triangulation Point FT) (m : Bool) (fh : Face_handle)
    (l : List (Fin 3)) (st : (Face_handle → Bool) × List Face_handle) (i : Fin 3)
    (hi : i ∈ l) (h : tr.is_constrained fh i = false) :
    (l.foldl (propagate_visit tr m fh) st).1 (tr.neighbor fh i) = m := by
  induction l generalizing st with
  | nil => simp at hi
  | cons j l ih =>
    simp only [List.mem_cons] at hi
    simp only [List.foldl_cons]
    rcases hi with hi | hi
    · subst hi
      exact propagate_scan_mono tr m fh l _ _ (propagate_visit_done tr m fh st i h)
    · exact ih _ hi

/-! The number of faces still carrying the other mark pays for the pushes. -/

theorem countP_update_le (m : Bool) (μ : Face_handle → Bool) (nb : Face_handle)
    (L : List Face_handle) :
    L.countP (fun f => Function.update μ nb m f != m) ≤ L.countP (fun f => μ f != m) := by
  apply List.countP_mono_left
  intro x _ hx
  by_cases hxn : x = nb
  · subst hxn; simp at hx
  · simpa [Function.update_noteq hxn] using hx

theorem countP_update_lt (m : Bool) (μ : Face_handle → Bool) (nb : Face_handle)
    (L : List Face_handle) (hnb : nb ∈ L) (hμ : μ nb ≠ m) :
    L.countP (fun f => Function.update μ nb m f != m) + 1 ≤ L.countP (fun f => μ f != m) := by
  induction L with
  | nil => simp at hnb
  | cons a L ih =>
    simp only [List.countP_cons]
    by_cases ha : a = nb
    · subst ha
      have := countP_update_le m μ a L
      simp [hμ]
      omega
    · simp only [List.mem_cons] at hnb
      have hL : nb ∈ L := by
        rcases hnb with h | h
        · exact absurd h.symm ha
        · exact h
      have := ih hL
      simp only [Function.update_noteq ha]
      omega

theorem propagate_visit_measure (tr : Triangulation Point FT) (m : Bool) (fh : Face_handle)
    (L : List Face_handle) (st : (Face_handle → Bool) × List Face_handle) (i : Fin 3)
    (hnb : tr.neighbor fh i ∈ L) :
    (propagate_visit tr m fh st i).2.length +
        L.countP (fun f => (propagate_visit tr m fh st i).1 f != m) ≤
      st.2.length + L.countP (fun f => st.1 f != m) := by
  rcases propagate_visit_cases tr m fh st i with ⟨_, hm, e⟩ | ⟨_, e⟩
  · rw [e]
    have := countP_update_lt m st.1 _ L hnb hm
    simp only [List.length_append, List.length_singleton]
    omega
  · rw [e]

theorem propagate_scan_measure (tr : Triangulation Point FT) (m : Bool) (fh : Face_handle)
    (L : List Face_handle) (l : List (Fin 3)) (st : (Face_handle → Bool) × List Face_handle)
    (hnb : ∀ i : Fin 3, tr.neighbor fh i ∈ L) :
    (l.foldl (propagate_visit tr m fh) st).2.length +
        L.countP (fun f => (l.foldl (propagate_visit tr m fh) st).1 f != m) ≤
      st.2.length + L.countP (fun f => st.1 f != m) := by
  induction l generalizing st with
  | nil => exact le_refl _
  | cons i l ih =>
    exact le_trans (ih _) (propagate_visit_measure tr m fh L st i (hnb i))

/-! The drained loop. -/

theorem propagate_loop_returns (tr : Triangulation Point FT) (m : Bool)
    (hcl : ∀ f ∈ tr.all_faces, ∀ i : Fin 3, tr.neighbor f i ∈ tr.all_faces) (fuel : Nat)
    (μ : Face_handle → Bool) (q : List Face_handle) (hq : ∀ g ∈ q, g ∈ tr.all_faces)
    (hfuel : q.length + tr.all_faces.countP (fun f => μ f != m) ≤ fuel) :
    ∃ ν, propagate_loop tr m fuel μ q = some ν := by
  induction fuel generalizing μ q with
  | zero =>
    cases q with
    | nil => exact ⟨μ, by simp [propagate_loop]⟩
    | cons a q => simp at hfuel
  | succ n ih =>
    cases q with
    | nil => exact ⟨μ, by simp [propagate_loop]⟩
    | cons fh rest =>
      simp only [propagate_loop]
      have hfh : fh ∈ tr.all_faces := hq fh (by simp)
      apply ih
      · intro g hg
        rcases propagate_scan_new tr m fh _ _ g hg with h | ⟨i, h, _⟩
        · exact hq g (by simp [h])
        · rw [← h]; exact hcl fh hfh i
      · have := propagate_scan_measure tr m fh tr.all_faces [0, 1, 2] (μ, rest) (hcl fh hfh)
        simp only [List.length_cons] at hfuel
        simp only at this
        omega

theorem fin3_mem_indices (i : Fin 3) : i ∈ ([0, 1, 2] : List (Fin 3)) := by
  fin_cases i <;> simp

theorem propagate_loop_drained (tr : Triangulation Point FT) (m : Bool) (fuel : Nat)
    (μ : Face_handle → Bool) (q : List Face_handle) (ν : Face_handle → Bool)
    (h : propagate_loop tr m fuel μ q = some ν) : Drained tr m μ q ν := by
  induction fuel generalizing μ q with
  | zero =>
    cases q with
    | nil =>
      simp only [propagate_loop, Option.some.injEq] at h
      subst h
      exact ⟨fun _ h => h, fun _ h => absurd rfl h, by simp, fun _ h => absurd rfl h⟩
    | cons a q => simp [propagate_loop] at h
  | succ n ih =>
    cases q with
    | nil =>
      simp only [propagate_loop, Option.some.injEq] at h
      subst h
      exact ⟨fun _ h => h, fun _ h => absurd rfl h, by simp, fun _ h => absurd rfl h⟩
    | cons fh rest =>
      simp only [propagate_loop] at h
      have d := ih _ _ h
      have hch := propagate_scan_changed tr m fh [0, 1, 2] (μ, rest)
      have hmono := propagate_scan_mono tr m fh [0, 1, 2] (μ, rest)
      have hqueue := propagate_scan_queue tr m fh [0, 1, 2] (μ, rest)
      have hdone := propagate_scan_done tr m fh [0, 1, 2] (μ, rest)
      refine ⟨?_, ?_, ?_, ?_⟩
      · intro f hf
        exact d.mono f (hmono f hf)
      · intro f hf
        by_cases h1 : ν f = (List.foldl (propagate_visit tr m fh) (μ, rest) [0, 1, 2]).1 f
        · have h2 := hch f (by rw [← h1]; exact hf)
          refine ⟨by rw [h1]; exact h2.1, fh, by simp, ?_⟩
          exact Relation.ReflTransGen.single h2.2.2
        · obtain ⟨a, g, hg, c⟩ := d.changed f h1
          refine ⟨a, ?_⟩
          rcases propagate_scan_new tr m fh _ _ g hg with h2 | h2
          · exact ⟨g, by simp only [List.mem_cons]; exact Or.inr h2, c⟩
          · exact ⟨fh, by simp, Relation.ReflTransGen.head h2 c⟩
      · intro g hg i hi
        simp only [List.mem_cons] at hg
        rcases hg with hg | hg
        · subst hg
          exact d.mono _ (hdone i (fin3_mem_indices i) hi)
        · exact d.queue_done g (hqueue g hg) i hi
      · intro f hf i hi
        by_cases h1 : ν f = (List.foldl (propagate_visit tr m fh) (μ, rest) [0, 1, 2]).1 f
        · have h2 := hch f (by rw [← h1]; exact hf)
          exact d.queue_done f h2.2.1 i hi
        · exact d.changed_done f h1 i hi

/-! The whole of `propagate_marks`. -/

theorem propagate_marks_flooded (tr : Triangulation Point FT)
    (hcl : ∀ f ∈ tr.all_faces, ∀ i : Fin 3, tr.neighbor f i ∈ tr.all_faces)
    (start : Face_handle) (hs : start ∈ tr.all_faces) (m : Bool) :
    ∃ ν, propagate_marks tr start m = some { tr with is_marked := ν } ∧
      Flooded tr m tr.is_marked start ν := by
  have hfuel : [start].length +
      tr.all_faces.countP (fun f => Function.update tr.is_marked start m f != m) ≤
        tr.all_faces.length + 1 := by
    have := List.countP_le_length (fun f => Function.update tr.is_marked start m f != m)
      (l := tr.all_faces)
    simp only [List.length_singleton]
    omega
  obtain ⟨ν, hν⟩ := propagate_loop_returns tr m hcl _ _ [start]
    (by intro g hg; simp only [List.mem_singleton] at hg; rw [hg]; exact hs) hfuel
  have d := propagate_loop_drained tr m _ _ _ ν hν
  refine ⟨ν, by simp [propagate_marks, hν], ?_, ?_, ?_, ?_⟩
  · exact d.mono start (by simp)
  · intro f hf
    apply d.mono
    by_cases h : f = start
    · subst h; simp
    · simpa [Function.update_noteq h] using hf
  · intro f hf
    by_cases h : f = start
    · subst h
      exact ⟨d.mono f (by simp), Relation.ReflTransGen.refl⟩
    · have h2 : ν f ≠ Function.update tr.is_marked start m f := by
        simpa [Function.update_noteq h] using hf
      obtain ⟨a, g, hg, c⟩ := d.changed f h2
      simp only [List.mem_singleton] at hg
      subst hg
      exact ⟨a, c⟩
  · intro f hf i hi
    rcases hf with hf | hf
    · subst hf
      exact d.queue_done f (by simp) i hi
    · by_cases h : f = start
      · subst h
        exact d.queue_done f (by simp) i hi
      · have h2 : ν f ≠ Function.update tr.is_marked start m f := by
          simpa [Function.update_noteq h] using hf
        exact d.changed_done f h2 i hi

theorem Flooded.component {tr : Triangulation Point FT} {m : Bool} {μ ν : Face_handle → Bool}
    {start : Face_handle} (h : Flooded tr m μ start ν)
    (hcomp : ∀ f, tr.connected start f → f ≠ start → μ f ≠ m) :
    ∀ f, tr.connected start f → ν f = m := by
  intro f hf
  induction hf with
  | refl => exact h.start_marked
  | tail hab hbc ih =>
    rename_i b c
    obtain ⟨i, hi, hc⟩ := hbc
    rw [← hi]
    apply h.closure b _ i hc
    by_cases hb : b = start
    · exact Or.inl hb
    · right
      rw [ih]
      exact fun e => hcomp b hab hb e.symm

theorem Flooded.outside {tr : Triangulation Point FT} {m : Bool} {μ ν : Face_handle → Bool}
    {start : Face_handle} (h : Flooded tr m μ start ν) :
    ∀ f, ¬ tr.connected start f → ν f = μ f := by
  intro f hf
  by_contra hne
  exact hf (h.changed f hne).2

theorem Flooded.unchanged {tr : Triangulation Point FT} {m : Bool} {μ ν : Face_handle → Bool}
    {start : Face_handle} (h : Flooded tr m μ start ν)
    (hcomp : ∀ f, tr.connected start f → μ f = m) : ν = μ := by
  funext f
  by_contra hne
  obtain ⟨a, c⟩ := h.changed f hne
  exact hne (by rw [a, hcomp f c])

theorem set_marked_fold_eq (b : Bool) (l : List Face_handle) (tr : Triangulation Point FT) :
    l.foldl (fun t f => t.set_marked f b) tr =
      { tr with is_marked := fun f => if f ∈ l then b else tr.is_marked f } := by
  induction l generalizing tr with
  | nil => simp
  | cons a l ih =>
    rw [List.foldl_cons, ih]
    simp only [Triangulation.set_marked]
    congr 1
    funext f
    by_cases h1 : f ∈ l
    · simp [h1]
    · by_cases h2 : f = a
      · subst h2; simp [h1]
      · simp [h1, h2, Function.update_noteq h2]

theorem set_marked_all_eq (tr : Triangulation Point FT) (b : Bool) :
    tr.set_marked_all b =
      { tr with is_marked := fun f => if f ∈ tr.all_faces then b else tr.is_marked f } :=
  set_marked_fold_eq b tr.all_faces tr

theorem connected_mem (tr : Triangulation Point FT)
    (hcl : ∀ f ∈ tr.all_faces, ∀ i : Fin 3, tr.neighbor f i ∈ tr.all_faces)
    (g f : Face_handle) (hg : g ∈ tr.all_faces) (h : tr.connected g f) : f ∈ tr.all_faces := by
  induction h with
  | refl => exact hg
  | tail _ hbc ih =>
    obtain ⟨i, hi, _⟩ := hbc
    rw [← hi]
    exact hcl _ ih i

theorem propagate_marks_with (tr : Triangulation Point FT)
    (hcl : ∀ f ∈ tr.all_faces, ∀ i : Fin 3, tr.neighbor f i ∈ tr.all_faces)
    (μ : Face_handle → Bool) (start : Face_handle) (hs : start ∈ tr.all_faces) (m : Bool) :
    ∃ ν, propagate_marks { tr with is_marked := μ } start m = some { tr with is_marked := ν } ∧
      Flooded tr m μ start ν := by
  obtain ⟨ν, e, fl⟩ := propagate_marks_flooded { tr with is_marked := μ } hcl start hs m
  exact ⟨ν, e, ⟨fl.start_marked, fl.mono, fl.changed, fl.closure⟩⟩

theorem adjacent_symm (tr : Triangulation Point FT) (hagree : tr.constraints_agree)
    (f g : Face_handle) (hf : f ∈ tr.all_faces) (h : tr.adjacent f g) : tr.adjacent g f := by
  obtain ⟨i, hi, hc⟩ := h
  obtain ⟨j, hj, hcj⟩ := hagree f hf i
  rw [hi] at hj hcj
  exact ⟨j, hj, by rw [hcj, hc]⟩

theorem connected_symm (tr : Triangulation Point FT)
    (hcl : ∀ f ∈ tr.all_faces, ∀ i : Fin 3, tr.neighbor f i ∈ tr.all_faces)
    (hagree : tr.constraints_agree) (f g : Face_handle) (hf : f ∈ tr.all_faces)
    (h : tr.connected f g) : tr.connected g f := by
  induction h with
  | refl => exact Relation.ReflTransGen.refl
  | tail hab hbc ih =>
    exact Relation.ReflTransGen.head
      (adjacent_symm tr hagree _ _ (connected_mem tr hcl _ _ hf hab) hbc) ih

/-- The loop over the seeds of `mark_facets`: when the faces marked `sm` are those of the
components of the seeds already handled, the loop returns and the faces marked `sm` are
those of the components of all the seeds. -/
theorem mark_seeds_spec (ext : Collaborators Point FT C) (tr : Triangulation Point FT)
    (hcl : ∀ f ∈ tr.all_faces, ∀ i : Fin 3, tr.neighbor f i ∈ tr.all_faces)
    (hagree : tr.constraints_agree) (sm : Bool)
    (hloc : ∀ μ p, ext.locate { tr with is_marked := μ } p = ext.locate tr p)
    (hface : ∀ p g, ext.locate tr p = some g → g ∈ tr.all_faces)
    (seeds done : List Point) (μ : Face_handle → Bool)
    (hinv : ∀ f ∈ tr.all_faces,
      (μ f = sm ↔ ∃ p ∈ done, ∃ g, ext.locate tr p = some g ∧ tr.connected g f)) :
    ∃ ν, seeds.foldlM (mark_seed ext sm) { tr with is_marked := μ } =
        some { tr with is_marked := ν } ∧
      ∀ f ∈ tr.all_faces,
        (ν f = sm ↔ ∃ p ∈ done ++ seeds, ∃ g, ext.locate tr p = some g ∧ tr.connected g f) := by
  induction seeds generalizing done μ with
  | nil => exact ⟨μ, by simp, by simpa using hinv⟩
  | cons p rest ih =>
    cases hp : ext.locate tr p with
    | none =>
      obtain ⟨ν, e, h⟩ := ih (done ++ [p]) μ (by
        intro f hf
        rw [hinv f hf]
        constructor
        · rintro ⟨q, hq, g, hg, c⟩
          exact ⟨q, by simp [hq], g, hg, c⟩
        · rintro ⟨q, hq, g, hg, c⟩
          simp only [List.mem_append, List.mem_singleton] at hq
          rcases hq with hq | hq
          · exact ⟨q, hq, g, hg, c⟩
          · subst hq; rw [hp] at hg; exact absurd hg (by simp))
      refine ⟨ν, ?_, by simpa using h⟩
      simp only [List.foldlM_cons, mark_seed, hloc, hp]
      exact e
    | some g0 =>
      have hg0 : g0 ∈ tr.all_faces := hface p g0 hp
      obtain ⟨ν1, e1, fl⟩ := propagate_marks_with tr hcl μ g0 hg0 sm
      have hall : ∀ f, tr.connected g0 f → ν1 f = sm := by
        by_cases hm : μ g0 = sm
        · intro f hf
          apply fl.mono
          obtain ⟨q, hq, g, hg, c⟩ := (hinv g0 hg0).1 hm
          exact (hinv f (connected_mem tr hcl _ _ hg0 hf)).2 ⟨q, hq, g, hg, c.trans hf⟩
        · apply fl.component
          intro f hf _ hfm
          apply hm
          have hfL := connected_mem tr hcl _ _ hg0 hf
          obtain ⟨q, hq, g, hg, c⟩ := (hinv f hfL).1 hfm
          exact (hinv g0 hg0).2
            ⟨q, hq, g, hg, c.trans (connected_symm tr hcl hagree _ _ hg0 hf)⟩
      obtain ⟨ν, e, h⟩ := ih (done ++ [p]) ν1 (by
        intro f hf
        constructor
        · intro hν
          by_cases hμ : μ f = sm
          · obtain ⟨q, hq, g, hg, c⟩ := (hinv f hf).1 hμ
            exact ⟨q, by simp [hq], g, hg, c⟩
          · have hne : ν1 f ≠ μ f := by rw [hν]; exact fun e => hμ e.symm
            exact ⟨p, by simp, g0, hp, (fl.changed f hne).2⟩
        · rintro ⟨q, hq, g, hg, c⟩
          simp only [List.mem_append, List.mem_singleton] at hq
          rcases hq with hq | hq
          · exact fl.mono f ((hinv f hf).2 ⟨q, hq, g, hg, c⟩)
          · subst hq
            rw [hp] at hg
            simp only [Option.some.injEq] at hg
            subst hg
            exact hall f c)
      refine ⟨ν, ?_, by simpa using h⟩
      simp only [List.foldlM_cons, mark_seed, hloc, hp, e1]
      exact e

/-- C1: on a 2-dimensional triangulation whose constraint bits agree on both sides of
each edge, with at least one seed, `mark_facets()` returns, changes nothing but the
marks, and leaves every face of the component of the infinite face unmarked and every
face of another component marked `seeds_mark` if `locate` of some seed gives a face of
that component and `!seeds_mark` otherwise. -/
theorem mark_facets_seeds (ext : Collaborators Point FT C) (s : Mesh_2 Point FT C)
    (hdim : s.tr.dimension = 2) (hwf : s.tr.well_formed) (hagree : s.tr.constraints_agree)
    (hseeds : s.seeds ≠ [])
    (hloc : ∀ μ p, ext.locate { s.tr with is_marked := μ } p = ext.locate s.tr p)
    (hface : ∀ p g, ext.locate s.tr p = some g → g ∈ s.tr.all_faces) :
    ∃ ν, mark_facets ext s = some { s with tr := { s.tr with is_marked := ν } } ∧
      ∀ f ∈ s.tr.all_faces,
        (s.tr.connected s.tr.infinite_face f → ν f = false) ∧
        (¬ s.tr.connected s.tr.infinite_face f →
          ((∃ p ∈ s.seeds, ∃ g, ext.locate s.tr p = some g ∧ s.tr.connected g f) →
              ν f = s.seeds_mark) ∧
            (¬ (∃ p ∈ s.seeds, ∃ g, ext.locate s.tr p = some g ∧ s.tr.connected g f) →
              ν f = !s.seeds_mark)) := by
  obtain ⟨hcl, hinf⟩ := hwf
  have e0 := set_marked_all_eq s.tr (!s.seeds_mark)
  obtain ⟨ν1, e1, h1⟩ := mark_seeds_spec ext s.tr hcl hagree s.seeds_mark hloc hface s.seeds []
    (fun f => if f ∈ s.tr.all_faces then !s.seeds_mark else s.tr.is_marked f) (by
      intro f hf
      simp [hf])
  simp only [List.nil_append] at h1
  obtain ⟨ν2, e2, fl⟩ := propagate_marks_with s.tr hcl ν1 s.tr.infinite_face hinf false
  refine ⟨ν2, ?_, ?_⟩
  · have hd : ¬ (s.tr.dimension < 2) := by rw [hdim]; decide
    have hne : s.seeds.isEmpty = false := by
      cases hs : s.seeds with
      | nil => exact absurd hs hseeds
      | cons a l => rfl
    simp only [mark_facets, hd, hne, if_false, Bool.not_false, if_true, e0, e1,
      Option.bind_eq_bind, Option.some_bind, e2, bind, Option.bind]
  · intro f hf
    constructor
    · intro hc
      have huni : ∀ f2, s.tr.connected s.tr.infinite_face f2 →
          ν1 f2 = ν1 s.tr.infinite_face := by
        intro f2 hc2
        have hf2 := connected_mem s.tr hcl _ _ hinf hc2
        have hiff : ν1 f2 = s.seeds_mark ↔ ν1 s.tr.infinite_face = s.seeds_mark := by
          rw [h1 f2 hf2, h1 _ hinf]
          constructor
          · rintro ⟨q, hq, g, hg, c⟩
            exact ⟨q, hq, g, hg, c.trans (connected_symm s.tr hcl hagree _ _ hinf hc2)⟩
          · rintro ⟨q, hq, g, hg, c⟩
            exact ⟨q, hq, g, hg, c.trans hc2⟩
        revert hiff
        cases ν1 f2 <;> cases ν1 s.tr.infinite_face <;> cases s.seeds_mark <;> simp
      by_cases hi : ν1 s.tr.infinite_face = false
      · exact fl.mono f (by rw [huni f hc, hi])
      · apply fl.component _ f hc
        intro f2 hc2 _
        rw [huni f2 hc2]
        exact hi
    · intro hc
      rw [fl.outside f hc]
      refine ⟨fun hS => (h1 f hf).2 hS, fun hS => ?_⟩
      have := mt (h1 f hf).1 hS
      revert this
      cases ν1 f <;> cases s.seeds_mark <;> simp

/-- C2: on a 2-dimensional triangulation with no seed, `mark_facets()` returns, changes
nothing but the marks, and a face is marked exactly when it is not in the connected
component of the infinite face across non-constrained edges. -/
theorem mark_facets_no_seeds (ext : Collaborators Point FT C) (s : Mesh_2 Point FT C)
    (hdim : s.tr.dimension = 2) (hwf : s.tr.well_formed) (hseeds : s.seeds = []) :
    ∃ ν, mark_facets ext s = some { s with tr := { s.tr with is_marked := ν } } ∧
      ∀ f ∈ s.tr.all_faces,
        (ν f = true ↔ ¬ s.tr.connected s.tr.infinite_face f) := by
  obtain ⟨hcl, hinf⟩ := hwf
  have e0 := set_marked_all_eq s.tr true
  obtain ⟨ν1, e1, fl1⟩ := propagate_marks_with s.tr hcl
    (fun f => if f ∈ s.tr.all_faces then true else s.tr.is_marked f) s.tr.infinite_face hinf false
  obtain ⟨ν2, e2, fl2⟩ := propagate_marks_with s.tr hcl ν1 s.tr.infinite_face hinf false
  have hcomp : ∀ f, s.tr.connected s.tr.infinite_face f → ν1 f = false := by
    apply fl1.component
    intro f hf _
    simp [connected_mem s.tr hcl _ f hinf hf]
  have h21 : ν2 = ν1 := fl2.unchanged hcomp
  subst h21
  refine ⟨ν2, ?_, ?_⟩
  · have hd : ¬ (s.tr.dimension < 2) := by rw [hdim]; decide
    simp only [mark_facets, hd, hseeds, mark_convex_hull, if_false, List.isEmpty_nil,
      Bool.not_true, Bool.false_eq_true, e0, e1, Option.bind_eq_bind, Option.some_bind, e2,
      bind, Option.bind]
  · intro f hf
    constructor
    · intro h1 hc
      rw [hcomp f hc] at h1
      exact absurd h1 (by decide)
    · intro hc
      rw [fl1.outside f hc]
      simp [hf]

/-! ## What `mark_facets()` touches -/

theorem Flooded.frame {tr : Triangulation Point FT} {m : Bool} {μ ν : Face_handle → Bool}
    {start : Face_handle} (h : Flooded tr m μ start ν)
    (hcl : ∀ f ∈ tr.all_faces, ∀ i : Fin 3, tr.neighbor f i ∈ tr.all_faces)
    (hs : start ∈ tr.all_faces) : ∀ f, f ∉ tr.all_faces → ν f = μ f := by
  intro f hf
  exact h.outside f (fun c => hf (connected_mem tr hcl _ _ hs c))

theorem mark_seeds_frame (ext : Collaborators Point FT C) (tr : Triangulation Point FT)
    (hcl : ∀ f ∈ tr.all_faces, ∀ i : Fin 3, tr.neighbor f i ∈ tr.all_faces) (sm : Bool)
    (hloc : ∀ μ p, ext.locate { tr with is_marked := μ } p = ext.locate tr p)
    (hface : ∀ p g, ext.locate tr p = some g → g ∈ tr.all_faces)
    (seeds : List Point) (μ : Face_handle → Bool) :
    ∃ ν, seeds.foldlM (mark_seed ext sm) { tr with is_marked := μ } =
        some { tr with is_marked := ν } ∧
      ∀ f, f ∉ tr.all_faces → ν f = μ f := by
  induction seeds generalizing μ with
  | nil => exact ⟨μ, by simp, fun _ _ => rfl⟩
  | cons p rest ih =>
    cases hp : ext.locate tr p with
    | none =>
      obtain ⟨ν, e, h⟩ := ih μ
      refine ⟨ν, ?_, h⟩
      simp only [List.foldlM_cons, mark_seed, hloc, hp]
      exact e
    | some g0 =>
      have hg0 : g0 ∈ tr.all_faces := hface p g0 hp
      obtain ⟨ν1, e1, fl⟩ := propagate_marks_with tr hcl μ g0 hg0 sm
      obtain ⟨ν, e, h⟩ := ih ν1
      refine ⟨ν, ?_, fun f hf => by rw [h f hf, fl.frame hcl hg0 f hf]⟩
      simp only [List.foldlM_cons, mark_seed, hloc, hp, e1]
      exact e

/-- On a triangulation of dimension 2 or more `mark_facets()` returns, changes nothing but
the marks, and changes no mark of a handle that is not a face of the triangulation. -/
theorem mark_facets_returns (ext : Collaborators Point FT C) (s : Mesh_2 Point FT C)
    (hdim : ¬ s.tr.dimension < 2) (hwf : s.tr.well_formed)
    (hloc : ∀ μ p, ext.locate { s.tr with is_marked := μ } p = ext.locate s.tr p)
    (hface : ∀ p g, ext.locate s.tr p = some g → g ∈ s.tr.all_faces) :
    ∃ ν, mark_facets ext s = some { s with tr := { s.tr with is_marked := ν } } ∧
      ∀ f, f ∉ s.tr.all_faces → ν f = s.tr.is_marked f := by
  obtain ⟨hcl, hinf⟩ := hwf
  cases hs : s.seeds.isEmpty with
  | true =>
    have e0 := set_marked_all_eq s.tr true
    obtain ⟨ν1, e1, fl1⟩ := propagate_marks_with s.tr hcl
      (fun f => if f ∈ s.tr.all_faces then true else s.tr.is_marked f) s.tr.infinite_face
      hinf false
    obtain ⟨ν2, e2, fl2⟩ := propagate_marks_with s.tr hcl ν1 s.tr.infinite_face hinf false
    refine ⟨ν2, ?_, ?_⟩
    · simp only [mark_facets, hdim, hs, mark_convex_hull, if_false, Bool.not_true,
        Bool.false_eq_true, e0, e1, Option.some_bind, e2]
    · intro f hf
      rw [fl2.frame hcl hinf f hf, fl1.frame hcl hinf f hf]
      simp [hf]
  | false =>
    have e0 := set_marked_all_eq s.tr (!s.seeds_mark)
    obtain ⟨ν1, e1, h1⟩ := mark_seeds_frame ext s.tr hcl s.seeds_mark hloc hface s.seeds
      (fun f => if f ∈ s.tr.all_faces then !s.seeds_mark else s.tr.is_marked f)
    obtain ⟨ν2, e2, fl2⟩ := propagate_marks_with s.tr hcl ν1 s.tr.infinite_face hinf false
    refine ⟨ν2, ?_, ?_⟩
    · simp only [mark_facets, hdim, hs, if_false, Bool.not_false, if_true, e0, e1,
        Option.some_bind, e2]
    · intro f hf
      rw [fl2.frame hcl hinf f hf, h1 f hf]
      simp [hf]

/-- The marks computed by `mark_facets()` do not depend on the marks the faces of the
triangulation carried before, nor on the other data members. -/
theorem mark_facets_congr (ext : Collaborators Point FT C) (s s2 : Mesh_2 Point FT C)
    (ν : Face_handle → Bool) (hdim : ¬ s.tr.dimension < 2)
    (htr : s2.tr = { s.tr with is_marked := ν })
    (hν : ∀ f, f ∉ s.tr.all_faces → ν f = s.tr.is_marked f)
    (hseeds : s2.seeds = s.seeds) (hmark : s2.seeds_mark = s.seeds_mark) :
    (mark_facets ext s2).map (fun t => t.tr) = (mark_facets ext s).map (fun t => t.tr) := by
  have hset : ∀ b, s2.tr.set_marked_all b = s.tr.set_marked_all b := by
    intro b
    rw [set_marked_all_eq, set_marked_all_eq, htr]
    simp only [Triangulation.mk.injEq, true_and, and_true]
    funext f
    by_cases hf : f ∈ s.tr.all_faces
    · simp [hf]
    · simp [hf, hν f hf]
  have hd2 : ¬ s2.tr.dimension < 2 := by rw [htr]; exact hdim
  have hinf : s2.tr.infinite_face = s.tr.infinite_face := by rw [htr]
  simp only [mark_facets, hdim, hd2, if_false, mark_convex_hull, hset, hinf, hseeds, hmark]
  cases (if (!s.seeds.isEmpty) = true then
      List.foldlM (mark_seed ext s.seeds_mark) (s.tr.set_marked_all !s.seeds_mark) s.seeds
    else propagate_marks (s.tr.set_marked_all true) s.tr.infinite_face false) with
  | none => rfl
  | some tr1 =>
    simp only [Option.some_bind]
    cases propagate_marks tr1 tr1.infinite_face false with
    | none => rfl
    | some tr2 => rfl

theorem mark_facets_rest (ext : Collaborators Point FT C) (s t : Mesh_2 Point FT C)
    (h : mark_facets ext s = some t) : t = { s with tr := t.tr } := by
  unfold mark_facets at h
  split at h
  · simp only [Option.some.injEq] at h
    subst h
    rfl
  · simp only [Option.bind_eq_some, Option.some.injEq] at h
    obtain ⟨tr1, _, tr2, _, h3⟩ := h
    subst h3
    rfl

end Marking

section Queue

variable {Point FT C : Type}

/-! ## The map of bad faces after a scan -/

theorem Double_map.mem_erase (m : Double_map FT) (g f : Face_handle) (k : FT) :
    (f, k) ∈ m.erase g ↔ (f, k) ∈ m ∧ f ≠ g := by
  simp [Double_map.erase, List.mem_filter]

theorem Double_map.mem_insert (m : Double_map FT) (g : Face_handle) (d : FT)
    (f : Face_handle) (k : FT) :
    (f, k) ∈ m.insert g d ↔ ((f, k) ∈ m ∧ f ≠ g) ∨ (f = g ∧ k = d) := by
  simp [Double_map.insert, Double_map.erase, List.mem_filter]

/-- The scan of `fill_facet_map` over a list of faces never stops on the assertion, and
touches only the map of bad faces. -/
theorem fill_fold_eq (l : List Face_handle) (s : Mesh_2 Point FT C) :
    l.foldlM fill_facet_step s =
      some { s with bad_faces := l.foldl (fun Q f =>
        if is_bad s.tr f && s.tr.is_marked f then
          Double_map.insert Q f (squared_minimum_sine s.tr f) else Q) s.bad_faces } := by
  induction l generalizing s with
  | nil => simp
  | cons a l ih =>
    cases hc : (is_bad s.tr a && s.tr.is_marked a) with
    | false =>
      simp only [List.foldlM_cons, fill_facet_step, hc, Bool.false_eq_true, if_false,
        Option.some_bind, Option.bind_eq_bind, List.foldl_cons]
      exact ih s
    | true =>
      simp only [Bool.and_eq_true] at hc
      obtain ⟨hb, hm⟩ := hc
      simp only [List.foldlM_cons, fill_facet_step, hb, hm, Bool.and_self, if_true,
        push_in_bad_faces, Option.some_bind, Option.bind_eq_bind, List.foldl_cons]
      exact ih _

theorem fill_queue_mem (tr : Triangulation Point FT) (l : List Face_handle)
    (Q : Double_map FT) (f : Face_handle) (k : FT) :
    (f, k) ∈ l.foldl (fun Q f =>
        if is_bad tr f && tr.is_marked f then
          Double_map.insert Q f (squared_minimum_sine tr f) else Q) Q ↔
      ((f, k) ∈ Q ∧ ¬ (f ∈ l ∧ is_bad tr f = true ∧ tr.is_marked f = true)) ∨
        (f ∈ l ∧ is_bad tr f = true ∧ tr.is_marked f = true ∧
          k = squared_minimum_sine tr f) := by
  induction l generalizing Q with
  | nil => simp
  | cons a l ih =>
    rw [List.foldl_cons, ih]
    cases hc : (is_bad tr a && tr.is_marked a) with
    | false =>
      simp only [Bool.false_eq_true, if_false, List.mem_cons]
      have hna : ¬ (is_bad tr a = true ∧ tr.is_marked a = true) := by
        simpa [Bool.and_eq_true] using hc
      constructor
      · rintro (⟨h1, h2⟩ | ⟨h1, h2⟩)
        · left
          refine ⟨h1, ?_⟩
          rintro ⟨h3 | h3, h4⟩
          · subst h3; exact hna h4
          · exact h2 ⟨h3, h4⟩
        · exact Or.inr ⟨Or.inr h1, h2⟩
      · rintro (⟨h1, h2⟩ | ⟨h1 | h1, h2⟩)
        · exact Or.inl ⟨h1, fun h => h2 ⟨Or.inr h.1, h.2⟩⟩
        · subst h1; exact absurd ⟨h2.1, h2.2.1⟩ hna
        · exact Or.inr ⟨h1, h2⟩
    | true =>
      simp only [if_true, List.mem_cons, Double_map.mem_insert]
      have ha : is_bad tr a = true ∧ tr.is_marked a = true := by
        simpa [Bool.and_eq_true] using hc
      constructor
      · rintro (⟨h1 | h1, h2⟩ | ⟨h1, h2⟩)
        · left
          refine ⟨h1.1, ?_⟩
          rintro ⟨h3 | h3, h4⟩
          · exact h1.2 h3
          · exact h2 ⟨h3, h4⟩
        · by_cases hl : f ∈ l
          · exact absurd ⟨hl, by rw [h1.1]; exact ha⟩ h2
          · right
            obtain ⟨h3, h4⟩ := h1
            subst h3
            exact ⟨Or.inl rfl, ha.1, ha.2, h4⟩
        · exact Or.inr ⟨Or.inr h1, h2⟩
      · rintro (⟨h1, h2⟩ | ⟨h1 | h1, h2⟩)
        · left
          refine ⟨Or.inl ⟨h1, ?_⟩, fun h => h2 ⟨Or.inr h.1, h.2⟩⟩
          intro hfa
          subst hfa
          exact h2 ⟨Or.inl rfl, ha⟩
        · subst h1
          by_cases hl : f ∈ l
          · exact Or.inr ⟨hl, h2⟩
          · exact Or.inl ⟨Or.inr ⟨rfl, h2.2.2⟩, fun h => hl h.1⟩
        · exact Or.inr ⟨h1, h2⟩

/-- The state `init()` returns: `mark_facets()` has run on the emptied map, the base class
has been initialised, and the finite faces have been scanned into the empty map. -/
theorem init_eq (ext : Collaborators Point FT C) (s t : Mesh_2 Point FT C)
    (h : init ext s = some t) :
    ∃ s1, mark_facets ext { s with bad_faces := Double_map.clear } = some s1 ∧
      t = { s1 with
        tr := (ext.Conform_init s1.tr s1.cdata).1,
        cdata := (ext.Conform_init s1.tr s1.cdata).2,
        bad_faces := (ext.Conform_init s1.tr s1.cdata).1.finite_faces.foldl (fun Q f =>
          if is_bad (ext.Conform_init s1.tr s1.cdata).1 f &&
              (ext.Conform_init s1.tr s1.cdata).1.is_marked f then
            Double_map.insert Q f (squared_minimum_sine (ext.Conform_init s1.tr s1.cdata).1 f)
          else Q) [] } := by
  simp only [init, Option.bind_eq_some] at h
  obtain ⟨s1, h1, h2⟩ := h
  refine ⟨s1, h1, ?_⟩
  have hr := mark_facets_rest ext _ s1 h1
  have hb : s1.bad_faces = [] := by rw [hr]; rfl
  rw [fill_facet_map, fill_fold_eq] at h2
  simp only [Option.some.injEq] at h2
  rw [← h2, hb]

/-- C9: after `init()` returns, the entries of the map of bad faces are exactly the finite
faces of the triangulation that are marked and bad, each with the priority
`squared_minimum_sine` of the face, whatever the map held before the call. -/
theorem init_fills_queue (ext : Collaborators Point FT C) (s t : Mesh_2 Point FT C)
    (h : init ext s = some t) (f : Face_handle) (k : FT) :
    (f, k) ∈ t.bad_faces ↔
      (f ∈ t.tr.finite_faces ∧ t.tr.is_marked f = true ∧ is_bad t.tr f = true ∧
        k = squared_minimum_sine t.tr f) := by
  obtain ⟨s1, _, ht⟩ := init_eq ext s t h
  rw [ht]
  simp only
  rw [fill_queue_mem]
  constructor
  · rintro (⟨h1, _⟩ | ⟨h1, h2, h3, h4⟩)
    · simp at h1
    · exact ⟨h1, h3, h2, h4⟩
  · rintro ⟨h1, h3, h2, h4⟩
    exact Or.inr ⟨h1, h2, h3, h4⟩

/-- When the initialisation of the conformance base leaves the triangulation as it is,
`init()` returns, and a second `init()` returns the same state but for the data of the
conformance base, which is initialised again. -/
theorem init_again (ext : Collaborators Point FT C) (s : Mesh_2 Point FT C)
    (hwf : s.tr.well_formed)
    (hloc : ∀ μ p, ext.locate { s.tr with is_marked := μ } p = ext.locate s.tr p)
    (hface : ∀ p g, ext.locate s.tr p = some g → g ∈ s.tr.all_faces)
    (hbase : ∀ tr c, (ext.Conform_init tr c).1 = tr) :
    ∃ s1, init ext s = some s1 ∧
      init ext s1 = some { s1 with cdata := (ext.Conform_init s1.tr s1.cdata).2 } := by
  have hfill : ∀ u u1 : Mesh_2 Point FT C,
      mark_facets ext { u with bad_faces := Double_map.clear } = some u1 →
      ∃ t, init ext u = some t := by
    intro u u1 hm
    simp only [init, hm, Option.some_bind, fill_facet_map, fill_fold_eq]
    exact ⟨_, rfl⟩
  -- the first call
  have hm1 : ∃ s1, mark_facets ext { s with bad_faces := Double_map.clear } = some s1 ∧
      ∃ ν, s1.tr = { s.tr with is_marked := ν } ∧
        (∀ f, f ∉ s.tr.all_faces → ν f = s.tr.is_marked f) ∧
        s1.seeds = s.seeds ∧ s1.seeds_mark = s.seeds_mark := by
    by_cases hdim : s.tr.dimension < 2
    · exact ⟨{ s with bad_faces := Double_map.clear }, by simp [mark_facets, hdim],
        s.tr.is_marked, rfl, fun _ _ => rfl, rfl, rfl⟩
    · obtain ⟨ν, e, hν⟩ := mark_facets_returns ext { s with bad_faces := Double_map.clear }
        hdim hwf hloc hface
      exact ⟨_, e, ν, rfl, hν, rfl, rfl⟩
  obtain ⟨s1, e1, ν, htr, hν, hseeds, hmark⟩ := hm1
  obtain ⟨t1, ht1⟩ := hfill s s1 e1
  obtain ⟨u1, eu1, hu1⟩ := init_eq ext s t1 ht1
  rw [e1] at eu1
  simp only [Option.some.injEq] at eu1
  subst eu1
  simp only [hbase] at hu1
  -- the second call
  have hm2 : ∃ s2, mark_facets ext { t1 with bad_faces := Double_map.clear } = some s2 ∧
      s2.tr = s1.tr := by
    by_cases hdim : s.tr.dimension < 2
    · have hd1 : t1.tr.dimension < 2 := by rw [hu1, htr]; exact hdim
      refine ⟨{ t1 with bad_faces := Double_map.clear }, by simp [mark_facets, hd1], ?_⟩
      rw [hu1]
    · have hc := mark_facets_congr ext { s with bad_faces := Double_map.clear }
        { t1 with bad_faces := Double_map.clear } ν hdim (by rw [hu1]; exact htr) hν
        (by rw [hu1]; exact hseeds) (by rw [hu1]; exact hmark)
      rw [e1] at hc
      cases hm : mark_facets ext { t1 with bad_faces := Double_map.clear } with
      | none => rw [hm] at hc; simp at hc
      | some s2 =>
        rw [hm] at hc
        simp only [Option.map_some', Option.some.injEq] at hc
        exact ⟨s2, rfl, hc⟩
  obtain ⟨s2, e2, htr2⟩ := hm2
  obtain ⟨t2, ht2⟩ := hfill t1 s2 e2
  obtain ⟨u2, eu2, hu2⟩ := init_eq ext t1 t2 ht2
  rw [e2] at eu2
  simp only [Option.some.injEq] at eu2
  subst eu2
  simp only [hbase] at hu2
  refine ⟨t1, ht1, ?_⟩
  rw [ht2, hu2]
  have hr2 := mark_facets_rest ext _ s2 e2
  rw [hr2, htr2, hu1]

/-- C7: when the initialisation of the conformance base leaves the triangulation as it is,
`init()` returns, a second `init()` returns too, and the second call leaves the same face
marks (the same triangulation) and the same map of bad faces as the first, whatever the
marks and the map held before. -/
theorem init_twice (ext : Collaborators Point FT C) (s : Mesh_2 Point FT C)
    (hwf : s.tr.well_formed)
    (hloc : ∀ μ p, ext.locate { s.tr with is_marked := μ } p = ext.locate s.tr p)
    (hface : ∀ p g, ext.locate s.tr p = some g → g ∈ s.tr.all_faces)
    (hbase : ∀ tr c, (ext.Conform_init tr c).1 = tr) :
    ∃ s1 s2, init ext s = some s1 ∧ init ext s1 = some s2 ∧
      s2.tr.is_marked = s1.tr.is_marked ∧ s2.tr = s1.tr ∧ s2.bad_faces = s1.bad_faces := by
  obtain ⟨s1, h1, h2⟩ := init_again ext s hwf hloc hface hbase
  exact ⟨s1, _, h1, h2, rfl, rfl, rfl⟩

/-! ## The conformance loop as the iteration of its step -/

theorem conform_of_worked (ext : Collaborators Point FT C)
    (hiter : ∀ s t, ext.Conform_conform s = some t ↔ ∃ n, Conform_steps ext n s = some t)
    (s : Mesh_2 Point FT C) (h2 : (ext.Conform_refine_step s).2 = true) :
    ext.Conform_conform s = ext.Conform_conform (ext.Conform_refine_step s).1 := by
  apply Option.ext
  intro t
  simp only [Option.mem_def]
  rw [hiter, hiter]
  constructor
  · rintro ⟨n, h⟩
    cases n with
    | zero => simp [Conform_steps] at h
    | succ k =>
      simp only [Conform_steps, h2, if_true] at h
      exact ⟨k, h⟩
  · rintro ⟨n, h⟩
    exact ⟨n + 1, by simp only [Conform_steps, h2, if_true]; exact h⟩

theorem conform_of_idle (ext : Collaborators Point FT C)
    (hidle : ∀ s, (ext.Conform_refine_step s).2 = false → (ext.Conform_refine_step s).1 = s)
    (hiter : ∀ s t, ext.Conform_conform s = some t ↔ ∃ n, Conform_steps ext n s = some t)
    (s : Mesh_2 Point FT C) (h2 : (ext.Conform_refine_step s).2 = false) :
    ext.Conform_conform s = some s := by
  rw [hiter]
  exact ⟨1, by simp [Conform_steps, h2, hidle s h2]⟩

end Queue

section Driver

variable {Point FT C : Type} [LinearOrder FT]

/-! ## The loops of `refine()` and `refine_step()` -/

theorem refine_loop_exit (ext : Collaborators Point FT C) (fuel : Nat)
    (s t : Mesh_2 Point FT C) (h : refine_loop ext fuel s = some t) :
    refine_cond ext t = false := by
  induction fuel generalizing s with
  | zero =>
    cases hc : refine_cond ext s with
    | true => simp [refine_loop, hc] at h
    | false =>
      simp only [refine_loop, hc, Bool.false_eq_true, if_false, Option.some.injEq] at h
      subst h
      exact hc
  | succ n ih =>
    cases hc : refine_cond ext s with
    | true =>
      simp only [refine_loop, hc, if_true, Option.bind_eq_some] at h
      obtain ⟨s2, _, h2⟩ := h
      exact ih s2 h2
    | false =>
      simp only [refine_loop, hc, Bool.false_eq_true, if_false, Option.some.injEq] at h
      subst h
      exact hc

/-- C3: whenever `refine()` returns, the conformance engine reports `is_conformed()` and
the map of bad faces is empty, both in the state returned. -/
theorem refine_returns_quiescent (ext : Collaborators Point FT C) (fuel : Nat)
    (s t : Mesh_2 Point FT C) (h : refine ext fuel s = some t) :
    ext.Conform_is_conformed t.tr t.cdata = true ∧ t.bad_faces.empty = true := by
  have hexit : refine_cond ext t = false := by
    simp only [refine, Option.bind_eq_some] at h
    obtain ⟨s0, _, h0⟩ := h
    exact refine_loop_exit ext fuel s0 t h0
  simpa [refine_cond] using hexit

/-- C5: `refine_step()` returns `false` exactly when the conformance step reports nothing
to do and the map of bad faces is empty, and then the state is the one the conformance
step left; when the conformance step reports nothing to do and the map is not empty the
call is one `process_one_face()` and returns `true`; when the conformance step did work
the state is the one it left and the call returns `true`. -/
theorem refine_step_cases (ext : Collaborators Point FT C) (s : Mesh_2 Point FT C) :
    (∀ t, refine_step ext s = some (t, false) ↔
        ((ext.Conform_refine_step s).2 = false ∧
          (ext.Conform_refine_step s).1.bad_faces.empty = true ∧
          t = (ext.Conform_refine_step s).1)) ∧
      ((ext.Conform_refine_step s).2 = false →
        (ext.Conform_refine_step s).1.bad_faces.empty = false →
        refine_step ext s =
          (process_one_face ext (ext.Conform_refine_step s).1).map (fun t => (t, true))) ∧
      ((ext.Conform_refine_step s).2 = true →
        refine_step ext s = some ((ext.Conform_refine_step s).1, true)) := by
  refine ⟨?_, ?_, ?_⟩
  · intro t
    cases h2 : (ext.Conform_refine_step s).2 <;>
      cases he : (ext.Conform_refine_step s).1.bad_faces.empty <;>
      cases hp : process_one_face ext (ext.Conform_refine_step s).1 <;>
      simp [refine_step, h2, he, hp, eq_comm]
  · intro h2 he
    simp [refine_step, h2, he]
  · intro h2
    simp [refine_step, h2]

/-! ## Step by step against `refine()` -/

theorem refine_loop_of_not_cond (ext : Collaborators Point FT C) (fuel : Nat)
    (s : Mesh_2 Point FT C) (hc : refine_cond ext s = false) :
    refine_loop ext fuel s = some s := by
  cases fuel <;> simp [refine_loop, hc]

theorem refine_loop_of_cond (ext : Collaborators Point FT C) (fuel : Nat)
    (s : Mesh_2 Point FT C) (hc : refine_cond ext s = true) :
    refine_loop ext (fuel + 1) s = (refine_body ext s).bind (refine_loop ext fuel) := by
  simp [refine_loop, hc]

theorem refine_steps_of_worked (ext : Collaborators Point FT C) (n : Nat)
    (s : Mesh_2 Point FT C) (h2 : (ext.Conform_refine_step s).2 = true) :
    refine_steps ext (n + 1) s = refine_steps ext n (ext.Conform_refine_step s).1 := by
  simp [refine_steps, refine_step, h2]

theorem refine_steps_through_conform (ext : Collaborators Point FT C)
    (hidle : ∀ s, (ext.Conform_refine_step s).2 = false → (ext.Conform_refine_step s).1 = s)
    (m : Nat) (s c : Mesh_2 Point FT C) (h : Conform_steps ext m s = some c) :
    (ext.Conform_refine_step c).2 = false ∧
      ∃ j, ∀ n, refine_steps ext (j + n) s = refine_steps ext n c := by
  induction m generalizing s with
  | zero => simp [Conform_steps] at h
  | succ m ih =>
    cases h2 : (ext.Conform_refine_step s).2 with
    | true =>
      simp only [Conform_steps, h2, if_true] at h
      obtain ⟨hc, j, hj⟩ := ih _ h
      refine ⟨hc, j + 1, fun n => ?_⟩
      rw [show j + 1 + n = (j + n) + 1 by omega, refine_steps_of_worked ext _ s h2]
      exact hj n
    | false =>
      simp only [Conform_steps, h2, Bool.false_eq_true, if_false, Option.some.injEq] at h
      rw [hidle s h2] at h
      subst h
      exact ⟨h2, 0, fun n => by rw [Nat.zero_add]⟩

theorem refine_loop_of_steps (ext : Collaborators Point FT C)
    (hidle : ∀ s, (ext.Conform_refine_step s).2 = false → (ext.Conform_refine_step s).1 = s)
    (hconf : ∀ s, ext.Conform_is_conformed s.tr s.cdata = !(ext.Conform_refine_step s).2)
    (hiter : ∀ s t, ext.Conform_conform s = some t ↔ ∃ n, Conform_steps ext n s = some t)
    (n : Nat) (s t : Mesh_2 Point FT C) (h : refine_steps ext n s = some t) :
    ∃ k, refine_loop ext k s = some t := by
  induction n generalizing s with
  | zero => simp [refine_steps] at h
  | succ n ih =>
    cases h2 : (ext.Conform_refine_step s).2 with
    | true =>
      rw [refine_steps_of_worked ext n s h2] at h
      obtain ⟨k, hk⟩ := ih _ h
      have hcs : refine_cond ext s = true := by simp [refine_cond, hconf, h2]
      cases hcr : refine_cond ext (ext.Conform_refine_step s).1 with
      | false =>
        rw [refine_loop_of_not_cond ext k _ hcr] at hk
        simp only [Option.some.injEq] at hk
        have hr : (ext.Conform_refine_step (ext.Conform_refine_step s).1).2 = false := by
          simp only [refine_cond, hconf, Bool.not_not, Bool.or_eq_false_iff] at hcr
          exact hcr.1
        have he : (ext.Conform_refine_step s).1.bad_faces.empty = true := by
          simp only [refine_cond, Bool.or_eq_false_iff, Bool.not_eq_false'] at hcr
          exact hcr.2
        refine ⟨1, ?_⟩
        rw [refine_loop_of_cond ext 0 s hcs, refine_body, conform_of_worked ext hiter s h2,
          conform_of_idle ext hidle hiter _ hr]
        simp only [Option.some_bind, he, Bool.not_true, Bool.false_eq_true, if_false]
        rw [refine_loop_of_not_cond ext 0 _ hcr, hk]
      | true =>
        cases k with
        | zero => simp [refine_loop, hcr] at hk
        | succ k =>
          refine ⟨k + 1, ?_⟩
          rw [refine_loop_of_cond ext k _ hcr] at hk
          rw [refine_loop_of_cond ext k s hcs, refine_body, conform_of_worked ext hiter s h2]
          exact hk
    | false =>
      have hs : (ext.Conform_refine_step s).1 = s := hidle s h2
      cases he : s.bad_faces.empty with
      | true =>
        simp only [refine_steps, refine_step, h2, hs, he, Bool.not_false, if_true,
          Bool.not_true, Bool.false_eq_true, if_false, Option.some.injEq] at h
        subst h
        exact ⟨0, refine_loop_of_not_cond ext 0 s (by simp [refine_cond, hconf, h2, he])⟩
      | false =>
        cases hp : process_one_face ext s with
        | none =>
          simp [refine_steps, refine_step, h2, hs, he, hp] at h
        | some s2 =>
          simp only [refine_steps, refine_step, h2, hs, he, hp, Bool.not_false, if_true,
            Option.map_some'] at h
          obtain ⟨k, hk⟩ := ih _ h
          refine ⟨k + 1, ?_⟩
          rw [refine_loop_of_cond ext k s (by simp [refine_cond, he]), refine_body,
            conform_of_idle ext hidle hiter s h2]
          simp only [Option.some_bind, he, Bool.not_false, if_true, hp]
          exact hk

theorem refine_steps_of_loop (ext : Collaborators Point FT C)
    (hidle : ∀ s, (ext.Conform_refine_step s).2 = false → (ext.Conform_refine_step s).1 = s)
    (hconf : ∀ s, ext.Conform_is_conformed s.tr s.cdata = !(ext.Conform_refine_step s).2)
    (hiter : ∀ s t, ext.Conform_conform s = some t ↔ ∃ n, Conform_steps ext n s = some t)
    (k : Nat) (s t : Mesh_2 Point FT C) (h : refine_loop ext k s = some t) :
    ∃ n, refine_steps ext n s = some t := by
  have hdone : ∀ s : Mesh_2 Point FT C, refine_cond ext s = false →
      refine_steps ext 1 s = some s := by
    intro s hc
    simp only [refine_cond, hconf, Bool.not_not, Bool.or_eq_false_iff,
      Bool.not_eq_false'] at hc
    simp [refine_steps, refine_step, hc.1, hidle s hc.1, hc.2]
  induction k generalizing s with
  | zero =>
    cases hc : refine_cond ext s with
    | true => simp [refine_loop, hc] at h
    | false =>
      rw [refine_loop_of_not_cond ext 0 s hc] at h
      simp only [Option.some.injEq] at h
      subst h
      exact ⟨1, hdone s hc⟩
  | succ k ih =>
    cases hc : refine_cond ext s with
    | false =>
      rw [refine_loop_of_not_cond ext _ s hc] at h
      simp only [Option.some.injEq] at h
      subst h
      exact ⟨1, hdone s hc⟩
    | true =>
      rw [refine_loop_of_cond ext k s hc, refine_body] at h
      simp only [Option.bind_eq_some] at h
      obtain ⟨s2, ⟨c, hcf, hs2⟩, hl⟩ := h
      obtain ⟨n, hn⟩ := ih s2 hl
      obtain ⟨m, hm⟩ := (hiter s c).1 hcf
      obtain ⟨hidl, j, hj⟩ := refine_steps_through_conform ext hidle m s c hm
      cases he : c.bad_faces.empty with
      | true =>
        simp only [he, Bool.not_true, Bool.false_eq_true, if_false, Option.some.injEq] at hs2
        subst hs2
        exact ⟨j + n, by rw [hj n]; exact hn⟩
      | false =>
        simp only [he, Bool.not_false, if_true] at hs2
        refine ⟨j + (n + 1), ?_⟩
        rw [hj (n + 1)]
        simp only [refine_steps, refine_step, hidl, hidle c hidl, he, hs2, Bool.not_false,
          if_true, Option.map_some']
        exact hn

/-- C6: when the conformance step that reports nothing to do changes nothing,
`is_conformed()` holds exactly when that step would report nothing to do, `conform()` is
the iteration of the step until it reports nothing to do, and the initialisation of the
conformance base keeps the triangulation and gives the same data when run again, then
from the state left by `init()` the calls of `refine_step()` until it returns `false` end
in a state `t` exactly when `refine()` returns `t`. -/
theorem step_by_step_refine (ext : Collaborators Point FT C) (s s1 t : Mesh_2 Point FT C)
    (hwf : s.tr.well_formed)
    (hloc : ∀ μ p, ext.locate { s.tr with is_marked := μ } p = ext.locate s.tr p)
    (hface : ∀ p g, ext.locate s.tr p = some g → g ∈ s.tr.all_faces)
    (hbase : ∀ tr c, (ext.Conform_init tr c).1 = tr)
    (hagain : ∀ tr c, (ext.Conform_init tr (ext.Conform_init tr c).2).2 =
      (ext.Conform_init tr c).2)
    (hidle : ∀ s, (ext.Conform_refine_step s).2 = false → (ext.Conform_refine_step s).1 = s)
    (hconf : ∀ s, ext.Conform_is_conformed s.tr s.cdata = !(ext.Conform_refine_step s).2)
    (hiter : ∀ s t, ext.Conform_conform s = some t ↔ ∃ n, Conform_steps ext n s = some t)
    (hinit : init ext s = some s1) :
    (∃ n, refine_steps ext n s1 = some t) ↔ (∃ n, refine ext n s1 = some t) := by
  have hrefine : ∀ n, refine ext n s1 = refine_loop ext n s1 := by
    intro n
    obtain ⟨u, hu, hu2⟩ := init_again ext s hwf hloc hface hbase
    rw [hinit] at hu
    simp only [Option.some.injEq] at hu
    subst hu
    obtain ⟨v, hv, hv2⟩ := init_eq ext s s1 hinit
    have hc : (ext.Conform_init s1.tr s1.cdata).2 = s1.cdata := by
      have h1 : s1.tr = v.tr := by rw [hv2]; exact hbase _ _
      have h2 : s1.cdata = (ext.Conform_init v.tr v.cdata).2 := by rw [hv2]
      rw [h1, h2]
      exact hagain _ _
    rw [hc] at hu2
    unfold refine
    cases s1.initialized with
    | true => rfl
    | false => simp only [Bool.not_false, if_true, hu2, Option.some_bind]
  constructor
  · rintro ⟨n, h⟩
    obtain ⟨k, hk⟩ := refine_loop_of_steps ext hidle hconf hiter n s1 t h
    exact ⟨k, by rw [hrefine]; exact hk⟩
  · rintro ⟨n, h⟩
    rw [hrefine] at h
    exact refine_steps_of_loop ext hidle hconf hiter n s1 t h

end Driver

end CGAL

namespace CGAL

/-! ## The properties on the small mesh -/

theorem tetra_well_formed (bound : Int) : (tetra bound).well_formed := by
  unfold Triangulation.well_formed
  simp only [tetra]
  decide

theorem tetra_constraints_agree (bound : Int) : (tetra bound).constraints_agree := by
  unfold Triangulation.constraints_agree
  simp only [tetra]
  decide

theorem stub_locate_face {C : Type} (binit : C → C) (bound : Int) (p : Int × Int)
    (g : Face_handle) (h : (stub binit).locate (tetra bound) p = some g) :
    g ∈ (tetra bound).all_faces := by
  simp only [stub] at h
  split at h <;> simp only [Option.some.injEq] at h <;> subst h <;> simp only [tetra] <;>
    decide

theorem stub_conform_iterates {C : Type} (binit : C → C)
    (s t : Mesh_2 (Int × Int) Int C) :
    (stub binit).Conform_conform s = some t ↔ ∃ n, Conform_steps (stub binit) n s = some t := by
  constructor
  · intro h
    exact ⟨1, by simpa [stub, Conform_steps] using h⟩
  · rintro ⟨n, h⟩
    cases n with
    | zero => simp [Conform_steps] at h
    | succ n => simpa [stub, Conform_steps] using h

theorem mark_facets_seeds_witness :
    (tetra 600).well_formed ∧ (tetra 600).constraints_agree ∧
    ∃ ν, mark_facets (stub id) (mesh 600 () [(1, 1)] true) =
        some { mesh 600 () [(1, 1)] true with tr := { tetra 600 with is_marked := ν } } ∧
      ∀ f ∈ (tetra 600).all_faces,
        ((tetra 600).connected (tetra 600).infinite_face f → ν f = false) ∧
        (¬ (tetra 600).connected (tetra 600).infinite_face f →
          ((∃ p ∈ [((1 : Int), (1 : Int))], ∃ g,
              (stub (id : Unit → Unit)).locate (tetra 600) p = some g ∧
                (tetra 600).connected g f) → ν f = true) ∧
            (¬ (∃ p ∈ [((1 : Int), (1 : Int))], ∃ g,
              (stub (id : Unit → Unit)).locate (tetra 600) p = some g ∧
                (tetra 600).connected g f) → ν f = !true)) :=
  ⟨tetra_well_formed 600, tetra_constraints_agree 600,
    mark_facets_seeds (stub id) (mesh 600 () [(1, 1)] true) rfl (tetra_well_formed 600)
      (tetra_constraints_agree 600) (by simp [mesh]) (fun _ _ => rfl)
      (stub_locate_face id 600)⟩

theorem mark_facets_no_seeds_witness :
    (tetra 600).well_formed ∧
    ∃ ν, mark_facets (stub id) (mesh 600 () [] true) =
        some { mesh 600 () [] true with tr := { tetra 600 with is_marked := ν } } ∧
      ∀ f ∈ (tetra 600).all_faces,
        (ν f = true ↔ ¬ (tetra 600).connected (tetra 600).infinite_face f) :=
  ⟨tetra_well_formed 600,
    mark_facets_no_seeds (stub id) (mesh 600 () [] true) rfl (tetra_well_formed 600) rfl⟩

theorem refine_returns_quiescent_witness :
    ∃ t, refine (stub id) 3 (mesh 600 () [] true) = some t ∧
      (stub (id : Unit → Unit)).Conform_is_conformed t.tr t.cdata = true ∧
      t.bad_faces.empty = true := by
  obtain ⟨t, ht⟩ := Option.isSome_iff_exists.1
    (show (refine (stub id) 3 (mesh 600 () [] true)).isSome = true by decide)
  exact ⟨t, ht, refine_returns_quiescent (stub id) 3 _ t ht⟩

theorem refine_step_cases_witness :
    refine_step (stub id) (mesh 600 () [] true) = some (mesh 600 () [] true, false) ∧
    refine_step (stub id) { mesh 600 () [] true with bad_faces := [(0, 500)] } =
      (process_one_face (stub id) { mesh 600 () [] true with bad_faces := [(0, 500)] }).map
        (fun t => (t, true)) ∧
    refine_step { stub id with Conform_refine_step := fun s => (s, true) }
      (mesh 600 () [] true) = some (mesh 600 () [] true, true) :=
  ⟨((refine_step_cases (stub id) (mesh 600 () [] true)).1 _).2 ⟨rfl, rfl, rfl⟩,
    (refine_step_cases (stub id) { mesh 600 () [] true with bad_faces := [(0, 500)] }).2.1
      rfl rfl,
    (refine_step_cases { stub id with Conform_refine_step := fun s => (s, true) }
      (mesh 600 () [] true)).2.2 rfl⟩

theorem step_by_step_refine_witness :
    ∃ s1 t, init (stub id) (mesh 600 () [] true) = some s1 ∧
      refine_steps (stub id) 3 s1 = some t ∧ ∃ n, refine (stub id) n s1 = some t := by
  obtain ⟨s1, h1⟩ := Option.isSome_iff_exists.1
    (show (init (stub id) (mesh 600 () [] true)).isSome = true by decide)
  have h2 : ((init (stub id) (mesh 600 () [] true)).bind
      (refine_steps (stub id) 3)).isSome = true := by decide
  rw [h1] at h2
  obtain ⟨t, ht⟩ := Option.isSome_iff_exists.1 h2
  simp only [Option.some_bind] at ht
  exact ⟨s1, t, h1, ht,
    (step_by_step_refine (stub id) (mesh 600 () [] true) s1 t (tetra_well_formed 600)
      (fun _ _ => rfl) (stub_locate_face id 600) (fun _ _ => rfl) (fun _ _ => rfl)
      (fun _ _ => rfl) (fun _ => rfl) (stub_conform_iterates id) h1).1 ⟨3, ht⟩⟩

theorem init_twice_witness :
    ∃ s1 s2, init (stub id) (mesh 600 () [(1, 1)] true) = some s1 ∧
      init (stub id) s1 = some s2 ∧
      s2.tr.is_marked = s1.tr.is_marked ∧ s2.tr = s1.tr ∧ s2.bad_faces = s1.bad_faces :=
  init_twice (stub id) (mesh 600 () [(1, 1)] true) (tetra_well_formed 600) (fun _ _ => rfl)
    (stub_locate_face id 600) (fun _ _ => rfl)

theorem init_fills_queue_witness :
    ∃ t, init (stub id) (mesh 600 () [] true) = some t ∧
      ((0, 500) ∈ t.bad_faces ↔
        (0 ∈ t.tr.finite_faces ∧ t.tr.is_marked 0 = true ∧ is_bad t.tr 0 = true ∧
          (500 : Int) = squared_minimum_sine t.tr 0)) := by
  obtain ⟨t, ht⟩ := Option.isSome_iff_exists.1
    (show (init (stub id) (mesh 600 () [] true)).isSome = true by decide)
  exact ⟨t, ht, init_fills_queue (stub id) _ t ht 0 500⟩

/-- C4: `init()` leaves `initialized` false, so a `refine()` after `init()` and
`set_bad_faces` runs `init()` once more: the base class is initialised a second time and
the empty map installed by `set_bad_faces` is filled again with face 0. -/
theorem refine_runs_init_again :
    ((init (stub Nat.succ) (mesh 600 (0 : Nat) [] true)).bind fun s1 =>
      (set_bad_faces s1 []).bind fun s2 =>
        (refine (stub Nat.succ) 3 s2).map fun t =>
          (s1.initialized, s1.cdata, t.cdata)) = some (false, 1, 2) ∧
    ((init (stub Nat.succ) (mesh 600 (0 : Nat) [] true)).bind fun s1 =>
      (set_bad_faces s1 []).bind fun s2 =>
        (init (stub Nat.succ) s2).map fun u => (s2.bad_faces, u.bad_faces)) =
      some ([], [(0, 500)]) := by
  decide

/-- The run on the square is held to the coordinates: the triangulation of the input and
the triangulation the first `refine()` leaves agree with them (`well_built`), no two
constrained edges make a sharp corner, and no face is bad; the first `refine()` has
inserted one vertex, the midpoint (2,0) of the lower side, and faces 8 and 9 are the two
triangles on that side. -/
theorem square_run_geometry :
    well_built square0 [1, 2, 3, 4, 5] = true ∧ no_sharp_corner square0 = true ∧
      square0.finite_faces.all (fun f => !is_bad square0 f) = true ∧
      (refine square_stub 2 square_mesh).map
          (fun t => (well_built t.tr [1, 2, 3, 4, 5, 6], no_sharp_corner t.tr,
            t.tr.finite_faces.all (fun f => !is_bad t.tr f))) = some (true, true, true) ∧
      (refine square_stub 2 square_mesh).map
          (fun t => (t.tr.point 6, t.tr.finite_faces,
            t.tr.finite_faces.map (squared_minimum_sine t.tr))) =
        some ((2, 0), [1, 2, 3, 8, 9], [307, 692, 307, 200, 200]) := by
  decide

/-- The triangulation the first `refine()` leaves on the square, as tables: the vertices
and the neighbours of the faces 0 to 9, the faces with a constrained edge 0 or 2, the
infinite faces and the marked faces.  Face 0, the triangle (5,1,2) of the input, is now
the infinite face (6,1,0) on the left half of the lower side, and it is marked. -/
theorem square_split_tables :
    (refine square_stub 2 square_mesh).map
        (fun t => (t.tr.all_faces.map (fun f => [t.tr.vertex f 0, t.tr.vertex f 1,
            t.tr.vertex f 2]),
          t.tr.all_faces.map (fun f => [t.tr.neighbor f 0, t.tr.neighbor f 1,
            t.tr.neighbor f 2]))) =
      some ([[6, 1, 0], [5, 2, 3], [5, 3, 4], [5, 4, 1], [2, 6, 0], [3, 2, 0], [4, 3, 0],
          [1, 4, 0], [5, 6, 2], [5, 1, 6]],
        [[7, 4, 9], [5, 2, 8], [6, 3, 1], [7, 9, 2], [0, 5, 8], [4, 6, 1], [5, 7, 2],
          [6, 0, 3], [4, 1, 9], [0, 8, 3]]) ∧
    (refine square_stub 2 square_mesh).map
        (fun t => (t.tr.all_faces.filter (fun f => t.tr.is_constrained f 0),
          t.tr.all_faces.filter (fun f => t.tr.is_constrained f 1),
          t.tr.all_faces.filter (fun f => t.tr.is_constrained f 2))) =
      some ([1, 2, 3, 8, 9], [], [0, 4, 5, 6, 7]) ∧
    (refine square_stub 2 square_mesh).map
        (fun t => (t.tr.all_faces.filter t.tr.is_infinite,
          t.tr.all_faces.filter t.tr.is_marked)) =
      some ([0, 4, 5, 6, 7], [0, 1, 2, 3, 8, 9]) ∧
    (init square_stub square_mesh).map
        (fun t => (t.tr.all_faces.filter t.tr.is_marked, t.cdata, t.bad_faces)) =
      some ([0, 1, 2, 3], [(2, 1)], []) := by
  refine ⟨by decide, by decide, by decide, by decide⟩

/-- C8: on the square with a vertex near its lower side the first `refine()` splits the
lower side and returns with nothing to conform and an empty map of bad faces.  The
insertion has turned the handle 0 of the cut triangle into an infinite face, and the
loops of `virtual_insert_in_the_edge`, which skip infinite faces, have left it marked.
The second `refine()` runs `init()` again, whose `mark_facets()` clears that mark: the
marks after the second call are not those before it. -/
theorem second_refine_resets_mark :
    (refine square_stub 2 square_mesh).map
        (fun t => (t.tr.all_faces, t.tr.is_infinite 0, t.tr.is_marked 0)) =
      some ([0, 1, 2, 3, 4, 5, 6, 7, 8, 9], true, true) ∧
    (refine square_stub 2 square_mesh).map (fun t => (t.bad_faces, t.cdata)) =
      some ([], []) ∧
    ((refine square_stub 2 square_mesh).bind (init square_stub)).map
        (fun u => (u.tr.is_marked 0, u.bad_faces, u.cdata)) = some (false, [], []) ∧
    ((refine square_stub 2 square_mesh).bind (refine square_stub 2)).map
        (fun t => (t.tr.all_faces, t.tr.is_infinite 0, t.tr.is_marked 0)) =
      some ([0, 1, 2, 3, 4, 5, 6, 7, 8, 9], true, false) := by
  decide

/-- C10: after `set_geom_traits` with a bound under which face 0 is no longer bad,
`calculate_bad_faces()` leaves the entry of face 0 in the map of bad faces. -/
theorem calculate_bad_faces_keeps_stale :
    ((init (stub id) (mesh 600 () [] true)).bind fun s1 =>
      (calculate_bad_faces (set_geom_traits s1 (angle_traits 250))).map fun t =>
        (s1.bad_faces, t.bad_faces, is_bad t.tr 0, t.tr.is_marked 0)) =
      some ([(0, 500)], [(0, 500)], false, true) := by
  decide

end CGAL

namespace CGAL

section Refinement

variable {Point FT C : Type}

/-! ## `set_bad_faces` -/

theorem push_fold_eq (l : List Face_handle) (s : Mesh_2 Point FT C)
    (hl : ∀ f ∈ l, s.tr.is_marked f = true) :
    l.foldlM push_in_bad_faces s =
      some { s with bad_faces := l.foldl (fun Q f =>
        Double_map.insert Q f (squared_minimum_sine s.tr f)) s.bad_faces } := by
  induction l generalizing s with
  | nil => simp
  | cons a l ih =>
    have ha : s.tr.is_marked a = true := hl a (by simp)
    simp only [List.foldlM_cons, push_in_bad_faces, ha, if_true, Option.some_bind,
      Option.bind_eq_bind, List.foldl_cons]
    exact ih _ (fun f hf => hl f (by simp [hf]))

theorem insert_fold_mem (w : Face_handle → FT) (l : List Face_handle) (Q : Double_map FT)
    (f : Face_handle) (k : FT) :
    (f, k) ∈ l.foldl (fun Q f => Double_map.insert Q f (w f)) Q ↔
      ((f, k) ∈ Q ∧ f ∉ l) ∨ (f ∈ l ∧ k = w f) := by
  induction l generalizing Q with
  | nil => simp
  | cons a l ih =>
    rw [List.foldl_cons, ih]
    simp only [Double_map.mem_insert, List.mem_cons]
    constructor
    · rintro (⟨h1 | h1, h2⟩ | ⟨h1, h2⟩)
      · exact Or.inl ⟨h1.1, fun h => h.elim h1.2 h2⟩
      · exact Or.inr ⟨Or.inl h1.1, by rw [h1.2, h1.1]⟩
      · exact Or.inr ⟨Or.inr h1, h2⟩
    · rintro (⟨h1, h2⟩ | ⟨h1 | h1, h2⟩)
      · exact Or.inl ⟨Or.inl ⟨h1, fun h => h2 (Or.inl h)⟩, fun h => h2 (Or.inr h)⟩
      · by_cases hl : f ∈ l
        · exact Or.inr ⟨hl, h2⟩
        · exact Or.inl ⟨Or.inr ⟨h1, by rw [h2, h1]⟩, hl⟩
      · exact Or.inr ⟨h1, h2⟩

/-- C11: for a sequence of handles of marked faces `set_bad_faces` returns, touches only
the map of bad faces, and the entries of the map are then exactly the faces of the
sequence, each with the priority `squared_minimum_sine` of the face; an entry held before
the call is there afterwards only if its face is in the sequence. -/
theorem set_bad_faces_replaces (s : Mesh_2 Point FT C) (fhs : List Face_handle)
    (hmarked : ∀ f ∈ fhs, s.tr.is_marked f = true) :
    ∃ Q, set_bad_faces s fhs = some { s with bad_faces := Q } ∧
      (∀ f k, (f, k) ∈ Q ↔ (f ∈ fhs ∧ k = squared_minimum_sine s.tr f)) ∧
      (∀ f k, (f, k) ∈ s.bad_faces → (f, k) ∈ Q → f ∈ fhs) := by
  refine ⟨_, push_fold_eq fhs { s with bad_faces := Double_map.clear } hmarked, ?_, ?_⟩
  · intro f k
    simp only
    rw [insert_fold_mem]
    simp [Double_map.clear]
  · intro f k _ h
    simp only at h
    rw [insert_fold_mem] at h
    simpa [Double_map.clear] using h.elim (fun h => absurd h.1 (by simp [Double_map.clear]))
      (fun h => h.1)

/-! ## The pop of `process_one_face` -/

theorem Double_map.front_some [LinearOrder FT] (Q : Double_map FT) (hne : Q ≠ []) :
    ∃ e, Q.front = some e := by
  cases Q with
  | nil => exact absurd rfl hne
  | cons a l =>
    simp only [Double_map.front]
    cases Double_map.front l with
    | none => exact ⟨a, rfl⟩
    | some e2 =>
      by_cases h : a.2 ≤ e2.2
      · exact ⟨a, by simp [h]⟩
      · exact ⟨e2, by simp [h]⟩

theorem Double_map.front_spec [LinearOrder FT] (Q : Double_map FT) (e : Face_handle × FT)
    (h : Q.front = some e) : e ∈ Q ∧ ∀ x ∈ Q, e.2 ≤ x.2 := by
  induction Q generalizing e with
  | nil => simp [Double_map.front] at h
  | cons a l ih =>
    simp only [Double_map.front] at h
    cases hl : Double_map.front l with
    | none =>
      rw [hl] at h
      simp only [Option.some.injEq] at h
      subst h
      have hnil : l = [] := by
        by_contra hne
        obtain ⟨e, he⟩ := Double_map.front_some l hne
        rw [he] at hl
        exact absurd hl (by simp)
      subst hnil
      exact ⟨by simp, by simp⟩
    | some e2 =>
      rw [hl] at h
      obtain ⟨hm, hmin⟩ := ih e2 hl
      by_cases hc : a.2 ≤ e2.2
      · simp only [hc, if_true, Option.some.injEq] at h
        subst h
        refine ⟨by simp, ?_⟩
        intro x hx
        simp only [List.mem_cons] at hx
        rcases hx with hx | hx
        · subst hx; exact le_refl _
        · exact le_trans hc (hmin x hx)
      · simp only [hc, if_false, Option.some.injEq] at h
        subst h
        refine ⟨by simp [hm], ?_⟩
        intro x hx
        simp only [List.mem_cons] at hx
        rcases hx with hx | hx
        · subst hx; exact le_of_lt (lt_of_not_le hc)
        · exact hmin x hx

theorem Double_map.key_unique (Q : Double_map FT) (hkeys : (Q.map Prod.fst).Nodup)
    (x y : Face_handle × FT) (hx : x ∈ Q) (hy : y ∈ Q) (h : x.1 = y.1) : x = y :=
  List.inj_on_of_nodup_map hkeys hx hy h

theorem Double_map.mem_pop_front [LinearOrder FT] (Q : Double_map FT)
    (hkeys : (Q.map Prod.fst).Nodup) (e : Face_handle × FT) (h : Q.front = some e)
    (x : Face_handle × FT) : x ∈ Q.pop_front ↔ (x ∈ Q ∧ x ≠ e) := by
  have he := (Double_map.front_spec Q e h).1
  simp only [Double_map.pop_front, h, Double_map.erase, List.mem_filter, decide_eq_true_eq]
  constructor
  · rintro ⟨h1, h2⟩
    exact ⟨h1, fun hxe => h2 (by rw [hxe])⟩
  · rintro ⟨h1, h2⟩
    exact ⟨h1, fun hk => h2 (Double_map.key_unique Q hkeys x e h1 he hk)⟩

/-- C18: on a non-empty map of bad faces (one entry per handle) `process_one_face` takes
an entry whose priority is at most the priority of every entry, removes that entry and no
other, and is then `refine_face` on the face of that entry. -/
theorem process_one_face_pops_worst [LinearOrder FT] (ext : Collaborators Point FT C)
    (s : Mesh_2 Point FT C) (hne : s.bad_faces ≠ [])
    (hkeys : (s.bad_faces.map Prod.fst).Nodup) :
    ∃ e ∈ s.bad_faces, (∀ x ∈ s.bad_faces, e.2 ≤ x.2) ∧
      (∀ x, x ∈ s.bad_faces.pop_front ↔ (x ∈ s.bad_faces ∧ x ≠ e)) ∧
      process_one_face ext s =
        refine_face ext { s with bad_faces := s.bad_faces.pop_front } e.1 := by
  obtain ⟨e, he⟩ := Double_map.front_some s.bad_faces hne
  obtain ⟨hm, hmin⟩ := Double_map.front_spec s.bad_faces e he
  exact ⟨e, hm, hmin, Double_map.mem_pop_front s.bad_faces hkeys e he,
    by simp [process_one_face, he]⟩

/-! ## The scan of the boundary edges in `refine_face` -/

theorem refine_face_edge_conform [LinearOrder FT] (ext : Collaborators Point FT C)
    (tr : Triangulation Point FT) (f : Face_handle) (pc : Point) (st : Scan C) (e : Edge)
    (h : encroached_constrained ext tr pc e = false) :
    refine_face_edge ext tr f pc st e = st := by
  simp only [encroached_constrained] at h
  simp [refine_face_edge, h]

theorem refine_face_edge_encroached [LinearOrder FT] (ext : Collaborators Point FT C)
    (tr : Triangulation Point FT) (f : Face_handle) (pc : Point) (st : Scan C) (e : Edge)
    (h : encroached_constrained ext tr pc e = true) :
    (refine_face_edge ext tr f pc st e).split_the_face = false := by
  simp only [encroached_constrained] at h
  simp only [refine_face_edge, h, if_true]
  split <;> try rfl
  all_goals split <;> rfl

theorem refine_face_edge_stays [LinearOrder FT] (ext : Collaborators Point FT C)
    (tr : Triangulation Point FT) (f : Face_handle) (pc : Point) (st : Scan C) (e : Edge)
    (h : st.split_the_face = false) :
    (refine_face_edge ext tr f pc st e).split_the_face = false := by
  cases he : encroached_constrained ext tr pc e with
  | false => rw [refine_face_edge_conform ext tr f pc st e he]; exact h
  | true => exact refine_face_edge_encroached ext tr f pc st e he

theorem refine_scan_conform [LinearOrder FT] (ext : Collaborators Point FT C)
    (tr : Triangulation Point FT) (f : Face_handle) (pc : Point) (l : List Edge)
    (st : Scan C) (h : ∀ e ∈ l, encroached_constrained ext tr pc e = false) :
    l.foldl (refine_face_edge ext tr f pc) st = st := by
  induction l generalizing st with
  | nil => rfl
  | cons a l ih =>
    rw [List.foldl_cons, refine_face_edge_conform ext tr f pc st a (h a (by simp))]
    exact ih st (fun e he => h e (by simp [he]))

theorem refine_scan_stays [LinearOrder FT] (ext : Collaborators Point FT C)
    (tr : Triangulation Point FT) (f : Face_handle) (pc : Point) (l : List Edge)
    (st : Scan C) (h : st.split_the_face = false) :
    (l.foldl (refine_face_edge ext tr f pc) st).split_the_face = false := by
  induction l generalizing st with
  | nil => exact h
  | cons a l ih => exact ih _ (refine_face_edge_stays ext tr f pc st a h)

theorem refine_scan_encroached [LinearOrder FT] (ext : Collaborators Point FT C)
    (tr : Triangulation Point FT) (f : Face_handle) (pc : Point) (l : List Edge)
    (st : Scan C) (h : ∃ e ∈ l, encroached_constrained ext tr pc e = true) :
    (l.foldl (refine_face_edge ext tr f pc) st).split_the_face = false := by
  induction l generalizing st with
  | nil => simp at h
  | cons a l ih =>
    obtain ⟨e, he, hb⟩ := h
    simp only [List.mem_cons] at he
    rw [List.foldl_cons]
    rcases he with he | he
    · subst he
      exact refine_scan_stays ext tr f pc l _ (refine_face_edge_encroached ext tr f pc st e hb)
    · exact ih _ ⟨e, he, hb⟩

/-! ## The map of bad faces after the faces around a new vertex have been looked at -/

theorem cond_insert_fold_filter (c : Face_handle → Bool) (w : Face_handle → FT)
    (l : List Face_handle) (Q : Double_map FT) :
    l.foldl (fun Q f => if c f then Double_map.insert Q f (w f) else Q) Q =
      (l.filter c).foldl (fun Q f => Double_map.insert Q f (w f)) Q := by
  induction l generalizing Q with
  | nil => rfl
  | cons a l ih =>
    cases hc : c a with
    | false => simp only [List.foldl_cons, hc, Bool.false_eq_true, if_false, List.filter_cons]; exact ih Q
    | true => simp only [List.foldl_cons, hc, if_true, List.filter_cons]; exact ih _

theorem cond_insert_fold_mem (c : Face_handle → Bool) (w : Face_handle → FT)
    (l : List Face_handle) (Q : Double_map FT) (f : Face_handle) (k : FT) :
    (f, k) ∈ l.foldl (fun Q f => if c f then Double_map.insert Q f (w f) else Q) Q ↔
      ((f, k) ∈ Q ∧ ¬ (f ∈ l ∧ c f = true)) ∨ (f ∈ l ∧ c f = true ∧ k = w f) := by
  rw [cond_insert_fold_filter, insert_fold_mem]
  simp only [List.mem_filter, and_assoc]

theorem new_bad_fold_eq (l : List Face_handle) (s : Mesh_2 Point FT C) :
    l.foldlM new_bad_face_step s =
      some { s with bad_faces := l.foldl (fun Q fc =>
        if !s.tr.is_infinite fc && (is_bad s.tr fc && s.tr.is_marked fc) then
          Double_map.insert Q fc (squared_minimum_sine s.tr fc) else Q) s.bad_faces } := by
  induction l generalizing s with
  | nil => simp
  | cons a l ih =>
    cases hi : s.tr.is_infinite a with
    | true =>
      simp only [List.foldlM_cons, new_bad_face_step, hi, Bool.not_true, Bool.false_eq_true,
        if_false, Option.some_bind, Option.bind_eq_bind, List.foldl_cons, Bool.false_and]
      exact ih s
    | false =>
      cases hb : is_bad s.tr a with
      | false =>
        simp only [List.foldlM_cons, new_bad_face_step, hi, hb, Bool.not_false, if_true,
          Bool.false_and, Bool.and_false, Bool.false_eq_true, if_false, Option.some_bind,
          Option.bind_eq_bind, List.foldl_cons]
        exact ih s
      | true =>
        cases hm : s.tr.is_marked a with
        | false =>
          simp only [List.foldlM_cons, new_bad_face_step, hi, hb, hm, Bool.not_false,
            if_true, Bool.and_false, Bool.false_eq_true, if_false, Option.some_bind,
            Option.bind_eq_bind, List.foldl_cons]
          exact ih s
        | true =>
          simp only [List.foldlM_cons, new_bad_face_step, hi, hb, hm, Bool.not_false,
            if_true, Bool.and_self, push_in_bad_faces, Option.some_bind,
            Option.bind_eq_bind, List.foldl_cons]
          exact ih _

/-! ## `split_face` and `refine_face` -/

/-- The state `split_face` returns: the triangulation is the one `star_hole` made, with
the mark of `f` on every face around the new vertex; the faces of the conflict zone have
left the map of bad faces and the faces around the new vertex have been looked at. -/
theorem split_face_eq (ext : Collaborators Point FT C) (s : Mesh_2 Point FT C)
    (f : Face_handle) (c : Point) :
    split_face ext s f c =
      some { s with
        tr := { (ext.star_hole s.tr c (ext.get_conflicts_and_boundary s.tr c f).2
                  (ext.get_conflicts_and_boundary s.tr c f).1).1 with
            is_marked := fun g =>
              if g ∈ ext.incident_faces
                  (ext.star_hole s.tr c (ext.get_conflicts_and_boundary s.tr c f).2
                    (ext.get_conflicts_and_boundary s.tr c f).1).1
                  (ext.star_hole s.tr c (ext.get_conflicts_and_boundary s.tr c f).2
                    (ext.get_conflicts_and_boundary s.tr c f).1).2
              then s.tr.is_marked f
              else (ext.star_hole s.tr c (ext.get_conflicts_and_boundary s.tr c f).2
                    (ext.get_conflicts_and_boundary s.tr c f).1).1.is_marked g },
        bad_faces := (split_face ext s f c).elim s.bad_faces (fun t => t.bad_faces) } := by
  simp only [split_face, compute_new_bad_faces, new_bad_fold_eq, set_marked_fold_eq,
    Option.elim]

/-- C19: for a marked face `f` with circumcentre `c`: when no boundary edge of the
conflict zone of `c` is both constrained and encroached by `c`, `refine_face(f)` is
`split_face(f, c)`, which returns and leaves the triangulation made by the one call of
`star_hole` at `c`, up to the marks of the faces around the new vertex; when some
boundary edge is constrained and encroached, a returning `refine_face(f)` leaves the
triangulation (faces, marks, constraint bits) as it was. -/
theorem refine_face_splits_iff [LinearOrder FT] (ext : Collaborators Point FT C)
    (s : Mesh_2 Point FT C) (f : Face_handle) (hmarked : s.tr.is_marked f = true) :
    ((∀ e ∈ (ext.get_conflicts_and_boundary s.tr (ext.circumcenter s.tr f) f).2,
          encroached_constrained ext s.tr (ext.circumcenter s.tr f) e = false) →
        refine_face ext s f = split_face ext s f (ext.circumcenter s.tr f) ∧
        ∃ t, split_face ext s f (ext.circumcenter s.tr f) = some t ∧
          t.tr = { (ext.star_hole s.tr (ext.circumcenter s.tr f)
              (ext.get_conflicts_and_boundary s.tr (ext.circumcenter s.tr f) f).2
              (ext.get_conflicts_and_boundary s.tr (ext.circumcenter s.tr f) f).1).1 with
            is_marked := t.tr.is_marked }) ∧
      ((∃ e ∈ (ext.get_conflicts_and_boundary s.tr (ext.circumcenter s.tr f) f).2,
          encroached_constrained ext s.tr (ext.circumcenter s.tr f) e = true) →
        ∀ t, refine_face ext s f = some t → t.tr = s.tr) := by
  constructor
  · intro h
    have hscan := refine_scan_conform ext s.tr f (ext.circumcenter s.tr f) _
      { cdata := s.cdata, split_the_face := true, keep_the_face_bad := false } h
    refine ⟨?_, _, split_face_eq ext s f _, rfl⟩
    simp only [refine_face, hscan, if_true, hmarked]
  · intro h t ht
    have hscan := refine_scan_encroached ext s.tr f (ext.circumcenter s.tr f) _
      { cdata := s.cdata, split_the_face := true, keep_the_face_bad := false } h
    simp only [refine_face, hscan, Bool.false_eq_true, if_false] at ht
    split at ht
    · simp only [push_in_bad_faces_v] at ht
      split at ht
      · simp only [push_in_bad_faces] at ht
        split at ht
        · simp only [Option.some.injEq] at ht
          rw [← ht]
        · exact absurd ht (by simp)
      · exact absurd ht (by simp)
    · simp only [Option.some.injEq] at ht
      rw [← ht]

theorem shortest_edge_is_min [LinearOrder FT] (tr : Triangulation Point FT)
    (f : Face_handle) :
    (shortest_edge_squared_length tr f ≤
        tr.gt.compute_squared_distance_2 (tr.point (tr.vertex f 1)) (tr.point (tr.vertex f 2)) ∧
      shortest_edge_squared_length tr f ≤
        tr.gt.compute_squared_distance_2 (tr.point (tr.vertex f 2)) (tr.point (tr.vertex f 0)) ∧
      shortest_edge_squared_length tr f ≤
        tr.gt.compute_squared_distance_2 (tr.point (tr.vertex f 0)) (tr.point (tr.vertex f 1))) ∧
    (shortest_edge_squared_length tr f =
        tr.gt.compute_squared_distance_2 (tr.point (tr.vertex f 1)) (tr.point (tr.vertex f 2)) ∨
      shortest_edge_squared_length tr f =
        tr.gt.compute_squared_distance_2 (tr.point (tr.vertex f 2)) (tr.point (tr.vertex f 0)) ∨
      shortest_edge_squared_length tr f =
        tr.gt.compute_squared_distance_2 (tr.point (tr.vertex f 0)) (tr.point (tr.vertex f 1))) := by
  simp only [shortest_edge_squared_length]
  refine ⟨⟨min_le_left _ _, le_trans (min_le_right _ _) (min_le_left _ _),
    le_trans (min_le_right _ _) (min_le_right _ _)⟩, ?_⟩
  rcases min_choice (tr.gt.compute_squared_distance_2 (tr.point (tr.vertex f 1))
      (tr.point (tr.vertex f 2)))
    (min (tr.gt.compute_squared_distance_2 (tr.point (tr.vertex f 2)) (tr.point (tr.vertex f 0)))
      (tr.gt.compute_squared_distance_2 (tr.point (tr.vertex f 0)) (tr.point (tr.vertex f 1))))
    with h | h
  · exact Or.inl h
  · rw [h]
    rcases min_choice
      (tr.gt.compute_squared_distance_2 (tr.point (tr.vertex f 2)) (tr.point (tr.vertex f 0)))
      (tr.gt.compute_squared_distance_2 (tr.point (tr.vertex f 0)) (tr.point (tr.vertex f 1)))
      with h2 | h2
    · exact Or.inr (Or.inl h2)
    · exact Or.inr (Or.inr h2)

/-- One turn of the scan of `refine_face(f)`: the boundary edge `e` with endpoints `va`,
`vb` is handed to `add_contrained_edge_to_be_conform` (and the face is kept bad) exactly when
it is constrained, encroached by the circumcentre, and the cluster clause holds; in every
other case the data of the conformance base and the flag `keep_the_face_bad` are left as
they were.  The length compared with `rmin` is the least of the three squared edge
lengths of `f`: it is at most each of them and it is one of them. -/
theorem refine_face_edge_enqueues [LinearOrder FT] (ext : Collaborators Point FT C)
    (tr : Triangulation Point FT) (f : Face_handle) (pc : Point) (st : Scan C) (e : Edge) :
    ((encroached_constrained ext tr pc e = true ∧
          cluster_clause ext tr st.cdata f (tr.vertex e.1 (cw e.2)) (tr.vertex e.1 (ccw e.2))) →
        refine_face_edge ext tr f pc st e =
          { cdata := ext.add_contrained_edge_to_be_conform tr st.cdata
              (tr.vertex e.1 (cw e.2)) (tr.vertex e.1 (ccw e.2)),
            split_the_face := false, keep_the_face_bad := true }) ∧
      (¬ (encroached_constrained ext tr pc e = true ∧
          cluster_clause ext tr st.cdata f (tr.vertex e.1 (cw e.2)) (tr.vertex e.1 (ccw e.2))) →
        (refine_face_edge ext tr f pc st e).cdata = st.cdata ∧
        (refine_face_edge ext tr f pc st e).keep_the_face_bad = st.keep_the_face_bad) ∧
      ((shortest_edge_squared_length tr f ≤
          tr.gt.compute_squared_distance_2 (tr.point (tr.vertex f 1)) (tr.point (tr.vertex f 2)) ∧
        shortest_edge_squared_length tr f ≤
          tr.gt.compute_squared_distance_2 (tr.point (tr.vertex f 2)) (tr.point (tr.vertex f 0)) ∧
        shortest_edge_squared_length tr f ≤
          tr.gt.compute_squared_distance_2 (tr.point (tr.vertex f 0)) (tr.point (tr.vertex f 1))) ∧
       (shortest_edge_squared_length tr f =
          tr.gt.compute_squared_distance_2 (tr.point (tr.vertex f 1)) (tr.point (tr.vertex f 2)) ∨
        shortest_edge_squared_length tr f =
          tr.gt.compute_squared_distance_2 (tr.point (tr.vertex f 2)) (tr.point (tr.vertex f 0)) ∨
        shortest_edge_squared_length tr f =
          tr.gt.compute_squared_distance_2 (tr.point (tr.vertex f 0)) (tr.point (tr.vertex f 1)))) := by
  refine ⟨?_, ?_, shortest_edge_is_min tr f⟩
  · rintro ⟨henc, hcl⟩
    simp only [encroached_constrained] at henc
    simp only [refine_face_edge, henc, if_true]
    cases h1 : ext.get_cluster tr st.cdata (tr.vertex e.1 (cw e.2)) (tr.vertex e.1 (ccw e.2)) <;>
      cases h2 : ext.get_cluster tr st.cdata (tr.vertex e.1 (ccw e.2)) (tr.vertex e.1 (cw e.2))
    · rfl
    · rename_i c2
      rcases hcl with h | h | ⟨cl, h, hr⟩
      · rw [h1] at h; simp at h
      · rw [h2] at h; simp at h
      · rw [h1, h2] at h
        simp only [reduceCtorEq, and_false, Option.some.injEq, true_and, false_or] at h
        subst h
        have : (!c2.is_reduced || decide (c2.rmin ≥ shortest_edge_squared_length tr f)) = true := by
          rcases hr with hr | hr
          · simp [hr]
          · simp [hr]
        simp only [this, if_true]
    · rename_i c1
      rcases hcl with h | h | ⟨cl, h, hr⟩
      · rw [h2] at h; simp at h
      · rw [h1] at h; simp at h
      · rw [h1, h2] at h
        simp only [reduceCtorEq, and_false, Option.some.injEq, and_true, or_false] at h
        subst h
        have : (!c1.is_reduced || decide (c1.rmin ≥ shortest_edge_squared_length tr f)) = true := by
          rcases hr with hr | hr
          · simp [hr]
          · simp [hr]
        simp only [this, if_true]
    · rfl
  · intro hn
    cases henc : encroached_constrained ext tr pc e with
    | false =>
      rw [refine_face_edge_conform ext tr f pc st e henc]
      exact ⟨rfl, rfl⟩
    | true =>
      have hcl : ¬ cluster_clause ext tr st.cdata f (tr.vertex e.1 (cw e.2))
          (tr.vertex e.1 (ccw e.2)) := fun h => hn ⟨henc, h⟩
      simp only [encroached_constrained] at henc
      simp only [refine_face_edge, henc, if_true]
      cases h1 : ext.get_cluster tr st.cdata (tr.vertex e.1 (cw e.2)) (tr.vertex e.1 (ccw e.2)) <;>
        cases h2 : ext.get_cluster tr st.cdata (tr.vertex e.1 (ccw e.2)) (tr.vertex e.1 (cw e.2))
      · exact absurd (Or.inr (Or.inl ⟨by rw [h1]; rfl, by rw [h2]; rfl⟩)) hcl
      · rename_i c2
        have : (!c2.is_reduced || decide (c2.rmin ≥ shortest_edge_squared_length tr f)) = false := by
          by_contra hb
          simp only [Bool.not_eq_false, Bool.or_eq_true, Bool.not_eq_true', decide_eq_true_eq] at hb
          exact hcl (Or.inr (Or.inr ⟨c2, Or.inr ⟨h1, h2⟩, hb⟩))
        simp only [this, Bool.false_eq_true, if_false, and_self]
      · rename_i c1
        have : (!c1.is_reduced || decide (c1.rmin ≥ shortest_edge_squared_length tr f)) = false := by
          by_contra hb
          simp only [Bool.not_eq_false, Bool.or_eq_true, Bool.not_eq_true', decide_eq_true_eq] at hb
          exact hcl (Or.inr (Or.inr ⟨c1, Or.inl ⟨h1, h2⟩, hb⟩))
        simp only [this, Bool.false_eq_true, if_false, and_self]
      · exact absurd (Or.inl ⟨by rw [h1]; rfl, by rw [h2]; rfl⟩) hcl

/-! ## `is_bad_faces_valid` -/

theorem Double_map.pop_front_length [LinearOrder FT] (Q : Double_map FT)
    (e : Face_handle × FT) (h : Q.front = some e) : Q.pop_front.length < Q.length := by
  have he := (Double_map.front_spec Q e h).1
  simp only [Double_map.pop_front, h, Double_map.erase]
  rw [List.length_filter_lt_length_iff_exists]
  exact ⟨e, he, by simp⟩

theorem Double_map.pop_front_keys [LinearOrder FT] (Q : Double_map FT)
    (hkeys : (Q.map Prod.fst).Nodup) : (Q.pop_front.map Prod.fst).Nodup := by
  simp only [Double_map.pop_front]
  split
  · exact hkeys
  · exact List.Nodup.sublist ((List.filter_sublist _).map _) hkeys

theorem drain_spec [LinearOrder FT] (ext : Collaborators Point FT C)
    (tr : Triangulation Point FT) (fuel : Nat) (Q : Double_map FT)
    (acc : List (FT × Face_handle)) (result : Bool) (hlen : Q.length ≤ fuel)
    (hkeys : (Q.map Prod.fst).Nodup) :
    ∃ L r, drain_bad_faces ext tr fuel Q acc result = some (acc ++ L, r) ∧
      (∀ d f, (d, f) ∈ L ↔ (f, d) ∈ Q) ∧ (L.map Prod.snd).Nodup ∧
      (r = true ↔ (result = true ∧ ∀ x ∈ Q, valid_entry ext tr x.1 = true)) := by
  induction fuel generalizing Q acc result with
  | zero =>
    have hQ : Q = [] := List.length_eq_zero.1 (Nat.le_zero.1 hlen)
    subst hQ
    exact ⟨[], result, by simp [drain_bad_faces, Double_map.empty], by simp, by simp, by simp⟩
  | succ n ih =>
    by_cases hQ : Q = []
    · subst hQ
      exact ⟨[], result, by simp [drain_bad_faces, Double_map.empty], by simp, by simp,
        by simp⟩
    · obtain ⟨e, he⟩ := Double_map.front_some Q hQ
      have hem := (Double_map.front_spec _ e he).1
      have hlt := Double_map.pop_front_length _ e he
      obtain ⟨L, r, hd, hL, hnd, hr⟩ := ih (Double_map.pop_front Q)
        (acc ++ [(e.2, e.1)]) (result && valid_entry ext tr e.1) (by omega)
        (Double_map.pop_front_keys _ hkeys)
      have hpop := Double_map.mem_pop_front _ hkeys e he
      have hemp : Double_map.empty Q = false := by
        cases Q with
        | nil => exact absurd rfl hQ
        | cons a l => rfl
      refine ⟨(e.2, e.1) :: L, r, ?_, ?_, ?_, ?_⟩
      · simp only [drain_bad_faces, hemp, Bool.false_eq_true, if_false, he]
        rw [hd]
        simp
      · intro d f
        rw [List.mem_cons, hL, hpop]
        constructor
        · rintro (h1 | ⟨h1, _⟩)
          · simp only [Prod.mk.injEq] at h1
            obtain ⟨h1, h2⟩ := h1
            subst h1 h2
            exact hem
          · exact h1
        · intro h
          by_cases hfe : (f, d) = e
          · left
            rw [← hfe]
          · exact Or.inr ⟨h, hfe⟩
      · simp only [List.map_cons, List.nodup_cons]
        refine ⟨?_, hnd⟩
        intro hmem
        simp only [List.mem_map] at hmem
        obtain ⟨x, hx, hx2⟩ := hmem
        have hx3 : (x.1, x.2) ∈ L := hx
        rw [hL, hpop] at hx3
        apply hx3.2
        exact Double_map.key_unique _ hkeys _ _ hx3.1 hem hx2
      · rw [hr]
        simp only [Bool.and_eq_true]
        constructor
        · rintro ⟨⟨h1, h2⟩, h3⟩
          refine ⟨h1, fun x hx => ?_⟩
          by_cases hxe : x = e
          · rw [hxe]; exact h2
          · exact h3 x ((hpop x).2 ⟨hx, hxe⟩)
        · rintro ⟨h1, h2⟩
          exact ⟨⟨h1, h2 e hem⟩, fun x hx => h2 x ((hpop x).1 hx).1⟩

theorem reinsert_mem (L : List (FT × Face_handle)) (hL : (L.map Prod.snd).Nodup)
    (Q0 : Double_map FT) (f : Face_handle) (k : FT) :
    (f, k) ∈ L.foldl (fun Q x => Double_map.insert Q x.2 x.1) Q0 ↔
      ((f, k) ∈ Q0 ∧ f ∉ L.map Prod.snd) ∨ (k, f) ∈ L := by
  induction L generalizing Q0 with
  | nil => simp
  | cons a L ih =>
    simp only [List.map_cons, List.nodup_cons] at hL
    rw [List.foldl_cons, ih hL.2, Double_map.mem_insert]
    simp only [List.map_cons, List.mem_cons, not_or]
    constructor
    · rintro (⟨h1 | h1, h2⟩ | h1)
      · exact Or.inl ⟨h1.1, h1.2, h2⟩
      · right; left
        obtain ⟨h3, h4⟩ := h1
        rw [h3, h4]
      · exact Or.inr (Or.inr h1)
    · rintro (⟨h1, h2, h3⟩ | h1 | h1)
      · exact Or.inl ⟨Or.inl ⟨h1, h2⟩, h3⟩
      · left
        have hf : f = a.2 := by rw [← h1]
        have hk : k = a.1 := by rw [← h1]
        refine ⟨Or.inr ⟨hf, hk⟩, ?_⟩
        rw [hf]
        exact hL.1
      · exact Or.inr h1

/-- C17: on a map of bad faces with one entry per handle `is_bad_faces_valid()` returns,
touches only the map, leaves in it exactly the (face, priority) entries it held, and
returns `true` exactly when for every entry `is_face` on the three vertices of the face
gives the same handle, the face is marked and the face is bad. -/
theorem is_bad_faces_valid_frame [LinearOrder FT] (ext : Collaborators Point FT C)
    (s : Mesh_2 Point FT C) (hkeys : (s.bad_faces.map Prod.fst).Nodup) :
    ∃ Q r, is_bad_faces_valid ext s = some ({ s with bad_faces := Q }, r) ∧
      (∀ x, x ∈ Q ↔ x ∈ s.bad_faces) ∧
      (r = true ↔ ∀ x ∈ s.bad_faces,
        ext.is_face s.tr (s.tr.vertex x.1 0) (s.tr.vertex x.1 1) (s.tr.vertex x.1 2) =
            some x.1 ∧
          s.tr.is_marked x.1 = true ∧ is_bad s.tr x.1 = true) := by
  obtain ⟨L, r, hd, hL, hnd, hr⟩ := drain_spec ext s.tr s.bad_faces.length s.bad_faces []
    true (le_refl _) hkeys
  rw [List.nil_append] at hd
  refine ⟨L.foldl (fun Q x => Double_map.insert Q x.2 x.1) [], r,
    by simp only [is_bad_faces_valid, hd, Option.map_some'], ?_, ?_⟩
  · rintro ⟨f, k⟩
    rw [reinsert_mem L hnd, hL]
    simp
  · rw [hr]
    simp only [true_and]
    constructor
    · intro h x hx
      have hv := h x hx
      simp only [valid_entry, Bool.and_eq_true] at hv
      obtain ⟨⟨h1, h2⟩, h3⟩ := hv
      refine ⟨?_, h2, h3⟩
      split at h1
      · rename_i fh2 heq
        simp only [decide_eq_true_eq] at h1
        rw [heq, h1]
      · exact absurd h1 (by simp)
    · intro h x hx
      obtain ⟨h1, h2, h3⟩ := h x hx
      simp [valid_entry, h1, h2, h3]

/-! ## The properties on the prepared run -/

theorem set_bad_faces_replaces_witness :
    ∃ Q, set_bad_faces corner_ready [0, 1] = some { corner_ready with bad_faces := Q } ∧
      (∀ f k, (f, k) ∈ Q ↔ (f ∈ [0, 1] ∧ k = squared_minimum_sine corner_ready.tr f)) ∧
      (∀ f k, (f, k) ∈ corner_ready.bad_faces → (f, k) ∈ Q → f ∈ [0, 1]) :=
  set_bad_faces_replaces corner_ready [0, 1] (by decide)

theorem is_bad_faces_valid_frame_witness :
    ∃ Q r, is_bad_faces_valid corner_stub corner_ready =
        some ({ corner_ready with bad_faces := Q }, r) ∧
      (∀ x, x ∈ Q ↔ x ∈ corner_ready.bad_faces) ∧
      (r = true ↔ ∀ x ∈ corner_ready.bad_faces,
        corner_stub.is_face corner_ready.tr (corner_ready.tr.vertex x.1 0)
            (corner_ready.tr.vertex x.1 1) (corner_ready.tr.vertex x.1 2) = some x.1 ∧
          corner_ready.tr.is_marked x.1 = true ∧ is_bad corner_ready.tr x.1 = true) :=
  is_bad_faces_valid_frame corner_stub corner_ready (by decide)

theorem process_one_face_pops_worst_witness :
    ∃ e ∈ corner_ready.bad_faces, (∀ x ∈ corner_ready.bad_faces, e.2 ≤ x.2) ∧
      (∀ x, x ∈ corner_ready.bad_faces.pop_front ↔ (x ∈ corner_ready.bad_faces ∧ x ≠ e)) ∧
      process_one_face corner_stub corner_ready =
        refine_face corner_stub
          { corner_ready with bad_faces := corner_ready.bad_faces.pop_front } e.1 :=
  process_one_face_pops_worst corner_stub corner_ready (by decide) (by decide)

theorem refine_face_splits_iff_witness :
    refine_face corner_stub corner_ready 1 = split_face corner_stub corner_ready 1 6 ∧
      ∀ t, refine_face corner_stub { corner_ready with tr := corner0.set_marked_all true } 1
          = some t → t.tr = corner0.set_marked_all true :=
  ⟨((refine_face_splits_iff corner_stub corner_ready 1 (by decide)).1 (by decide)).1,
    (refine_face_splits_iff corner_stub
      { corner_ready with tr := corner0.set_marked_all true } 1 (by decide)).2
      ⟨(2, 2), by decide, by decide⟩⟩

theorem refine_face_edge_enqueues_witness :
    refine_face_edge corner_stub corner0 0 7
        { cdata := [], split_the_face := true, keep_the_face_bad := false } (2, 2) =
      { cdata := [(2, 1)], split_the_face := false, keep_the_face_bad := true } :=
  (refine_face_edge_enqueues corner_stub corner0 0 7
      { cdata := [], split_the_face := true, keep_the_face_bad := false } (2, 2)).1
    ⟨by decide,
      Or.inr (Or.inr ⟨⟨true, 30⟩, Or.inr ⟨rfl, rfl⟩, Or.inr (by decide)⟩)⟩

/-! ## The map of bad faces across an insertion -/

theorem erase_fold_mem (zone : List Face_handle) (Q : Double_map FT)
    (x : Face_handle × FT) : x ∈ zone.foldl Double_map.erase Q ↔ x ∈ Q ∧ x.1 ∉ zone := by
  induction zone generalizing Q with
  | nil => simp
  | cons a l ih =>
    obtain ⟨f, k⟩ := x
    rw [List.foldl_cons, ih, Double_map.mem_erase]
    simp only [List.mem_cons, not_or]
    tauto

theorem mark_finite_eq (b : Bool) (l : List Face_handle) (tr : Triangulation Point FT) :
    mark_finite tr b l =
      { tr with is_marked := fun f =>
          if f ∈ l ∧ tr.is_infinite f = false then b else tr.is_marked f } := by
  induction l generalizing tr with
  | nil => simp [mark_finite]
  | cons a l ih =>
    have hstep : mark_finite tr b (a :: l) =
        mark_finite (if !tr.is_infinite a then tr.set_marked a b else tr) b l := rfl
    rw [hstep, ih]
    cases ha : tr.is_infinite a with
    | true =>
      simp only [Bool.not_true, Bool.false_eq_true, if_false]
      congr 1
      funext f
      by_cases h2 : f = a
      · subst h2; simp [ha]
      · simp [h2]
    | false =>
      simp only [Bool.not_false, if_true, Triangulation.set_marked]
      congr 1
      funext f
      by_cases h1 : f ∈ l ∧ tr.is_infinite f = false
      · simp [h1]
      · by_cases h2 : f = a
        · subst h2; simp [ha]
        · have h3 : ¬ ((f = a ∨ f ∈ l) ∧ tr.is_infinite f = false) := by
            rintro ⟨h4 | h4, h5⟩
            · exact h2 h4
            · exact h1 ⟨h4, h5⟩
          simp [h1, h3, Function.update_noteq h2]

/-- The map of bad faces after the conflict zone has been erased and the faces `inc`
around the new vertex have been looked at keeps P1, when the faces outside the zone keep
their mark and their shape. -/
theorem rescan_P1 (tr trN : Triangulation Point FT) (zone inc : List Face_handle)
    (Q : Double_map FT)
    (hkept : ∀ g ∈ tr.all_faces, g ∉ zone → g ∈ trN.all_faces ∧
      trN.is_marked g = tr.is_marked g ∧ is_bad trN g = is_bad tr g ∧
      squared_minimum_sine trN g = squared_minimum_sine tr g)
    (hinc : ∀ g ∈ inc, g ∈ trN.all_faces) (h : P1 tr Q) :
    P1 trN (inc.foldl (fun Q fc =>
      if !trN.is_infinite fc && (is_bad trN fc && trN.is_marked fc) then
        Double_map.insert Q fc (squared_minimum_sine trN fc) else Q)
      (zone.foldl Double_map.erase Q)) := by
  rintro ⟨f, k⟩ hx
  rw [cond_insert_fold_mem
    (fun fc => !trN.is_infinite fc && (is_bad trN fc && trN.is_marked fc))
    (squared_minimum_sine trN)] at hx
  rcases hx with ⟨hx, _⟩ | ⟨hf, hc, hk⟩
  · rw [erase_fold_mem] at hx
    obtain ⟨h1, h2, h3, h4⟩ := h (f, k) hx.1
    obtain ⟨k1, k2, k3, k4⟩ := hkept f h1 hx.2
    exact ⟨k1, by rw [k2]; exact h2, by rw [k3]; exact h3, by rw [k4]; exact h4⟩
  · simp only [Bool.and_eq_true] at hc
    exact ⟨hinc f hf, hc.2.2, hc.2.1, hk⟩

/-- The map of bad faces after the conflict zone has been erased and the faces `inc`
around the new vertex have been looked at has P2, when every face is in `inc` or is a
face from outside the zone with its mark and its shape, and the marked bad finite faces
outside the zone had their entries. -/
theorem rescan_P2 (tr trN : Triangulation Point FT) (zone inc : List Face_handle)
    (Q : Double_map FT)
    (hcov : ∀ g ∈ trN.all_faces, g ∈ inc ∨ (g ∈ tr.all_faces ∧ g ∉ zone ∧
      trN.is_infinite g = tr.is_infinite g ∧ trN.is_marked g = tr.is_marked g ∧
      is_bad trN g = is_bad tr g))
    (h : ∀ g ∈ tr.finite_faces, g ∉ zone → tr.is_marked g = true → is_bad tr g = true →
      g ∈ Q.map Prod.fst) :
    P2 trN (inc.foldl (fun Q fc =>
      if !trN.is_infinite fc && (is_bad trN fc && trN.is_marked fc) then
        Double_map.insert Q fc (squared_minimum_sine trN fc) else Q)
      (zone.foldl Double_map.erase Q)) := by
  intro g hg hm hb
  simp only [Triangulation.finite_faces, List.mem_filter, Bool.not_eq_true'] at hg
  rw [List.mem_map]
  by_cases hgi : g ∈ inc
  · refine ⟨(g, squared_minimum_sine trN g), ?_, rfl⟩
    rw [cond_insert_fold_mem
      (fun fc => !trN.is_infinite fc && (is_bad trN fc && trN.is_marked fc))
      (squared_minimum_sine trN)]
    exact Or.inr ⟨hgi, by simp [hg.2, hm, hb], rfl⟩
  · rcases hcov g hg.1 with h1 | ⟨h1, h2, h3, h4, h5⟩
    · exact absurd h1 hgi
    · have hq := h g (by
        simp only [Triangulation.finite_faces, List.mem_filter, Bool.not_eq_true']
        exact ⟨h1, by rw [← h3]; exact hg.2⟩) h2 (by rw [← h4]; exact hm)
        (by rw [← h5]; exact hb)
      rw [List.mem_map] at hq
      obtain ⟨⟨g2, k⟩, hx, hx2⟩ := hq
      simp only at hx2
      subst hx2
      refine ⟨(g2, k), ?_, rfl⟩
      rw [cond_insert_fold_mem
        (fun fc => !trN.is_infinite fc && (is_bad trN fc && trN.is_marked fc))
        (squared_minimum_sine trN)]
      exact Or.inl ⟨by rw [erase_fold_mem]; exact ⟨hx, h2⟩, fun hc => hgi hc.1⟩

/-- A face outside the conflict zone keeps its mark, its finiteness, its badness and its
squared minimum sine when the marks are reset on faces around the new vertex only. -/
theorem Retriangulated.kept_face {tr tr2 : Triangulation Point FT}
    {zone around : List Face_handle} (hr : Retriangulated tr zone tr2 around)
    (μ : Face_handle → Bool) (hμ : ∀ g, g ∉ around → μ g = tr2.is_marked g)
    (g : Face_handle) (hg : g ∈ tr.all_faces) (hz : g ∉ zone) :
    g ∈ tr2.all_faces ∧ μ g = tr.is_marked g ∧ tr2.is_infinite g = tr.is_infinite g ∧
      is_bad { tr2 with is_marked := μ } g = is_bad tr g ∧
      squared_minimum_sine { tr2 with is_marked := μ } g = squared_minimum_sine tr g := by
  obtain ⟨h1, h2⟩ := hr.kept g hg hz
  have hv := hr.kept_vertices g hg hz
  obtain ⟨h3, h4⟩ := hr.kept_marks g hg hz
  refine ⟨h1, by rw [hμ g h2, h3], h4, ?_, ?_⟩
  · simp only [is_bad, hr.traits, (hv 0).1, (hv 1).1, (hv 2).1, (hv 0).2, (hv 1).2, (hv 2).2]
  · simp only [squared_minimum_sine, squared_minimum_sine_v, hr.traits, (hv 0).1, (hv 1).1,
      (hv 2).1, (hv 0).2, (hv 1).2, (hv 2).2]

/-- The state `split_face(f, c)` returns, with the marks `μ` of the new triangulation:
the faces around the new vertex carry the mark of `f`, the other faces the mark the
insertion left them. -/
theorem split_face_state (ext : Collaborators Point FT C) (s : Mesh_2 Point FT C)
    (f : Face_handle) (c : Point) :
    ∃ μ : Face_handle → Bool,
      (∀ g, g ∉ ext.incident_faces (star_of ext s.tr c f).1 (star_of ext s.tr c f).2 →
        μ g = (star_of ext s.tr c f).1.is_marked g) ∧
      (∀ g ∈ ext.incident_faces (star_of ext s.tr c f).1 (star_of ext s.tr c f).2,
        μ g = s.tr.is_marked f) ∧
      split_face ext s f c = some { s with
        tr := { (star_of ext s.tr c f).1 with is_marked := μ },
        bad_faces :=
          (ext.incident_faces { (star_of ext s.tr c f).1 with is_marked := μ }
              (star_of ext s.tr c f).2).foldl
            (fun Q fc =>
              if !(star_of ext s.tr c f).1.is_infinite fc &&
                  (is_bad { (star_of ext s.tr c f).1 with is_marked := μ } fc && μ fc) then
                Double_map.insert Q fc
                  (squared_minimum_sine { (star_of ext s.tr c f).1 with is_marked := μ } fc)
              else Q)
            ((zone_of ext s.tr c f).foldl Double_map.erase s.bad_faces) } := by
  refine ⟨fun g =>
    if g ∈ ext.incident_faces (star_of ext s.tr c f).1 (star_of ext s.tr c f).2 then
      s.tr.is_marked f else (star_of ext s.tr c f).1.is_marked g, ?_, ?_, ?_⟩
  · intro g hg
    simp only [hg, if_false]
  · intro g hg
    simp only [hg, if_true]
  · simp only [split_face, compute_new_bad_faces, new_bad_fold_eq, set_marked_fold_eq,
      star_of, zone_of]

/-- The state `virtual_insert_in_the_edge(fh, i, p)` returns when its first loop goes
through `k` faces, with the marks `edge_marks` of the new triangulation. -/
theorem virtual_insert_state (ext : Collaborators Point FT C)
    (ed : Edge_collaborators Point FT) (s : Mesh_2 Point FT C) (fh : Face_handle)
    (i : Fin 3) (p : Point) (t : Mesh_2 Point FT C × Vertex_handle)
    (h : virtual_insert_in_the_edge ext ed s fh i p = some t) :
    ∃ k, right_stretch (edge_insertion ed s.tr fh i p).1 (edge_insertion ed s.tr fh i p).2
          (s.tr.vertex fh (ccw i)) (edge_turn ed s.tr fh i p) = some k ∧
      t.2 = (edge_insertion ed s.tr fh i p).2 ∧
      t.1 = { s with
        tr := { (edge_insertion ed s.tr fh i p).1 with
          is_marked := edge_marks (edge_insertion ed s.tr fh i p).1 (s.tr.is_marked fh)
            (s.tr.is_marked (s.tr.neighbor fh i)) (edge_turn ed s.tr fh i p) k },
        bad_faces :=
          (ext.incident_faces { (edge_insertion ed s.tr fh i p).1 with
              is_marked := edge_marks (edge_insertion ed s.tr fh i p).1 (s.tr.is_marked fh)
                (s.tr.is_marked (s.tr.neighbor fh i)) (edge_turn ed s.tr fh i p) k }
              (edge_insertion ed s.tr fh i p).2).foldl
            (fun Q fc =>
              if !(edge_insertion ed s.tr fh i p).1.is_infinite fc &&
                  (is_bad { (edge_insertion ed s.tr fh i p).1 with
                      is_marked := edge_marks (edge_insertion ed s.tr fh i p).1
                        (s.tr.is_marked fh) (s.tr.is_marked (s.tr.neighbor fh i))
                        (edge_turn ed s.tr fh i p) k } fc &&
                    edge_marks (edge_insertion ed s.tr fh i p).1 (s.tr.is_marked fh)
                      (s.tr.is_marked (s.tr.neighbor fh i)) (edge_turn ed s.tr fh i p) k fc)
              then
                Double_map.insert Q fc
                  (squared_minimum_sine { (edge_insertion ed s.tr fh i p).1 with
                      is_marked := edge_marks (edge_insertion ed s.tr fh i p).1
                        (s.tr.is_marked fh) (s.tr.is_marked (s.tr.neighbor fh i))
                        (edge_turn ed s.tr fh i p) k } fc)
              else Q)
            ((edge_zone ext ed s.tr fh i p).foldl Double_map.erase s.bad_faces) } := by
  have hunf : virtual_insert_in_the_edge ext ed s fh i p =
      match right_stretch (edge_insertion ed s.tr fh i p).1 (edge_insertion ed s.tr fh i p).2
          (s.tr.vertex fh (ccw i)) (edge_turn ed s.tr fh i p) with
      | none => none
      | some k =>
        (compute_new_bad_faces ext
          { s with
            tr := mark_finite
              (mark_finite (edge_insertion ed s.tr fh i p).1 (s.tr.is_marked fh)
                ((edge_turn ed s.tr fh i p).take k))
              (s.tr.is_marked (s.tr.neighbor fh i))
              (if k < (edge_turn ed s.tr fh i p).length then (edge_turn ed s.tr fh i p).drop k
                else edge_turn ed s.tr fh i p),
            bad_faces := (edge_zone ext ed s.tr fh i p).foldl Double_map.erase s.bad_faces }
          (edge_insertion ed s.tr fh i p).2).map
          (fun t => (t, (edge_insertion ed s.tr fh i p).2)) := rfl
  rw [hunf] at h
  cases hk : right_stretch (edge_insertion ed s.tr fh i p).1 (edge_insertion ed s.tr fh i p).2
      (s.tr.vertex fh (ccw i)) (edge_turn ed s.tr fh i p) with
  | none => rw [hk] at h; simp at h
  | some k =>
    rw [hk] at h
    refine ⟨k, rfl, ?_⟩
    simp only [compute_new_bad_faces, new_bad_fold_eq, Option.map_some', Option.some.injEq,
      mark_finite_eq] at h
    subst h
    exact ⟨rfl, rfl⟩

theorem Retriangulated.keeps_P1 {tr tr2 : Triangulation Point FT}
    {zone around : List Face_handle} (hr : Retriangulated tr zone tr2 around)
    (μ : Face_handle → Bool) (hμ : ∀ g, g ∉ around → μ g = tr2.is_marked g)
    (Q : Double_map FT) (h : P1 tr Q) :
    P1 { tr2 with is_marked := μ } (around.foldl (fun Q fc =>
      if !tr2.is_infinite fc && (is_bad { tr2 with is_marked := μ } fc && μ fc) then
        Double_map.insert Q fc (squared_minimum_sine { tr2 with is_marked := μ } fc) else Q)
      (zone.foldl Double_map.erase Q)) := by
  refine rescan_P1 tr { tr2 with is_marked := μ } zone around Q ?_ hr.around_faces h
  intro g hg hz
  obtain ⟨h1, h2, _, h4, h5⟩ := hr.kept_face μ hμ g hg hz
  exact ⟨h1, h2, h4, h5⟩

theorem Retriangulated.keeps_P2 {tr tr2 : Triangulation Point FT}
    {zone around : List Face_handle} (hr : Retriangulated tr zone tr2 around)
    (μ : Face_handle → Bool) (hμ : ∀ g, g ∉ around → μ g = tr2.is_marked g)
    (Q : Double_map FT)
    (h : ∀ g ∈ tr.finite_faces, g ∉ zone → tr.is_marked g = true → is_bad tr g = true →
      g ∈ Q.map Prod.fst) :
    P2 { tr2 with is_marked := μ } (around.foldl (fun Q fc =>
      if !tr2.is_infinite fc && (is_bad { tr2 with is_marked := μ } fc && μ fc) then
        Double_map.insert Q fc (squared_minimum_sine { tr2 with is_marked := μ } fc) else Q)
      (zone.foldl Double_map.erase Q)) := by
  refine rescan_P2 tr { tr2 with is_marked := μ } zone around Q ?_ h
  intro g hg
  rcases hr.covered g hg with h1 | ⟨h1, h2⟩
  · exact Or.inl h1
  · obtain ⟨_, k2, k3, k4, _⟩ := hr.kept_face μ hμ g h1 h2
    exact Or.inr ⟨h1, h2, k3, k2, k4⟩

/-- A returning `split_face(f, c)` keeps P1, on an insertion that meets
`Split_contract`. -/
theorem split_face_keeps_P1 (ext : Collaborators Point FT C) (s t : Mesh_2 Point FT C)
    (f : Face_handle) (c : Point) (hc : Split_contract ext s.tr f c)
    (h : P1 s.tr s.bad_faces) (ht : split_face ext s f c = some t) :
    P1 t.tr t.bad_faces := by
  obtain ⟨μ, hμ, _, heq⟩ := split_face_state ext s f c
  rw [heq] at ht
  injection ht with ht
  subst ht
  simp only [hc.marks_free]
  exact hc.frame.keeps_P1 μ hμ s.bad_faces h

/-- A returning `split_face(f, c)` gives P2 when the marked bad finite faces outside the
conflict zone had their entries, on an insertion that meets `Split_contract`. -/
theorem split_face_keeps_P2 (ext : Collaborators Point FT C) (s t : Mesh_2 Point FT C)
    (f : Face_handle) (c : Point) (hc : Split_contract ext s.tr f c)
    (h : ∀ g ∈ s.tr.finite_faces, g ∉ zone_of ext s.tr c f → s.tr.is_marked g = true →
      is_bad s.tr g = true → g ∈ s.bad_faces.map Prod.fst)
    (ht : split_face ext s f c = some t) : P2 t.tr t.bad_faces := by
  obtain ⟨μ, hμ, _, heq⟩ := split_face_state ext s f c
  rw [heq] at ht
  injection ht with ht
  subst ht
  simp only [hc.marks_free]
  exact hc.frame.keeps_P2 μ hμ s.bad_faces h

theorem edge_marks_outside (ins : Triangulation Point FT) (r l : Bool)
    (fcs : List Face_handle) (k : Nat) (g : Face_handle) (hg : g ∉ fcs) :
    edge_marks ins r l fcs k g = ins.is_marked g := by
  have h1 : g ∉ fcs.take k := fun h => hg (List.mem_of_mem_take h)
  have h2 : g ∉ (if k < fcs.length then fcs.drop k else fcs) := by
    split
    · exact fun h => hg (List.mem_of_mem_drop h)
    · exact hg
  simp only [edge_marks, h1, h2, false_and, if_false]

/-- A returning `virtual_insert_in_the_edge(fh, i, p)` keeps P1, on an insertion that
meets `Edge_contract`. -/
theorem virtual_insert_keeps_P1 (ext : Collaborators Point FT C)
    (ed : Edge_collaborators Point FT) (s : Mesh_2 Point FT C) (fh : Face_handle)
    (i : Fin 3) (p : Point) (t : Mesh_2 Point FT C × Vertex_handle)
    (hc : Edge_contract ext ed s.tr fh i p) (h : P1 s.tr s.bad_faces)
    (ht : virtual_insert_in_the_edge ext ed s fh i p = some t) :
    P1 t.1.tr t.1.bad_faces := by
  obtain ⟨k, _, _, heq⟩ := virtual_insert_state ext ed s fh i p t ht
  rw [heq]
  simp only [hc.marks_free]
  exact hc.frame.keeps_P1 _
    (fun g hg => edge_marks_outside _ _ _ _ k g (fun hm => hg (hc.turn g hm))) s.bad_faces h

/-- A returning `virtual_insert_in_the_edge(fh, i, p)` keeps P2, on an insertion that
meets `Edge_contract`. -/
theorem virtual_insert_keeps_P2 (ext : Collaborators Point FT C)
    (ed : Edge_collaborators Point FT) (s : Mesh_2 Point FT C) (fh : Face_handle)
    (i : Fin 3) (p : Point) (t : Mesh_2 Point FT C × Vertex_handle)
    (hc : Edge_contract ext ed s.tr fh i p) (h : P2 s.tr s.bad_faces)
    (ht : virtual_insert_in_the_edge ext ed s fh i p = some t) :
    P2 t.1.tr t.1.bad_faces := by
  obtain ⟨k, _, _, heq⟩ := virtual_insert_state ext ed s fh i p t ht
  rw [heq]
  simp only [hc.marks_free]
  exact hc.frame.keeps_P2 _
    (fun g hg => edge_marks_outside _ _ _ _ k g (fun hm => hg (hc.turn g hm))) s.bad_faces
    (fun g hg _ hm hb => h g hg hm hb)

/-! ## P1 and P2 across `refine_step` -/

theorem refine_face_cases [LinearOrder FT] (ext : Collaborators Point FT C)
    (s : Mesh_2 Point FT C) (f : Face_handle) :
    refine_face ext s f =
      if (boundary_scan ext s f).split_the_face then
        if s.tr.is_marked f then
          split_face ext { s with cdata := (boundary_scan ext s f).cdata } f
            (ext.circumcenter s.tr f)
        else none
      else if (boundary_scan ext s f).keep_the_face_bad then
        push_in_bad_faces_v ext { s with cdata := (boundary_scan ext s f).cdata }
          (s.tr.vertex f 0) (s.tr.vertex f 1) (s.tr.vertex f 2)
      else some { s with cdata := (boundary_scan ext s f).cdata } := rfl

theorem Double_map.pop_front_subset [LinearOrder FT] (Q : Double_map FT)
    (x : Face_handle × FT) (h : x ∈ Q.pop_front) : x ∈ Q := by
  simp only [Double_map.pop_front] at h
  split at h
  · exact h
  · exact (List.mem_filter.1 h).1

/-- The three ways a returning `refine_face(f)` ends: by `split_face`, by entering `f`
again, or with `f` dropped. -/
theorem refine_face_result [LinearOrder FT] (ext : Collaborators Point FT C)
    (s t : Mesh_2 Point FT C) (f : Face_handle) (h : refine_face ext s f = some t) :
    ((boundary_scan ext s f).split_the_face = true ∧ s.tr.is_marked f = true ∧
        split_face ext { s with cdata := (boundary_scan ext s f).cdata } f
          (ext.circumcenter s.tr f) = some t) ∨
      ((boundary_scan ext s f).split_the_face = false ∧
        (boundary_scan ext s f).keep_the_face_bad = true ∧
        push_in_bad_faces_v ext { s with cdata := (boundary_scan ext s f).cdata }
          (s.tr.vertex f 0) (s.tr.vertex f 1) (s.tr.vertex f 2) = some t) ∨
      ((boundary_scan ext s f).split_the_face = false ∧
        (boundary_scan ext s f).keep_the_face_bad = false ∧
        t = { s with cdata := (boundary_scan ext s f).cdata }) := by
  rw [refine_face_cases] at h
  cases hs : (boundary_scan ext s f).split_the_face with
  | true =>
    rw [hs] at h
    cases hm : s.tr.is_marked f with
    | true =>
      rw [hm] at h
      exact Or.inl ⟨rfl, rfl, h⟩
    | false =>
      rw [hm] at h
      simp at h
  | false =>
    rw [hs] at h
    cases hk : (boundary_scan ext s f).keep_the_face_bad with
    | true =>
      rw [hk] at h
      exact Or.inr (Or.inl ⟨rfl, rfl, h⟩)
    | false =>
      rw [hk] at h
      simp only [Bool.false_eq_true, if_false, Option.some.injEq] at h
      exact Or.inr (Or.inr ⟨rfl, rfl, h.symm⟩)

theorem process_one_face_keeps_P1 [LinearOrder FT] (ext : Collaborators Point FT C)
    (u t : Mesh_2 Point FT C) (hface : Face_contract ext u) (h : P1 u.tr u.bad_faces)
    (hrun : process_one_face ext u = some t) : P1 t.tr t.bad_faces := by
  simp only [process_one_face] at hrun
  cases hfr : u.bad_faces.front with
  | none => rw [hfr] at hrun; simp at hrun
  | some e =>
    rw [hfr] at hrun
    simp only at hrun
    obtain ⟨hisf, hsplit⟩ := hface e hfr
    have hpop : P1 u.tr u.bad_faces.pop_front :=
      fun x hx => h x (Double_map.pop_front_subset _ x hx)
    obtain ⟨he1, he2, he3, _⟩ := h e (Double_map.front_spec _ e hfr).1
    rcases refine_face_result ext _ t e.1 hrun with ⟨_, _, hrun⟩ | ⟨_, _, hrun⟩ | ⟨_, _, hrun⟩
    · exact split_face_keeps_P1 ext
        { u with bad_faces := u.bad_faces.pop_front,
                 cdata := (boundary_scan ext u e.1).cdata } t e.1 _ hsplit hpop hrun
    · simp only [push_in_bad_faces_v, hisf, push_in_bad_faces, he2, if_true,
        Option.some.injEq] at hrun
      subst hrun
      rintro ⟨g, k⟩ hx
      rw [Double_map.mem_insert] at hx
      rcases hx with ⟨hx, _⟩ | ⟨hg, hk⟩
      · exact hpop (g, k) hx
      · subst hg
        exact ⟨he1, he2, he3, hk⟩
    · subst hrun
      exact hpop

/-- C12: P1 is an invariant of `refine_step()`.  When the step of the conformance base
meets `Conform_step_contract` (it leaves the triangulation and the map alone or changes
them by one `virtual_insert_in_the_edge` on a local insertion) and the triangulation
meets `Face_contract` for the face at the front of the map, and before the call every
entry `(f, k)` of the map of bad faces refers to a face of the triangulation that is
marked and bad with `k` its squared minimum sine, then the same holds after a call that
returns. -/
theorem refine_step_keeps_P1 [LinearOrder FT] (ext : Collaborators Point FT C)
    (ed : Edge_collaborators Point FT) (s t : Mesh_2 Point FT C) (b : Bool)
    (hconf : Conform_step_contract ext ed s)
    (hface : Face_contract ext (ext.Conform_refine_step s).1)
    (h : P1 s.tr s.bad_faces) (hrun : refine_step ext s = some (t, b)) :
    P1 t.tr t.bad_faces := by
  have hu : P1 (ext.Conform_refine_step s).1.tr (ext.Conform_refine_step s).1.bad_faces := by
    rcases hconf with ⟨h1, h2⟩ | ⟨fh, i, p, r, hc, hr, h1, h2⟩
    · rw [h1, h2]; exact h
    · rw [h1, h2]; exact virtual_insert_keeps_P1 ext ed s fh i p r hc h hr
  simp only [refine_step] at hrun
  split at hrun
  · split at hrun
    · rw [Option.map_eq_some'] at hrun
      obtain ⟨t2, ht2, heq⟩ := hrun
      injection heq with heq _
      subst heq
      exact process_one_face_keeps_P1 ext _ _ hface hu ht2
    · injection hrun with hrun
      injection hrun with hrun _
      subst hrun
      exact hu
  · injection hrun with hrun
    injection hrun with hrun _
    subst hrun
    exact hu

theorem process_one_face_keeps_P2 [LinearOrder FT] (ext : Collaborators Point FT C)
    (u t : Mesh_2 Point FT C) (hface : Face_contract ext u)
    (hkeep : ∀ e, u.bad_faces.front = some e →
      ¬ ((boundary_scan ext u e.1).split_the_face = false ∧
          (boundary_scan ext u e.1).keep_the_face_bad = false))
    (h : P2 u.tr u.bad_faces) (hrun : process_one_face ext u = some t) :
    P2 t.tr t.bad_faces := by
  simp only [process_one_face] at hrun
  cases hfr : u.bad_faces.front with
  | none => rw [hfr] at hrun; simp at hrun
  | some e =>
    rw [hfr] at hrun
    simp only at hrun
    obtain ⟨hisf, hsplit⟩ := hface e hfr
    have hpop : ∀ g ∈ u.tr.finite_faces, g ≠ e.1 → u.tr.is_marked g = true →
        is_bad u.tr g = true → g ∈ u.bad_faces.pop_front.map Prod.fst := by
      intro g hg hne hm hb
      have hq := h g hg hm hb
      rw [List.mem_map] at hq ⊢
      obtain ⟨x, hx, hx2⟩ := hq
      refine ⟨x, ?_, hx2⟩
      simp only [Double_map.pop_front, hfr, Double_map.erase, List.mem_filter,
        decide_eq_true_eq]
      exact ⟨hx, by rw [hx2]; exact hne⟩
    have hk := hkeep e hfr
    rcases refine_face_result ext _ t e.1 hrun with ⟨_, _, hrun⟩ | ⟨_, _, hrun⟩ | ⟨hs, hkb, _⟩
    · refine split_face_keeps_P2 ext
        { u with bad_faces := u.bad_faces.pop_front,
                 cdata := (boundary_scan ext u e.1).cdata } t e.1 _ hsplit ?_ hrun
      intro g hg hz hm hb
      exact hpop g hg (fun hge => hz (by rw [hge]; exact hsplit.start_in_zone)) hm hb
    · simp only [push_in_bad_faces_v, hisf, push_in_bad_faces] at hrun
      split at hrun
      · injection hrun with hrun
        subst hrun
        intro g hg hm hb
        by_cases hge : g = e.1
        · rw [List.mem_map]
          exact ⟨(e.1, _), (Double_map.mem_insert _ _ _ _ _).2 (Or.inr ⟨rfl, rfl⟩),
            hge.symm⟩
        · have hq := hpop g hg hge hm hb
          rw [List.mem_map] at hq ⊢
          obtain ⟨⟨g2, k⟩, hx, hx2⟩ := hq
          simp only at hx2
          subst hx2
          exact ⟨(g2, k), (Double_map.mem_insert _ _ _ _ _).2 (Or.inl ⟨hx, hge⟩), rfl⟩
      · simp at hrun
    · exact absurd ⟨hs, hkb⟩ hk

/-- C13: P2 is preserved by every `refine_step()` except one that drops a face.  When
the step of the conformance base meets `Conform_step_contract` and the triangulation
meets `Face_contract` for the face at the front of the map, and before the call every
finite face that is marked and bad has an entry in the map of bad faces, then after a
returning call that does not drop the popped face (it splits a constrained edge, splits
the face, or enters the popped face again) every finite face that is marked and bad has
an entry in the map. -/
theorem refine_step_keeps_P2 [LinearOrder FT] (ext : Collaborators Point FT C)
    (ed : Edge_collaborators Point FT) (s t : Mesh_2 Point FT C) (b : Bool)
    (hconf : Conform_step_contract ext ed s)
    (hface : Face_contract ext (ext.Conform_refine_step s).1)
    (hkeep : ¬ drops_face ext s)
    (h : P2 s.tr s.bad_faces) (hrun : refine_step ext s = some (t, b)) :
    P2 t.tr t.bad_faces := by
  have hu : P2 (ext.Conform_refine_step s).1.tr (ext.Conform_refine_step s).1.bad_faces := by
    rcases hconf with ⟨h1, h2⟩ | ⟨fh, i, p, r, hc, hr, h1, h2⟩
    · rw [h1, h2]; exact h
    · rw [h1, h2]; exact virtual_insert_keeps_P2 ext ed s fh i p r hc h hr
  simp only [refine_step] at hrun
  split at hrun
  · rename_i hr2
    split at hrun
    · rw [Option.map_eq_some'] at hrun
      obtain ⟨t2, ht2, heq⟩ := hrun
      injection heq with heq _
      subst heq
      refine process_one_face_keeps_P2 ext _ _ hface ?_ hu ht2
      intro e he hd
      exact hkeep ⟨by simpa using hr2, e, he, hd.1, hd.2⟩
    · injection hrun with hrun
      injection hrun with hrun _
      subst hrun
      exact hu
  · injection hrun with hrun
    injection hrun with hrun _
    subst hrun
    exact hu

/-! ## P1 and P2 on the prepared run -/

theorem corner_split_contract : Split_contract corner_stub corner1 1 6 :=
  ⟨by decide, ⟨rfl, by decide, by decide, by decide, by decide, by decide⟩, fun _ => rfl⟩

theorem corner_ready_face_contract :
    Face_contract corner_stub (corner_stub.Conform_refine_step corner_ready).1 := by
  intro e he
  have he2 : e = (1, 100) := by
    have h1 : (corner_stub.Conform_refine_step corner_ready).1.bad_faces.front =
        some (1, 100) := by decide
    rw [h1] at he
    injection he with he
    exact he.symm
  subst he2
  exact ⟨by decide, corner_split_contract⟩

theorem corner_edge_contract : Edge_contract conform_stub (corner_edge false) corner0m 0 2 5 :=
  ⟨⟨rfl, by decide, by decide, by decide, by decide, by decide⟩, by decide, fun _ => rfl⟩

theorem corner_pending_step_contract :
    Conform_step_contract conform_stub (corner_edge false) corner_pending :=
  Or.inr ⟨0, 2, 5,
    (virtual_insert_in_the_edge conform_stub (corner_edge false) corner_pending 0 2 5).get
      (by decide),
    corner_edge_contract, (Option.some_get _).symm, rfl, rfl⟩

theorem corner_pending_face_contract :
    Face_contract conform_stub (conform_stub.Conform_refine_step corner_pending).1 := by
  intro e he
  have he2 : e = (1, 100) := by
    have h1 : (conform_stub.Conform_refine_step corner_pending).1.bad_faces.front =
        some (1, 100) := by decide
    rw [h1] at he
    injection he with he
    exact he.symm
  subst he2
  exact ⟨by decide,
    ⟨by decide, ⟨rfl, by decide, by decide, by decide, by decide, by decide⟩, fun _ => rfl⟩⟩

theorem refine_step_keeps_P1_witness :
    ∃ t b, refine_step conform_stub corner_pending = some (t, b) ∧ P1 t.tr t.bad_faces :=
  let ⟨x, hx⟩ := Option.isSome_iff_exists.1
    (show (refine_step conform_stub corner_pending).isSome = true by decide)
  ⟨x.1, x.2, hx,
    refine_step_keeps_P1 conform_stub (corner_edge false) corner_pending x.1 x.2
      corner_pending_step_contract corner_pending_face_contract (by unfold P1; decide) hx⟩

theorem corner_ready_keeps : ¬ drops_face corner_stub corner_ready := by
  rintro ⟨_, e, he, hs, _⟩
  have he2 : e = (1, 100) := by
    have h1 : (corner_stub.Conform_refine_step corner_ready).1.bad_faces.front =
        some (1, 100) := by decide
    rw [h1] at he
    injection he with he
    exact he.symm
  subst he2
  revert hs
  decide

theorem refine_step_keeps_P2_witness :
    ∃ t b, refine_step corner_stub corner_ready = some (t, b) ∧ P2 t.tr t.bad_faces :=
  let ⟨x, hx⟩ := Option.isSome_iff_exists.1
    (show (refine_step corner_stub corner_ready).isSome = true by decide)
  ⟨x.1, x.2, hx,
    refine_step_keeps_P2 corner_stub (corner_edge false) corner_ready x.1 x.2
      (Or.inl ⟨rfl, rfl⟩) corner_ready_face_contract corner_ready_keeps
      (by unfold P2; decide) hx⟩

/-! ## The marks across an insertion -/

theorem reach_sound (tr : Triangulation Point FT) (n : Nat) (f g : Face_handle)
    (h : reach tr n f g = true) : tr.connected f g := by
  induction n generalizing f with
  | zero =>
    simp only [reach, decide_eq_true_eq] at h
    subst h
    exact Relation.ReflTransGen.refl
  | succ n ih =>
    simp only [reach, Bool.or_eq_true, decide_eq_true_eq, List.any_eq_true,
      Bool.and_eq_true, Bool.not_eq_true'] at h
    rcases h with h | ⟨i, _, hc, hr⟩
    · subst h
      exact Relation.ReflTransGen.refl
    · exact Relation.ReflTransGen.head ⟨i, rfl, hc⟩ (ih _ hr)

/-- Marks that agree across every non-constrained edge are uniform on the components. -/
theorem uniform_of_local (tr : Triangulation Point FT)
    (hcl : ∀ f ∈ tr.all_faces, ∀ i : Fin 3, tr.neighbor f i ∈ tr.all_faces)
    (h : ∀ f ∈ tr.all_faces, ∀ i : Fin 3, tr.is_constrained f i = false →
      tr.is_marked (tr.neighbor f i) = tr.is_marked f) : Marks_uniform tr := by
  intro f hf g hfg
  induction hfg with
  | refl => rfl
  | tail hab hbc ih =>
    obtain ⟨i, hi, hc⟩ := hbc
    rw [← hi, h _ (connected_mem tr hcl f _ hf hab) i hc]
    exact ih

/-- Uniform marks with every infinite face unmarked leave the component of the
infinite faces unmarked. -/
theorem marks_ok_of_local (tr : Triangulation Point FT)
    (hcl : ∀ f ∈ tr.all_faces, ∀ i : Fin 3, tr.neighbor f i ∈ tr.all_faces)
    (h : ∀ f ∈ tr.all_faces, ∀ i : Fin 3, tr.is_constrained f i = false →
      tr.is_marked (tr.neighbor f i) = tr.is_marked f)
    (hinf : ∀ f ∈ tr.all_faces, tr.is_infinite f = true → tr.is_marked f = false) :
    Marks_ok tr := by
  have hu := uniform_of_local tr hcl h
  exact ⟨hu, fun f hf hi g hfg => by rw [hu f hf g hfg]; exact hinf f hf hi⟩

/-- The marks stay uniform on the components, and `false` on the component of the
infinite faces, when every face of the new triangulation gets the mark of the face it
descends from. -/
theorem Descends.marks_ok {tr tr2 : Triangulation Point FT} {anc : Face_handle → Face_handle}
    (hd : Descends tr tr2 anc) (μ : Face_handle → Bool)
    (hμ : ∀ g ∈ tr2.all_faces, μ g = tr.is_marked (anc g)) (h : Marks_ok tr) :
    Marks_ok { tr2 with is_marked := μ } := by
  refine marks_ok_of_local { tr2 with is_marked := μ } hd.closed ?_ ?_
  · intro g hg i hc
    show μ (tr2.neighbor g i) = μ g
    rw [hμ g hg, hμ _ (hd.closed g hg i)]
    rcases hd.anc_adjacent g hg i hc with h1 | h1
    · exact h.1 _ (hd.anc_face g hg) _ h1
    · exact (h.1 _ (hd.anc_face _ (hd.closed g hg i)) _ h1).symm
  · intro g hg hi
    show μ g = false
    obtain ⟨z, hz, hzi, hzg⟩ := hd.anc_infinite g hg hi
    rw [hμ g hg]
    exact h.2 z hz hzi _ hzg

/-- A returning `split_face(f, c)` keeps the marks uniform on the components and `false`
on the component of the infinite faces, on an insertion that keeps the components and
the marks of the faces away from the new vertex. -/
theorem split_face_keeps_marks (ext : Collaborators Point FT C) (s t : Mesh_2 Point FT C)
    (f : Face_handle) (c : Point)
    (hd : Descends s.tr (star_of ext s.tr c f).1 (split_anc ext s.tr c f))
    (hkept : ∀ g ∈ (star_of ext s.tr c f).1.all_faces,
      g ∉ ext.incident_faces (star_of ext s.tr c f).1 (star_of ext s.tr c f).2 →
      (star_of ext s.tr c f).1.is_marked g = s.tr.is_marked g)
    (h : Marks_ok s.tr) (ht : split_face ext s f c = some t) : Marks_ok t.tr := by
  obtain ⟨μ, hμ1, hμ2, heq⟩ := split_face_state ext s f c
  rw [heq] at ht
  injection ht with ht
  subst ht
  refine hd.marks_ok μ ?_ h
  intro g hg
  by_cases hga : g ∈ ext.incident_faces (star_of ext s.tr c f).1 (star_of ext s.tr c f).2
  · rw [hμ2 g hga]
    simp only [split_anc, hga, if_true]
  · rw [hμ1 g hga, hkept g hg hga]
    simp only [split_anc, hga, if_false]

theorem mem_take_or_drop (l : List Face_handle) (k : Nat) (g : Face_handle) (hg : g ∈ l) :
    g ∈ (if k < l.length then l.drop k else l) ∨ g ∈ l.take k := by
  split
  · rw [← List.take_append_drop k l, List.mem_append] at hg
    exact hg.symm
  · exact Or.inl hg

/-- A returning `virtual_insert_in_the_edge(fh, i, p)` keeps the marks uniform on the
components and `false` on the component of the infinite faces, on an insertion that
keeps the components and the marks of the faces away from the new vertex and leaves the
infinite faces around the new vertex unmarked. -/
theorem virtual_insert_keeps_marks (ext : Collaborators Point FT C)
    (ed : Edge_collaborators Point FT) (s : Mesh_2 Point FT C) (fh : Face_handle)
    (i : Fin 3) (p : Point) (t : Mesh_2 Point FT C × Vertex_handle)
    (hd : ∀ k, right_stretch (edge_insertion ed s.tr fh i p).1 (edge_insertion ed s.tr fh i p).2
        (s.tr.vertex fh (ccw i)) (edge_turn ed s.tr fh i p) = some k →
      Descends s.tr (edge_insertion ed s.tr fh i p).1 (edge_anc ed s.tr fh i p k))
    (hkept : ∀ g ∈ (edge_insertion ed s.tr fh i p).1.all_faces, g ∉ edge_turn ed s.tr fh i p →
      (edge_insertion ed s.tr fh i p).1.is_marked g = s.tr.is_marked g)
    (hinf : ∀ g ∈ edge_turn ed s.tr fh i p,
      (edge_insertion ed s.tr fh i p).1.is_infinite g = true →
      (edge_insertion ed s.tr fh i p).1.is_marked g = false)
    (h : Marks_ok s.tr) (ht : virtual_insert_in_the_edge ext ed s fh i p = some t) :
    Marks_ok t.1.tr := by
  obtain ⟨k, hk, _, heq⟩ := virtual_insert_state ext ed s fh i p t ht
  rw [heq]
  refine (hd k hk).marks_ok _ ?_ h
  intro g hg
  by_cases hgt : g ∈ edge_turn ed s.tr fh i p
  · cases hgi : (edge_insertion ed s.tr fh i p).1.is_infinite g with
    | true =>
      obtain ⟨z, hz, hzi, hzg⟩ := (hd k hk).anc_infinite g hg hgi
      rw [h.2 z hz hzi _ hzg]
      simp only [edge_marks, hgi, Bool.true_eq_false, and_false, if_false]
      exact hinf g hgt hgi
    | false =>
      rcases mem_take_or_drop _ k g hgt with h1 | h1
      · simp only [edge_marks, edge_anc, h1, hgi, and_self, if_true]
      · by_cases h2 : g ∈ (if k < (edge_turn ed s.tr fh i p).length then
            (edge_turn ed s.tr fh i p).drop k else edge_turn ed s.tr fh i p)
        · simp only [edge_marks, edge_anc, h2, hgi, and_self, if_true]
        · simp only [edge_marks, edge_anc, h1, h2, hgi, and_self, false_and, if_true,
            if_false]
  · rw [edge_marks_outside _ _ _ _ k g hgt, hkept g hg hgt]
    have h1 : g ∉ (edge_turn ed s.tr fh i p).take k := fun h => hgt (List.mem_of_mem_take h)
    have h2 : g ∉ (if k < (edge_turn ed s.tr fh i p).length then
        (edge_turn ed s.tr fh i p).drop k else edge_turn ed s.tr fh i p) := by
      split
      · exact fun h => hgt (List.mem_of_mem_drop h)
      · exact hgt
    simp only [edge_anc, h1, h2, if_false]

/-- C15, as amended: marks are preserved across local retriangulations.  From a state
whose marks are uniform on every component bounded by constrained edges and `false` on
the component of the infinite faces, a returning `split_face(f, c)` leaves such marks,
and so does a returning `virtual_insert_in_the_edge(fh, i, p)` provided the infinite
faces around the new vertex come out of `insert` unmarked (the function sets the mark
of the finite faces around the new vertex only).  The insertion is asked to keep the
components (`Descends`) and the marks of the faces away from the new vertex. -/
theorem marks_kept_by_insertions (ext : Collaborators Point FT C)
    (ed : Edge_collaborators Point FT) (s : Mesh_2 Point FT C) (h : Marks_ok s.tr) :
    (∀ f c t, Descends s.tr (star_of ext s.tr c f).1 (split_anc ext s.tr c f) →
      (∀ g ∈ (star_of ext s.tr c f).1.all_faces,
        g ∉ ext.incident_faces (star_of ext s.tr c f).1 (star_of ext s.tr c f).2 →
        (star_of ext s.tr c f).1.is_marked g = s.tr.is_marked g) →
      split_face ext s f c = some t → Marks_ok t.tr) ∧
    (∀ fh i p t,
      (∀ k, right_stretch (edge_insertion ed s.tr fh i p).1 (edge_insertion ed s.tr fh i p).2
          (s.tr.vertex fh (ccw i)) (edge_turn ed s.tr fh i p) = some k →
        Descends s.tr (edge_insertion ed s.tr fh i p).1 (edge_anc ed s.tr fh i p k)) →
      (∀ g ∈ (edge_insertion ed s.tr fh i p).1.all_faces, g ∉ edge_turn ed s.tr fh i p →
        (edge_insertion ed s.tr fh i p).1.is_marked g = s.tr.is_marked g) →
      (∀ g ∈ edge_turn ed s.tr fh i p,
        (edge_insertion ed s.tr fh i p).1.is_infinite g = true →
        (edge_insertion ed s.tr fh i p).1.is_marked g = false) →
      virtual_insert_in_the_edge ext ed s fh i p = some t → Marks_ok t.1.tr) :=
  ⟨fun f c t hd hkept ht => split_face_keeps_marks ext s t f c hd hkept h ht,
    fun fh i p t hd hkept hinf ht =>
      virtual_insert_keeps_marks ext ed s fh i p t hd hkept hinf h ht⟩

/-! ## The marks on the prepared run -/

/-- A way to show `Descends` by search: the components are found along paths of at
most `n` edges. -/
theorem Descends.of_reach (tr tr2 : Triangulation Point FT) (anc : Face_handle → Face_handle)
    (n : Nat)
    (hcl : ∀ g ∈ tr2.all_faces, ∀ i : Fin 3, tr2.neighbor g i ∈ tr2.all_faces)
    (hanc : ∀ g ∈ tr2.all_faces, anc g ∈ tr.all_faces)
    (hadj : ∀ g ∈ tr2.all_faces, ∀ i : Fin 3, tr2.is_constrained g i = false →
      (reach tr n (anc g) (anc (tr2.neighbor g i)) ||
        reach tr n (anc (tr2.neighbor g i)) (anc g)) = true)
    (hinf : ∀ g ∈ tr2.all_faces, tr2.is_infinite g = true →
      tr.all_faces.any (fun z => tr.is_infinite z && reach tr n z (anc g)) = true) :
    Descends tr tr2 anc := by
  refine ⟨hcl, hanc, ?_, ?_⟩
  · intro g hg i hc
    have h := hadj g hg i hc
    rw [Bool.or_eq_true] at h
    exact h.imp (reach_sound tr n _ _) (reach_sound tr n _ _)
  · intro g hg hi
    have h := hinf g hg hi
    simp only [List.any_eq_true, Bool.and_eq_true] at h
    obtain ⟨z, hz, hzi, hr⟩ := h
    exact ⟨z, hz, hzi, reach_sound tr n _ _ hr⟩

theorem corner0m_marks_ok : Marks_ok corner0m :=
  marks_ok_of_local corner0m (by decide) (by decide) (by decide)

theorem corner1_marks_ok : Marks_ok corner1 :=
  marks_ok_of_local corner1 (by decide) (by decide) (by decide)

theorem corner_split_descends :
    Descends corner1 (star_of corner_stub corner1 6 1).1 (split_anc corner_stub corner1 6 1) :=
  Descends.of_reach _ _ _ 2 (by decide) (by decide) (by decide) (by decide)

theorem corner_edge_descends (reuse : Bool) (k : Nat)
    (hk : right_stretch (edge_insertion (corner_edge reuse) corner0m 0 2 5).1
      (edge_insertion (corner_edge reuse) corner0m 0 2 5).2 (corner0m.vertex 0 (ccw 2))
      (edge_turn (corner_edge reuse) corner0m 0 2 5) = some k) :
    Descends corner0m (edge_insertion (corner_edge reuse) corner0m 0 2 5).1
      (edge_anc (corner_edge reuse) corner0m 0 2 5 k) := by
  have h2 : k = 2 := by
    cases reuse
    · have h1 : right_stretch (edge_insertion (corner_edge false) corner0m 0 2 5).1
          (edge_insertion (corner_edge false) corner0m 0 2 5).2 (corner0m.vertex 0 (ccw 2))
          (edge_turn (corner_edge false) corner0m 0 2 5) = some 2 := by decide
      rw [h1] at hk
      injection hk with hk
      exact hk.symm
    · have h1 : right_stretch (edge_insertion (corner_edge true) corner0m 0 2 5).1
          (edge_insertion (corner_edge true) corner0m 0 2 5).2 (corner0m.vertex 0 (ccw 2))
          (edge_turn (corner_edge true) corner0m 0 2 5) = some 2 := by decide
      rw [h1] at hk
      injection hk with hk
      exact hk.symm
  subst h2
  cases reuse
  · exact Descends.of_reach _ _ _ 1 (by decide) (by decide) (by decide) (by decide)
  · exact Descends.of_reach _ _ _ 1 (by decide) (by decide) (by decide) (by decide)

theorem marks_kept_by_insertions_witness :
    (∃ t, split_face corner_stub corner_ready 1 6 = some t ∧ Marks_ok t.tr) ∧
      ∃ t, virtual_insert_in_the_edge edge_stub (corner_edge false) corner_pending 0 2 5 =
          some t ∧ Marks_ok t.1.tr :=
  ⟨(let ⟨x, hx⟩ := Option.isSome_iff_exists.1
      (show (split_face corner_stub corner_ready 1 6).isSome = true by decide)
    ⟨x, hx, (marks_kept_by_insertions corner_stub (corner_edge false) corner_ready
      corner1_marks_ok).1 1 6 x corner_split_descends (by decide) hx⟩),
   (let ⟨x, hx⟩ := Option.isSome_iff_exists.1
      (show (virtual_insert_in_the_edge edge_stub (corner_edge false) corner_pending
        0 2 5).isSome = true by decide)
    ⟨x, hx, (marks_kept_by_insertions edge_stub (corner_edge false) corner_pending
      corner0m_marks_ok).2 0 2 5 x (corner_edge_descends false) (by decide) (by decide)
      hx⟩)⟩

/-- C15, as stated, fails for `virtual_insert_in_the_edge`.  On the sharp corner with
uniform marks, the side 2-1 is split by an insertion that keeps the components, the
marks away from the new vertex and the handle 0 of the cut face of the domain, now the
infinite face (1,5,0).  The two loops skip the infinite faces, so the infinite face 0
around the new vertex is still marked after the call. -/
theorem stale_mark_on_infinite_face :
    Marks_ok corner_pending.tr ∧
      (∀ k, right_stretch (edge_insertion (corner_edge true) corner0m 0 2 5).1
          (edge_insertion (corner_edge true) corner0m 0 2 5).2 (corner0m.vertex 0 (ccw 2))
          (edge_turn (corner_edge true) corner0m 0 2 5) = some k →
        Descends corner0m (edge_insertion (corner_edge true) corner0m 0 2 5).1
          (edge_anc (corner_edge true) corner0m 0 2 5 k)) ∧
      (∀ g ∈ (edge_insertion (corner_edge true) corner0m 0 2 5).1.all_faces,
        g ∉ edge_turn (corner_edge true) corner0m 0 2 5 →
        (edge_insertion (corner_edge true) corner0m 0 2 5).1.is_marked g =
          corner0m.is_marked g) ∧
      ∃ t, virtual_insert_in_the_edge edge_stub (corner_edge true) corner_pending 0 2 5 =
          some t ∧
        0 ∈ edge_stub.incident_faces t.1.tr t.2 ∧ t.1.tr.is_infinite 0 = true ∧
        t.1.tr.is_marked 0 = true ∧ ¬ Marks_ok t.1.tr :=
  ⟨corner0m_marks_ok, corner_edge_descends true, by decide,
    (virtual_insert_in_the_edge edge_stub (corner_edge true) corner_pending 0 2 5).get
      (by decide),
    (Option.some_get _).symm, by decide, by decide, by decide,
    fun hm => absurd (hm.2 0 (by decide) (by decide) 0 Relation.ReflTransGen.refl)
      (by decide)⟩

/-! ## Invariant I3 across `process_one_face` and `refine` -/

theorem refine_face_edge_cdata [LinearOrder FT] (ext : Collaborators Point FT C)
    (tr : Triangulation Point FT) (f : Face_handle) (pc : Point) (st : Scan C) (e : Edge) :
    (refine_face_edge ext tr f pc st e).cdata = st.cdata ∨
      (refine_face_edge ext tr f pc st e).cdata =
        ext.add_contrained_edge_to_be_conform tr st.cdata (tr.vertex e.1 (cw e.2))
          (tr.vertex e.1 (ccw e.2)) := by
  simp only [refine_face_edge]
  split
  · split
    · exact Or.inr rfl
    · exact Or.inr rfl
    · split
      · exact Or.inr rfl
      · exact Or.inl rfl
    · split
      · exact Or.inr rfl
      · exact Or.inl rfl
  · exact Or.inl rfl

theorem refine_scan_pending [LinearOrder FT] (ext : Collaborators Point FT C)
    (pending : C → Vertex_handle → Vertex_handle → Bool) (tr : Triangulation Point FT)
    (hadd : ∀ c va vb x y, pending c x y = true →
      pending (ext.add_contrained_edge_to_be_conform tr c va vb) x y = true)
    (f : Face_handle) (pc : Point) (l : List Edge) (st : Scan C) (x y : Vertex_handle)
    (h : pending st.cdata x y = true) :
    pending (l.foldl (refine_face_edge ext tr f pc) st).cdata x y = true := by
  induction l generalizing st with
  | nil => exact h
  | cons a l ih =>
    rw [List.foldl_cons]
    apply ih
    rcases refine_face_edge_cdata ext tr f pc st a with h1 | h1
    · rw [h1]; exact h
    · rw [h1]; exact hadd _ _ _ _ _ h

theorem I3_mono (ext : Collaborators Point FT C)
    (pending : C → Vertex_handle → Vertex_handle → Bool) (tr : Triangulation Point FT)
    (c c2 : C) (hc : ∀ x y, pending c x y = true → pending c2 x y = true)
    (h : I3 ext pending tr c) : I3 ext pending tr c2 := by
  intro f hf i hi
  rcases h f hf i hi with h1 | h1 | h1
  · exact Or.inl h1
  · exact Or.inr (Or.inl (hc _ _ h1))
  · exact Or.inr (Or.inr (hc _ _ h1))

theorem refine_scan_split [LinearOrder FT] (ext : Collaborators Point FT C)
    (s : Mesh_2 Point FT C) (f : Face_handle)
    (h : (boundary_scan ext s f).split_the_face = true) :
    (∀ e ∈ (ext.get_conflicts_and_boundary s.tr (ext.circumcenter s.tr f) f).2,
      encroached_constrained ext s.tr (ext.circumcenter s.tr f) e = false) ∧
    (boundary_scan ext s f).cdata = s.cdata := by
  have h1 : ∀ e ∈ (ext.get_conflicts_and_boundary s.tr (ext.circumcenter s.tr f) f).2,
      encroached_constrained ext s.tr (ext.circumcenter s.tr f) e = false := by
    intro e he
    cases hb : encroached_constrained ext s.tr (ext.circumcenter s.tr f) e with
    | false => rfl
    | true =>
      have h2 := refine_scan_encroached ext s.tr f (ext.circumcenter s.tr f) _
        { cdata := s.cdata, split_the_face := true, keep_the_face_bad := false }
        ⟨e, he, hb⟩
      rw [boundary_scan, h2] at h
      exact absurd h (by simp)
  refine ⟨h1, ?_⟩
  rw [boundary_scan, refine_scan_conform ext s.tr f (ext.circumcenter s.tr f) _ _ h1]

theorem push_in_bad_faces_v_frame (ext : Collaborators Point FT C)
    (s t : Mesh_2 Point FT C) (va vb vc : Vertex_handle)
    (h : push_in_bad_faces_v ext s va vb vc = some t) : t.tr = s.tr ∧ t.cdata = s.cdata := by
  simp only [push_in_bad_faces_v] at h
  split at h
  · simp only [push_in_bad_faces] at h
    split at h
    · injection h with h
      subst h
      exact ⟨rfl, rfl⟩
    · simp at h
  · simp at h

/-- A returning `split_face(f, c)` at a point `c` that encroaches no constrained boundary
edge of its conflict zone keeps invariant I3, on an insertion that meets
`Gabriel_frame`. -/
theorem split_face_keeps_I3 (ext : Collaborators Point FT C)
    (pending : C → Vertex_handle → Vertex_handle → Bool) (s t : Mesh_2 Point FT C)
    (f : Face_handle) (c : Point) (hf : Gabriel_frame ext s.tr f c)
    (hfree : ∀ e ∈ (ext.get_conflicts_and_boundary s.tr c f).2,
      encroached_constrained ext s.tr c e = false)
    (h : I3 ext pending s.tr s.cdata) (ht : split_face ext s f c = some t) :
    I3 ext pending t.tr t.cdata := by
  obtain ⟨μ, _, _, heq⟩ := split_face_state ext s f c
  rw [heq] at ht
  injection ht with ht
  subst ht
  intro g hg i hi
  have hg2 : g ∈ (star_of ext s.tr c f).1.finite_faces := hg
  have hi2 : (star_of ext s.tr c f).1.is_constrained g i = true := hi
  have hlg : locally_gabriel ext { (star_of ext s.tr c f).1 with is_marked := μ } g i =
      locally_gabriel ext (star_of ext s.tr c f).1 g i := hf.marks_free μ g i _
  by_cases hga : g ∈ ext.incident_faces (star_of ext s.tr c f).1 (star_of ext s.tr c f).2
  · obtain ⟨e, he, hec, _, _, hlge⟩ := hf.fan g hg2 hga i hi2
    have hen := hfree e he
    simp only [encroached_constrained, hec, Bool.true_and, Bool.not_eq_false'] at hen
    exact Or.inl (by rw [hlg, hlge]; exact hen)
  · obtain ⟨k1, k2, k3, k4, k5⟩ := hf.kept g hg2 hga i hi2
    rcases h g k1 i k2 with h1 | h1 | h1
    · exact Or.inl (by rw [hlg, k5]; exact h1)
    · exact Or.inr (Or.inl (by
        show pending s.cdata ((star_of ext s.tr c f).1.vertex g (cw i))
          ((star_of ext s.tr c f).1.vertex g (ccw i)) = true
        rw [k3, k4]; exact h1))
    · exact Or.inr (Or.inr (by
        show pending s.cdata ((star_of ext s.tr c f).1.vertex g (ccw i))
          ((star_of ext s.tr c f).1.vertex g (cw i)) = true
        rw [k3, k4]; exact h1))

theorem process_one_face_keeps_I3 [LinearOrder FT] (ext : Collaborators Point FT C)
    (pending : C → Vertex_handle → Vertex_handle → Bool) (u t : Mesh_2 Point FT C)
    (hc : Gabriel_contract ext pending u) (h : I3 ext pending u.tr u.cdata)
    (hrun : process_one_face ext u = some t) : I3 ext pending t.tr t.cdata := by
  simp only [process_one_face] at hrun
  cases hfr : u.bad_faces.front with
  | none => rw [hfr] at hrun; simp at hrun
  | some e =>
    rw [hfr] at hrun
    simp only at hrun
    have hmono : ∀ x y, pending u.cdata x y = true →
        pending (boundary_scan ext u e.1).cdata x y = true :=
      fun x y hxy => refine_scan_pending ext pending u.tr hc.1 e.1 _ _ _ x y hxy
    rcases refine_face_result ext _ t e.1 hrun with ⟨hs, _, hrun⟩ | ⟨_, _, hrun⟩ | ⟨_, _, hrun⟩
    · obtain ⟨hfree, hcd⟩ := refine_scan_split ext
        { u with bad_faces := u.bad_faces.pop_front } e.1 hs
      refine split_face_keeps_I3 ext pending
        { u with bad_faces := u.bad_faces.pop_front,
                 cdata := (boundary_scan ext u e.1).cdata } t e.1 _ (hc.2 e hfr) hfree ?_ hrun
      exact I3_mono ext pending u.tr _ _ hmono h
    · obtain ⟨h1, h2⟩ := push_in_bad_faces_v_frame ext _ t _ _ _ hrun
      rw [h1, h2]
      exact I3_mono ext pending u.tr _ _ hmono h
    · subst hrun
      exact I3_mono ext pending u.tr _ _ hmono h

/-- A property kept by the body of the loop of `refine()` holds when the loop ends. -/
theorem refine_loop_invariant [LinearOrder FT] (ext : Collaborators Point FT C)
    (J : Mesh_2 Point FT C → Prop)
    (hbody : ∀ u u1, J u → refine_body ext u = some u1 → J u1) (fuel : Nat)
    (s t : Mesh_2 Point FT C) (hs : J s) (h : refine_loop ext fuel s = some t) : J t := by
  induction fuel generalizing s with
  | zero =>
    simp only [refine_loop] at h
    split at h
    · simp at h
    · injection h with h
      subst h
      exact hs
  | succ n ih =>
    simp only [refine_loop] at h
    split at h
    · rw [Option.bind_eq_some] at h
      obtain ⟨s2, h1, h2⟩ := h
      exact ih s2 (hbody s s2 hs h1) h2
    · injection h with h
      subst h
      exact hs

/-- C14: `process_one_face()` preserves invariant I3, and when `refine()` returns every
constrained edge is locally Gabriel.  First part: on collaborators that meet
`Gabriel_contract`, if every constrained edge is locally Gabriel or waits in the
conformance base before a returning `process_one_face()`, the same holds after it.
Second part: let `R` hold of the states the run goes through; if the start of
`refine()` establishes I3, `conform()` keeps it, the collaborators meet
`Gabriel_contract` on the way, and `is_conformed()` says that no edge waits, then in the
state `refine()` returns every constrained edge is locally Gabriel. -/
theorem constrained_edges_stay_gabriel [LinearOrder FT] (ext : Collaborators Point FT C)
    (pending : C → Vertex_handle → Vertex_handle → Bool) :
    (∀ u t, Gabriel_contract ext pending u → I3 ext pending u.tr u.cdata →
      process_one_face ext u = some t → I3 ext pending t.tr t.cdata) ∧
    (∀ (R : Mesh_2 Point FT C → Prop) (fuel : Nat) (s t : Mesh_2 Point FT C),
      (∀ s1, (if !s.initialized then init ext s else some s) = some s1 →
        R s1 ∧ I3 ext pending s1.tr s1.cdata) →
      (∀ u u1, R u → I3 ext pending u.tr u.cdata → ext.Conform_conform u = some u1 →
        R u1 ∧ I3 ext pending u1.tr u1.cdata) →
      (∀ u u1, R u → process_one_face ext u = some u1 → R u1) →
      (∀ u, R u → Gabriel_contract ext pending u) →
      (∀ u, R u → ext.Conform_is_conformed u.tr u.cdata = true →
        ∀ x y, pending u.cdata x y = false) →
      refine ext fuel s = some t → All_gabriel ext t.tr) := by
  refine ⟨fun u t hc h hrun => process_one_face_keeps_I3 ext pending u t hc h hrun, ?_⟩
  intro R fuel s t hstart hconform hstep hcontract hdone hrun
  simp only [refine, Option.bind_eq_some] at hrun
  obtain ⟨s1, h1, h2⟩ := hrun
  have hq : ext.Conform_is_conformed t.tr t.cdata = true ∧ t.bad_faces.empty = true := by
    simpa [refine_cond] using refine_loop_exit ext fuel s1 t h2
  have hJ : R t ∧ I3 ext pending t.tr t.cdata := by
    refine refine_loop_invariant ext (fun u => R u ∧ I3 ext pending u.tr u.cdata) ?_ fuel s1 t
      (hstart s1 h1) h2
    intro u u1 hu hb
    simp only [refine_body, Option.bind_eq_some] at hb
    obtain ⟨u2, hb1, hb2⟩ := hb
    have hu2 := hconform u u2 hu.1 hu.2 hb1
    split at hb2
    · exact ⟨hstep u2 u1 hu2.1 hb2,
        process_one_face_keeps_I3 ext pending u2 u1 (hcontract u2 hu2.1) hu2.2 hb2⟩
    · injection hb2 with hb2
      subst hb2
      exact hu2
  intro f hf i hi
  rcases hJ.2 f hf i hi with h3 | h3 | h3
  · exact h3
  · rw [hdone t hJ.1 hq.1] at h3
    exact absurd h3 (by simp)
  · rw [hdone t hJ.1 hq.1] at h3
    exact absurd h3 (by simp)

/-! ## Invariant I3 on the prepared run -/

theorem corner_waits_add (tr : Triangulation Nat Int)
    (c : List (Vertex_handle × Vertex_handle)) (va vb x y : Vertex_handle)
    (h : corner_waits c x y = true) :
    corner_waits (corner_stub.add_contrained_edge_to_be_conform tr c va vb) x y = true := by
  simp only [corner_waits, decide_eq_true_eq] at h
  simp only [corner_waits, corner_stub, decide_eq_true_eq, List.mem_append]
  exact Or.inl h

theorem corner_waits_done (tr : Triangulation Nat Int)
    (c : List (Vertex_handle × Vertex_handle))
    (h : corner_stub.Conform_is_conformed tr c = true) (x y : Vertex_handle) :
    corner_waits c x y = false := by
  simp only [corner_stub, List.isEmpty_iff] at h
  subst h
  rfl

theorem corner_front (u : Mesh_2 Nat Int (List (Vertex_handle × Vertex_handle)))
    (e0 e : Face_handle × Int) (h0 : u.bad_faces.front = some e0)
    (he : u.bad_faces.front = some e) : e = e0 := by
  rw [h0] at he
  injection he with he
  exact he.symm

theorem corner_ready_gabriel : Gabriel_contract corner_stub corner_waits corner_ready := by
  refine ⟨corner_waits_add _, fun e he => ?_⟩
  have he2 := corner_front corner_ready (1, 100) e (by decide) he
  subst he2
  exact ⟨fun _ _ _ _ => rfl, by decide, by decide⟩

theorem corner_started_gabriel : Gabriel_contract corner_stub corner_waits corner_started := by
  refine ⟨corner_waits_add _, fun e he => ?_⟩
  have he2 := corner_front corner_started (1, 100) e (by decide) he
  subst he2
  exact ⟨fun _ _ _ _ => rfl, by decide, by decide⟩

theorem corner_refined_gabriel : Gabriel_contract corner_stub corner_waits corner_refined := by
  refine ⟨corner_waits_add _, fun e he => ?_⟩
  have h0 : corner_refined.bad_faces.front = none := by decide
  rw [h0] at he
  exact absurd he (by simp)

theorem getD_of_eq_some {α : Type} (o : Option α) (d a : α) (h : o = some a) :
    o.getD d = a := by
  rw [h]
  rfl

theorem constrained_edges_stay_gabriel_witness :
    (∃ t, process_one_face corner_stub corner_ready = some t ∧
        I3 corner_stub corner_waits t.tr t.cdata) ∧
      ∃ t, refine corner_stub 3 corner_ready = some t ∧ All_gabriel corner_stub t.tr :=
  ⟨(let ⟨x, hx⟩ := Option.isSome_iff_exists.1
      (show (process_one_face corner_stub corner_ready).isSome = true by decide)
    ⟨x, hx, (constrained_edges_stay_gabriel corner_stub corner_waits).1 corner_ready x
      corner_ready_gabriel (by unfold I3; decide) hx⟩),
   (let ⟨x, hx⟩ := Option.isSome_iff_exists.1
      (show (refine corner_stub 3 corner_ready).isSome = true by decide)
    ⟨x, hx, (constrained_edges_stay_gabriel corner_stub corner_waits).2
      (fun u => u = corner_started ∨ u = corner_refined) 3 corner_ready x
      (fun s1 h1 => by
        have h2 : s1 = corner_started := (getD_of_eq_some _ corner_ready s1 h1).symm
        subst h2
        exact ⟨Or.inl rfl, by unfold I3; decide⟩)
      (fun u u1 hu _ h1 => by
        rcases hu with hu | hu
        · subst hu
          have h2 : corner_stub.Conform_conform corner_started = some corner_started := rfl
          rw [h2] at h1
          injection h1 with h1
          subst h1
          exact ⟨Or.inl rfl, by unfold I3; decide⟩
        · subst hu
          have h2 : corner_stub.Conform_conform corner_refined = some corner_refined := rfl
          rw [h2] at h1
          injection h1 with h1
          subst h1
          exact ⟨Or.inr rfl, by unfold I3; decide⟩)
      (fun u u1 hu h1 => by
        rcases hu with hu | hu
        · subst hu
          exact Or.inr (getD_of_eq_some _ corner_started u1 h1).symm
        · subst hu
          have h0 : (process_one_face corner_stub corner_refined).isSome = false := by decide
          rw [h1] at h0
          exact absurd h0 (by simp))
      (fun u hu => by
        rcases hu with hu | hu
        · subst hu; exact corner_started_gabriel
        · subst hu; exact corner_refined_gabriel)
      (fun u _ h1 => corner_waits_done u.tr u.cdata h1) hx⟩)⟩

/-! ## Termination of `refine()` -/

/-- The loop of `refine()` does not return from a state that belongs to a set of states
on which the condition of the loop holds and which the body of the loop does not
leave. -/
theorem refine_loop_never [LinearOrder FT] (ext : Collaborators Point FT C)
    (J : Mesh_2 Point FT C → Prop)
    (hturn : ∀ u, J u → refine_cond ext u = true ∧
      ∀ u1, refine_body ext u = some u1 → J u1)
    (fuel : Nat) (s : Mesh_2 Point FT C) (hs : J s) : refine_loop ext fuel s = none := by
  induction fuel generalizing s with
  | zero => simp [refine_loop, (hturn s hs).1]
  | succ n ih =>
    simp only [refine_loop, (hturn s hs).1, if_true]
    cases hb : refine_body ext s with
    | none => rfl
    | some u1 => exact ih u1 ((hturn s hs).2 u1 hb)

/-! ## The run on which every triangle is bad -/

theorem grow_star (tr : Triangulation Nat Int) (c : Nat) (f : Face_handle) :
    star_of grow tr c f = (split3 tr f c, c) := rfl

theorem grow_zone (tr : Triangulation Nat Int) (c : Nat) (f : Face_handle) :
    zone_of grow tr c f = [f] := rfl

theorem grow_scan (u : Mesh_2 Nat Int Unit) (f : Face_handle) :
    boundary_scan grow u f =
      { cdata := u.cdata, split_the_face := true, keep_the_face_bad := false } :=
  refine_scan_conform grow u.tr f _ _ _
    (fun _ _ => by simp [encroached_constrained, grow])

theorem grow_around (tr : Triangulation Nat Int) (f : Face_handle) (c : Nat)
    (hf : f ∈ tr.all_faces) : f ∈ grow.incident_faces (split3 tr f c) c := by
  show f ∈ List.filter _ (split3 tr f c).all_faces
  rw [List.mem_filter]
  exact ⟨List.mem_append_left _ hf, by simp [split3]⟩

/-- One turn of the loop of `refine()` on a state of the run: the loop goes on, the turn
returns, and it leaves a state of the run with two more faces. -/
theorem growing_turn (u : Mesh_2 Nat Int Unit) (h : Growing u) :
    refine_cond grow u = true ∧
      ∃ u1, refine_body grow u = some u1 ∧ Growing u1 ∧
        u1.tr.all_faces.length = u.tr.all_faces.length + 2 := by
  obtain ⟨hbad, hne, hQ⟩ := h
  have hemp : u.bad_faces.empty = false := by
    cases hq : u.bad_faces with
    | nil => exact absurd hq hne
    | cons a l => rfl
  refine ⟨by simp [refine_cond, hemp], ?_⟩
  obtain ⟨e, hfr⟩ := Double_map.front_some u.bad_faces hne
  obtain ⟨he1, he2, he3⟩ := hQ e (Double_map.front_spec _ e hfr).1
  have hbody : refine_body grow u =
      split_face grow { u with bad_faces := u.bad_faces.pop_front } e.1
        (grow.circumcenter u.tr e.1) := by
    have h1 : refine_body grow u = process_one_face grow u := by
      simp [refine_body, grow, hemp]
    rw [h1]
    simp only [process_one_face, hfr]
    rw [refine_face_cases, grow_scan]
    simp only [if_true, he2]
  obtain ⟨μ, hμ1, hμ2, heq⟩ := split_face_state grow
    { u with bad_faces := u.bad_faces.pop_front } e.1 (grow.circumcenter u.tr e.1)
  rw [hbody, heq]
  refine ⟨_, rfl, ?_, ?_⟩
  · have hin : e.1 ∈ grow.incident_faces
        (star_of grow u.tr (grow.circumcenter u.tr e.1) e.1).1
        (star_of grow u.tr (grow.circumcenter u.tr e.1) e.1).2 :=
      grow_around u.tr e.1 _ he1
    have hall : ∀ g, g ∈ grow.incident_faces
        { (star_of grow u.tr (grow.circumcenter u.tr e.1) e.1).1 with is_marked := μ }
        (star_of grow u.tr (grow.circumcenter u.tr e.1) e.1).2 →
        g ∈ (star_of grow u.tr (grow.circumcenter u.tr e.1) e.1).1.all_faces :=
      fun g hg => (List.mem_filter.1 hg).1
    have hin2 : e.1 ∈ grow.incident_faces
        { (star_of grow u.tr (grow.circumcenter u.tr e.1) e.1).1 with is_marked := μ }
        (star_of grow u.tr (grow.circumcenter u.tr e.1) e.1).2 := hin
    have hfin : (star_of grow u.tr (grow.circumcenter u.tr e.1) e.1).1.is_infinite e.1 =
        false := by
      simp only [grow_star, split3, he1, if_true, he3]
    refine ⟨hbad, ?_, ?_⟩
    · intro hnil
      have hmem : (e.1, squared_minimum_sine
          { (star_of grow u.tr (grow.circumcenter u.tr e.1) e.1).1 with is_marked := μ } e.1) ∈
          ([] : Double_map Int) := by
        rw [← hnil]
        show _ ∈ List.foldl _ _ _
        rw [cond_insert_fold_mem
          (fun fc => !(star_of grow u.tr (grow.circumcenter u.tr e.1) e.1).1.is_infinite fc &&
            (is_bad { (star_of grow u.tr (grow.circumcenter u.tr e.1) e.1).1 with
              is_marked := μ } fc && μ fc))
          (squared_minimum_sine
            { (star_of grow u.tr (grow.circumcenter u.tr e.1) e.1).1 with is_marked := μ })]
        refine Or.inr ⟨hin2, ?_, rfl⟩
        simp only [hfin, Bool.not_false, Bool.true_and, Bool.and_eq_true]
        exact ⟨hbad _ _ _, by rw [hμ2 e.1 hin]; exact he2⟩
      exact absurd hmem (by simp)
    · rintro ⟨g, k⟩ hx
      have hx2 : (g, k) ∈ List.foldl _ _ _ := hx
      rw [cond_insert_fold_mem
        (fun fc => !(star_of grow u.tr (grow.circumcenter u.tr e.1) e.1).1.is_infinite fc &&
          (is_bad { (star_of grow u.tr (grow.circumcenter u.tr e.1) e.1).1 with
            is_marked := μ } fc && μ fc))
        (squared_minimum_sine
          { (star_of grow u.tr (grow.circumcenter u.tr e.1) e.1).1 with is_marked := μ })]
        at hx2
      rcases hx2 with ⟨hx3, _⟩ | ⟨hg, hc, _⟩
      · rw [erase_fold_mem] at hx3
        obtain ⟨k1, k2, k3⟩ := hQ (g, k) (Double_map.pop_front_subset _ _ hx3.1)
        refine ⟨?_, ?_, ?_⟩
        · simp only [grow_star, split3, List.mem_append]
          exact Or.inl k1
        · show μ g = true
          by_cases hga : g ∈ grow.incident_faces
              (star_of grow u.tr (grow.circumcenter u.tr e.1) e.1).1
              (star_of grow u.tr (grow.circumcenter u.tr e.1) e.1).2
          · rw [hμ2 g hga]; exact he2
          · rw [hμ1 g hga]
            simp only [grow_star, split3, k1, if_true]
            exact k2
        · show (star_of grow u.tr (grow.circumcenter u.tr e.1) e.1).1.is_infinite g = false
          simp only [grow_star, split3, k1, if_true]
          exact k3
      · simp only [Bool.and_eq_true, Bool.not_eq_true'] at hc
        exact ⟨hall g hg, hc.2.2, hc.1⟩
  · simp [grow_star, split3]

theorem greedy_start :
    ∃ s1, init grow greedy_mesh = some s1 ∧ Growing s1 := by
  obtain ⟨s1, h1⟩ := Option.isSome_iff_exists.1
    (show (init grow greedy_mesh).isSome = true by decide)
  have h2 : (init grow greedy_mesh).getD greedy_mesh = s1 := getD_of_eq_some _ _ _ h1
  subst h2
  exact ⟨_, h1, fun _ _ _ => rfl, by decide, by decide⟩

/-- C16, as stated, fails: with a criterion that no triangle meets, `refine()` on the
quadrilateral never returns.  After `init()` every turn of the loop returns, splits a
face in three and leaves a map of bad faces that is not empty. -/
theorem refine_runs_forever :
    (∃ s1, init grow greedy_mesh = some s1 ∧ Growing s1) ∧
      (∀ u, Growing u → refine_cond grow u = true ∧
        ∃ u1, refine_body grow u = some u1 ∧ Growing u1 ∧
          u1.tr.all_faces.length = u.tr.all_faces.length + 2) ∧
      ¬ ∃ fuel t, refine grow fuel greedy_mesh = some t := by
  refine ⟨greedy_start, growing_turn, ?_⟩
  rintro ⟨fuel, t, ht⟩
  obtain ⟨s1, h1, h2⟩ := greedy_start
  have h3 : refine grow fuel greedy_mesh = refine_loop grow fuel s1 := by
    have h4 : refine grow fuel greedy_mesh =
        (init grow greedy_mesh).bind (refine_loop grow fuel) := rfl
    rw [h4, h1]
    rfl
  rw [h3, refine_loop_never grow Growing
    (fun u hu => ⟨(growing_turn u hu).1, fun u1 hb => by
      obtain ⟨u2, hb2, hg, _⟩ := (growing_turn u hu).2
      rw [hb2] at hb
      injection hb with hb
      subst hb
      exact hg⟩) fuel s1 h2] at ht
  exact absurd ht (by simp)

theorem some_getD_of_isSome {α : Type} (o : Option α) (d : α) (h : o.isSome = true) :
    o = some (o.getD d) := by
  cases o with
  | none => simp at h
  | some a => rfl

/-! ## `mark_facets` below dimension 2 -/

/-- C28: when the triangulation has dimension less than 2, `mark_facets()` returns at
once with the state as it was: no face mark changes and no flood runs (not the flood of
the seeds, not `mark_convex_hull()`, not the final flood from the infinite face),
whatever the seeds and `seeds_mark` are; the same holds of `set_seeds` called with
`do_it_now`. -/
theorem mark_facets_low_dimension (ext : Collaborators Point FT C) (s : Mesh_2 Point FT C)
    (hdim : s.tr.dimension < 2) :
    mark_facets ext s = some s ∧
      ∀ (pts : List Point) (mark : Bool),
        mark_facets ext { s with seeds := pts, seeds_mark := mark } =
            some { s with seeds := pts, seeds_mark := mark } ∧
          set_seeds ext s pts mark true = some { s with seeds := pts, seeds_mark := mark } := by
  refine ⟨by simp [mark_facets, hdim], fun pts mark => ?_⟩
  have h : mark_facets ext { s with seeds := pts, seeds_mark := mark } =
      some { s with seeds := pts, seeds_mark := mark } := by
    simp [mark_facets, hdim]
  exact ⟨h, by simp only [set_seeds, if_true]; exact h⟩

theorem mark_facets_low_dimension_witness :
    mark_facets (stub id)
        { mesh 600 () [(1, 1)] true with tr := { tetra 600 with dimension := 1 } } =
      some { mesh 600 () [(1, 1)] true with tr := { tetra 600 with dimension := 1 } } :=
  (mark_facets_low_dimension (stub id)
    { mesh 600 () [(1, 1)] true with tr := { tetra 600 with dimension := 1 } }
    (by decide)).1

/-! ## The barriers of `propagate_marks` -/

/-- C24: constrained edges are barriers for `propagate_marks(start, m)`.  On a
triangulation whose faces have their neighbours among its faces, the call returns the
triangulation with new marks and nothing else changed (no constraint bit); `start` is
marked `m`; a face whose mark changed is marked `m` and is reached from `start` by a
path of non-constrained edges; a face not reached by such a path keeps its mark; and if
every face of the component of `start` other than `start` had the mark `!m`, the whole
component is marked `m`. -/
theorem propagate_marks_barriers (tr : Triangulation Point FT)
    (hcl : ∀ f ∈ tr.all_faces, ∀ i : Fin 3, tr.neighbor f i ∈ tr.all_faces)
    (start : Face_handle) (hs : start ∈ tr.all_faces) (m : Bool) :
    ∃ ν, propagate_marks tr start m = some { tr with is_marked := ν } ∧
      ν start = m ∧
      (∀ f, ν f ≠ tr.is_marked f → ν f = m ∧ tr.connected start f) ∧
      (∀ f, ¬ tr.connected start f → ν f = tr.is_marked f) ∧
      ((∀ f, tr.connected start f → f ≠ start → tr.is_marked f = !m) →
        ∀ f, tr.connected start f → ν f = m) := by
  obtain ⟨ν, e, fl⟩ := propagate_marks_flooded tr hcl start hs m
  refine ⟨ν, e, fl.start_marked, fl.changed, fl.outside, fun hcomp => ?_⟩
  exact fl.component (fun f hf hne => by rw [hcomp f hf hne]; cases m <;> simp)

theorem propagate_marks_barriers_witness :
    ∃ ν, propagate_marks (tetra 600) 1 true = some { tetra 600 with is_marked := ν } ∧
      ν 1 = true ∧
      (∀ f, ν f ≠ (tetra 600).is_marked f → ν f = true ∧ (tetra 600).connected 1 f) ∧
      (∀ f, ¬ (tetra 600).connected 1 f → ν f = (tetra 600).is_marked f) ∧
      ((∀ f, (tetra 600).connected 1 f → f ≠ 1 → (tetra 600).is_marked f = !true) →
        ∀ f, (tetra 600).connected 1 f → ν f = true) :=
  propagate_marks_barriers (tetra 600) (tetra_well_formed 600).1 1 (by decide) true

/-! ## The pushes of `propagate_marks` -/

theorem propagate_visit_log_cases (tr : Triangulation Point FT) (m : Bool) (fh : Face_handle)
    (sl : ((Face_handle → Bool) × List Face_handle) × List Face_handle) (i : Fin 3) :
    (tr.is_constrained fh i = false ∧ sl.1.1 (tr.neighbor fh i) ≠ m ∧
        propagate_visit_log tr m fh sl i =
          ((Function.update sl.1.1 (tr.neighbor fh i) m, sl.1.2 ++ [tr.neighbor fh i]),
            sl.2 ++ [tr.neighbor fh i])) ∨
      ((tr.is_constrained fh i = true ∨ sl.1.1 (tr.neighbor fh i) = m) ∧
        propagate_visit_log tr m fh sl i = sl) := by
  rcases propagate_visit_cases tr m fh sl.1 i with ⟨hc, hm, e⟩ | ⟨h, e⟩
  · left
    refine ⟨hc, hm, ?_⟩
    have hm2 : ¬ m = sl.1.1 (tr.neighbor fh i) := fun h => hm h.symm
    simp only [propagate_visit_log, e, hc, Bool.not_false, Bool.true_and, bne_iff_ne, ne_eq,
      hm2, not_false_eq_true, if_true]
  · right
    refine ⟨h, ?_⟩
    have hcond : (!tr.is_constrained fh i && (m != sl.1.1 (tr.neighbor fh i))) = false := by
      rcases h with h | h
      · simp [h]
      · simp [h]
    simp only [propagate_visit_log, e, hcond, Bool.false_eq_true, if_false]

theorem propagate_scan_log_fst (tr : Triangulation Point FT) (m : Bool) (fh : Face_handle)
    (l : List (Fin 3)) (sl : ((Face_handle → Bool) × List Face_handle) × List Face_handle) :
    (l.foldl (propagate_visit_log tr m fh) sl).1 = l.foldl (propagate_visit tr m fh) sl.1 := by
  induction l generalizing sl with
  | nil => rfl
  | cons i l ih => rw [List.foldl_cons, List.foldl_cons, ih]; rfl

/-- The loop with the log computes the marks of the loop without it. -/
theorem propagate_loop_log_fst (tr : Triangulation Point FT) (m : Bool) (fuel : Nat)
    (μ : Face_handle → Bool) (q log : List Face_handle) :
    (propagate_loop_log tr m fuel μ q log).map Prod.fst = propagate_loop tr m fuel μ q := by
  induction fuel generalizing μ q log with
  | zero =>
    cases q with
    | nil => simp [propagate_loop_log, propagate_loop]
    | cons a q => simp [propagate_loop_log, propagate_loop]
  | succ n ih =>
    cases q with
    | nil => simp [propagate_loop_log, propagate_loop]
    | cons fh rest =>
      simp only [propagate_loop_log, propagate_loop]
      rw [ih, propagate_scan_log_fst]

theorem propagate_visit_logged (tr : Triangulation Point FT) (m : Bool)
    (hcl : ∀ f ∈ tr.all_faces, ∀ i : Fin 3, tr.neighbor f i ∈ tr.all_faces)
    (fh : Face_handle) (hfh : fh ∈ tr.all_faces)
    (sl : ((Face_handle → Bool) × List Face_handle) × List Face_handle) (i : Fin 3)
    (h : Logged tr m sl.1.1 sl.1.2 sl.2) :
    Logged tr m (propagate_visit_log tr m fh sl i).1.1 (propagate_visit_log tr m fh sl i).1.2
      (propagate_visit_log tr m fh sl i).2 := by
  rcases propagate_visit_log_cases tr m fh sl i with ⟨_, hm, e⟩ | ⟨_, e⟩
  · rw [e]
    have hnew : tr.neighbor fh i ∉ sl.2 := fun hin => hm (h.marked _ hin)
    refine ⟨?_, ?_, ?_, ?_⟩
    · exact List.Nodup.append h.nodup (List.nodup_singleton _)
        (by
          intro a ha hb
          simp only [List.mem_singleton] at hb
          subst hb
          exact hnew ha)
    · intro g hg
      simp only [List.mem_append, List.mem_singleton] at hg
      by_cases hgn : g = tr.neighbor fh i
      · subst hgn; simp
      · rcases hg with hg | hg
        · simp only [Function.update_noteq hgn]
          exact h.marked g hg
        · exact absurd hg hgn
    · intro g hg
      simp only [List.mem_append, List.mem_singleton] at hg
      rcases hg with hg | hg
      · exact h.faces g hg
      · subst hg; exact hcl fh hfh i
    · intro g hg
      simp only [List.mem_append, List.mem_singleton] at hg ⊢
      exact hg.imp (h.queued g) id
  · rw [e]; exact h

theorem propagate_scan_logged (tr : Triangulation Point FT) (m : Bool)
    (hcl : ∀ f ∈ tr.all_faces, ∀ i : Fin 3, tr.neighbor f i ∈ tr.all_faces)
    (fh : Face_handle) (hfh : fh ∈ tr.all_faces) (l : List (Fin 3))
    (sl : ((Face_handle → Bool) × List Face_handle) × List Face_handle)
    (h : Logged tr m sl.1.1 sl.1.2 sl.2) :
    Logged tr m (l.foldl (propagate_visit_log tr m fh) sl).1.1
      (l.foldl (propagate_visit_log tr m fh) sl).1.2
      (l.foldl (propagate_visit_log tr m fh) sl).2 := by
  induction l generalizing sl with
  | nil => exact h
  | cons i l ih => exact ih _ (propagate_visit_logged tr m hcl fh hfh sl i h)

theorem propagate_loop_logged (tr : Triangulation Point FT) (m : Bool)
    (hcl : ∀ f ∈ tr.all_faces, ∀ i : Fin 3, tr.neighbor f i ∈ tr.all_faces) (fuel : Nat)
    (μ : Face_handle → Bool) (q log : List Face_handle) (h : Logged tr m μ q log)
    (r : (Face_handle → Bool) × List Face_handle)
    (hr : propagate_loop_log tr m fuel μ q log = some r) : Logged tr m r.1 [] r.2 := by
  induction fuel generalizing μ q log with
  | zero =>
    cases q with
    | nil =>
      simp only [propagate_loop_log, Option.some.injEq] at hr
      subst hr
      exact h
    | cons a q => simp [propagate_loop_log] at hr
  | succ n ih =>
    cases q with
    | nil =>
      simp only [propagate_loop_log, Option.some.injEq] at hr
      subst hr
      exact h
    | cons fh rest =>
      simp only [propagate_loop_log] at hr
      refine ih _ _ _ ?_ hr
      apply propagate_scan_logged tr m hcl fh (h.faces fh (h.queued fh (by simp)))
      exact ⟨h.nodup, h.marked, h.faces, fun g hg => h.queued g (by simp [hg])⟩

/-- C25: `propagate_marks(start, m)` terminates and pushes each face at most once.  On a
triangulation whose faces have their neighbours among its (finitely many) faces, for
every start face, marks and constraint bits, the loop ends within one pop per face plus
one; the faces pushed on the work queue are faces of the triangulation, no face is
pushed twice, so there are at most as many pushes as faces; and a mark `m` is never set
back. -/
theorem propagate_marks_pushes_once (tr : Triangulation Point FT)
    (hcl : ∀ f ∈ tr.all_faces, ∀ i : Fin 3, tr.neighbor f i ∈ tr.all_faces)
    (start : Face_handle) (hs : start ∈ tr.all_faces) (m : Bool) :
    ∃ ν log, propagate_marks_log tr start m = some ({ tr with is_marked := ν }, log) ∧
      propagate_marks tr start m = some { tr with is_marked := ν } ∧
      log.Nodup ∧ (∀ g ∈ log, g ∈ tr.all_faces) ∧ log.length ≤ tr.all_faces.length ∧
      (∀ g ∈ log, ν g = m) ∧ (∀ f, tr.is_marked f = m → ν f = m) := by
  have hfuel : [start].length +
      tr.all_faces.countP (fun f => Function.update tr.is_marked start m f != m) ≤
        tr.all_faces.length + 1 := by
    have := List.countP_le_length (fun f => Function.update tr.is_marked start m f != m)
      (l := tr.all_faces)
    simp only [List.length_singleton]
    omega
  obtain ⟨ν, hν⟩ := propagate_loop_returns tr m hcl _ _ [start]
    (by intro g hg; simp only [List.mem_singleton] at hg; rw [hg]; exact hs) hfuel
  have hfst := propagate_loop_log_fst tr m (tr.all_faces.length + 1)
    (Function.update tr.is_marked start m) [start] [start]
  rw [hν, Option.map_eq_some'] at hfst
  obtain ⟨⟨ν2, log⟩, hlog, hν2⟩ := hfst
  simp only at hν2
  subst hν2
  have hinit : Logged tr m (Function.update tr.is_marked start m) [start] [start] :=
    ⟨List.nodup_singleton _,
      by intro g hg; simp only [List.mem_singleton] at hg; subst hg; simp,
      by intro g hg; simp only [List.mem_singleton] at hg; subst hg; exact hs,
      fun g hg => hg⟩
  have hfin := propagate_loop_logged tr m hcl _ _ _ _ hinit _ hlog
  have d := propagate_loop_drained tr m _ _ _ ν2 hν
  refine ⟨ν2, log, by simp [propagate_marks_log, hlog], by simp [propagate_marks, hν],
    hfin.nodup, hfin.faces, ?_, hfin.marked, ?_⟩
  · exact (List.subperm_of_subset hfin.nodup hfin.faces).length_le
  · intro f hf
    apply d.mono f
    by_cases hfs : f = start
    · subst hfs; simp
    · simp [Function.update_noteq hfs, hf]

theorem propagate_marks_pushes_once_witness :
    ∃ ν log, propagate_marks_log (tetra 600) 1 true =
        some ({ tetra 600 with is_marked := ν }, log) ∧
      propagate_marks (tetra 600) 1 true = some { tetra 600 with is_marked := ν } ∧
      log.Nodup ∧ (∀ g ∈ log, g ∈ (tetra 600).all_faces) ∧
      log.length ≤ (tetra 600).all_faces.length ∧
      (∀ g ∈ log, ν g = true) ∧ (∀ f, (tetra 600).is_marked f = true → ν f = true) :=
  propagate_marks_pushes_once (tetra 600) (tetra_well_formed 600).1 1 (by decide) true

/-! ## The terminator in `refine_face` -/

/-- One turn of the scan of `refine_face(f)`: either the edge is one to enqueue and the
turn hands it to `add_contrained_edge_to_be_conform`, keeping the face bad, or it is not
and the turn leaves the data of the conformance base and `keep_the_face_bad` alone. -/
theorem refine_face_edge_by_clause [LinearOrder FT] (ext : Collaborators Point FT C)
    (tr : Triangulation Point FT) (f : Face_handle) (pc : Point) (st : Scan C) (e : Edge) :
    (enqueues_edge ext tr f pc st.cdata e ∧
        refine_face_edge ext tr f pc st e =
          { cdata := ext.add_contrained_edge_to_be_conform tr st.cdata
              (tr.vertex e.1 (cw e.2)) (tr.vertex e.1 (ccw e.2)),
            split_the_face := false, keep_the_face_bad := true }) ∨
      (¬ enqueues_edge ext tr f pc st.cdata e ∧
        (refine_face_edge ext tr f pc st e).cdata = st.cdata ∧
        (refine_face_edge ext tr f pc st e).keep_the_face_bad = st.keep_the_face_bad) := by
  cases henc : encroached_constrained ext tr pc e with
  | false =>
    right
    rw [refine_face_edge_conform ext tr f pc st e henc]
    exact ⟨fun h => by rw [h.1] at henc; exact absurd henc (by simp), rfl, rfl⟩
  | true =>
    have henc2 := henc
    simp only [encroached_constrained] at henc2
    simp only [refine_face_edge, henc2, if_true]
    cases h1 : ext.get_cluster tr st.cdata (tr.vertex e.1 (cw e.2)) (tr.vertex e.1 (ccw e.2)) <;>
      cases h2 : ext.get_cluster tr st.cdata (tr.vertex e.1 (ccw e.2)) (tr.vertex e.1 (cw e.2))
    · exact Or.inl ⟨⟨henc, Or.inr (Or.inl ⟨by rw [h1]; rfl, by rw [h2]; rfl⟩)⟩, rfl⟩
    · rename_i c2
      cases hb : (!c2.is_reduced || decide (c2.rmin ≥ shortest_edge_squared_length tr f)) with
      | true =>
        left
        refine ⟨⟨henc, Or.inr (Or.inr ⟨c2, Or.inr ⟨h1, h2⟩, ?_⟩)⟩, by simp only [hb, if_true]⟩
        simpa using hb
      | false =>
        right
        refine ⟨?_, by simp only [hb, Bool.false_eq_true, if_false, and_self]⟩
        rintro ⟨_, h | h | ⟨cl, h, hr⟩⟩
        · rw [h1] at h; simp at h
        · rw [h2] at h; simp at h
        · rw [h1, h2] at h
          simp only [reduceCtorEq, and_false, Option.some.injEq, true_and, false_or] at h
          subst h
          have : (!c2.is_reduced || decide (c2.rmin ≥ shortest_edge_squared_length tr f)) =
              true := by
            rcases hr with hr | hr
            · simp [hr]
            · simp [hr]
          rw [this] at hb
          exact absurd hb (by simp)
    · rename_i c1
      cases hb : (!c1.is_reduced || decide (c1.rmin ≥ shortest_edge_squared_length tr f)) with
      | true =>
        left
        refine ⟨⟨henc, Or.inr (Or.inr ⟨c1, Or.inl ⟨h1, h2⟩, ?_⟩)⟩, by simp only [hb, if_true]⟩
        simpa using hb
      | false =>
        right
        refine ⟨?_, by simp only [hb, Bool.false_eq_true, if_false, and_self]⟩
        rintro ⟨_, h | h | ⟨cl, h, hr⟩⟩
        · rw [h2] at h; simp at h
        · rw [h1] at h; simp at h
        · rw [h1, h2] at h
          simp only [reduceCtorEq, and_false, Option.some.injEq, and_true, or_false] at h
          subst h
          have : (!c1.is_reduced || decide (c1.rmin ≥ shortest_edge_squared_length tr f)) =
              true := by
            rcases hr with hr | hr
            · simp [hr]
            · simp [hr]
          rw [this] at hb
          exact absurd hb (by simp)
    · exact Or.inl ⟨⟨henc, Or.inl ⟨by rw [h1]; rfl, by rw [h2]; rfl⟩⟩, rfl⟩

theorem cluster_protects_not_clause [LinearOrder FT] (ext : Collaborators Point FT C)
    (tr : Triangulation Point FT) (c : C) (f : Face_handle) (va vb : Vertex_handle)
    (h : cluster_protects ext tr c f va vb) : ¬ cluster_clause ext tr c f va vb := by
  obtain ⟨cl, hone, hred, hmin⟩ := h
  rintro (⟨h1, h2⟩ | ⟨h1, h2⟩ | ⟨cl2, hone2, hr⟩)
  · rcases hone with ⟨_, k⟩ | ⟨k, _⟩
    · rw [k] at h2; simp at h2
    · rw [k] at h1; simp at h1
  · rcases hone with ⟨k, _⟩ | ⟨_, k⟩
    · rw [k] at h1; simp at h1
    · rw [k] at h2; simp at h2
  · have hcl : cl2 = cl := by
      rcases hone with ⟨k1, k2⟩ | ⟨k1, k2⟩ <;> rcases hone2 with ⟨j1, j2⟩ | ⟨j1, j2⟩
      · rw [k1] at j1; injection j1 with j1; exact j1.symm
      · rw [k1] at j1; simp at j1
      · rw [k1] at j1; simp at j1
      · rw [k2] at j2; injection j2 with j2; exact j2.symm
    subst hcl
    rcases hr with hr | hr
    · rw [hr] at hred; simp at hred
    · exact absurd hmin (not_lt.2 hr)

/-- The scan of `refine_face(f)` over edges of which every encroached constrained one
is protected by the terminator leaves the data of the conformance base and
`keep_the_face_bad` alone. -/
theorem refine_scan_protected [LinearOrder FT] (ext : Collaborators Point FT C)
    (tr : Triangulation Point FT) (f : Face_handle) (pc : Point) (l : List Edge)
    (st : Scan C)
    (h : ∀ e ∈ l, encroached_constrained ext tr pc e = true →
      cluster_protects ext tr st.cdata f (tr.vertex e.1 (cw e.2)) (tr.vertex e.1 (ccw e.2))) :
    (l.foldl (refine_face_edge ext tr f pc) st).cdata = st.cdata ∧
      (l.foldl (refine_face_edge ext tr f pc) st).keep_the_face_bad =
        st.keep_the_face_bad := by
  induction l generalizing st with
  | nil => exact ⟨rfl, rfl⟩
  | cons a l ih =>
    rw [List.foldl_cons]
    have hno : ¬ enqueues_edge ext tr f pc st.cdata a := fun hq =>
      cluster_protects_not_clause ext tr st.cdata f _ _ (h a (by simp) hq.1) hq.2
    rcases refine_face_edge_by_clause ext tr f pc st a with ⟨hq, _⟩ | ⟨_, h1, h2⟩
    · exact absurd hq hno
    · obtain ⟨k1, k2⟩ := ih (refine_face_edge ext tr f pc st a)
        (fun e he henc => by rw [h1]; exact h e (by simp [he]) henc)
      exact ⟨by rw [k1, h1], by rw [k2, h2]⟩

/-- The flag `keep_the_face_bad` after the scan: it is set exactly when it was set
before or some turn of the scan enqueues its edge. -/
theorem refine_scan_keep [LinearOrder FT] (ext : Collaborators Point FT C)
    (tr : Triangulation Point FT) (f : Face_handle) (pc : Point) (l : List Edge)
    (st : Scan C) :
    (l.foldl (refine_face_edge ext tr f pc) st).keep_the_face_bad = true ↔
      st.keep_the_face_bad = true ∨
        ∃ l1 a l2, l = l1 ++ a :: l2 ∧
          enqueues_edge ext tr f pc (l1.foldl (refine_face_edge ext tr f pc) st).cdata a := by
  induction l generalizing st with
  | nil =>
    simp only [List.foldl_nil]
    constructor
    · exact Or.inl
    · rintro (h | ⟨l1, a, l2, h, _⟩)
      · exact h
      · exact absurd h (by simp)
  | cons b l ih =>
    rw [List.foldl_cons, ih]
    constructor
    · rintro (h | ⟨l1, a, l2, h, hq⟩)
      · rcases refine_face_edge_by_clause ext tr f pc st b with ⟨hq, _⟩ | ⟨_, _, h2⟩
        · exact Or.inr ⟨[], b, l, rfl, hq⟩
        · exact Or.inl (by rw [← h2]; exact h)
      · exact Or.inr ⟨b :: l1, a, l2, by rw [h]; rfl, hq⟩
    · rintro (h | ⟨l1, a, l2, h, hq⟩)
      · rcases refine_face_edge_by_clause ext tr f pc st b with ⟨_, he⟩ | ⟨_, _, h2⟩
        · exact Or.inl (by rw [he])
        · exact Or.inl (by rw [h2]; exact h)
      · cases l1 with
        | nil =>
          simp only [List.nil_append, List.cons.injEq] at h
          obtain ⟨hb, _⟩ := h
          subst hb
          rcases refine_face_edge_by_clause ext tr f pc st b with ⟨_, he⟩ | ⟨hno, _, _⟩
          · exact Or.inl (by rw [he])
          · exact absurd hq hno
        | cons c l1 =>
          simp only [List.cons_append, List.cons.injEq] at h
          obtain ⟨hb, hl⟩ := h
          subst hb
          exact Or.inr ⟨l1, a, l2, hl, hq⟩

/-- C21, as amended: Shewchuk's terminator in `refine_face(f)`.  The turn of the scan on
a constrained boundary edge that the circumcentre encroaches and that the terminator
protects (exactly one end point in a cluster, which is reduced and has `rmin` below the
squared length of the shortest edge of `f`) does not enqueue the edge and only clears
`split_the_face`, at every place of the boundary of the conflict zone where the scan of
`refine_face(f)` meets such an edge; a returning `refine_face(f)` with an encroached
constrained boundary edge leaves the triangulation as it was, so `f` is not split; when
every encroached constrained boundary edge is protected, `refine_face(f)` returns the
state as it was:
no edge is enqueued and `f` is not entered in the map again; and when some turn of the
scan enqueues its edge, `refine_face(f)` enters in the map again the face that `is_face`
finds on the three vertices of `f`, when that face is marked: the result is the state
with the data of the scan and that entry. -/
theorem terminator_protects_face [LinearOrder FT] (ext : Collaborators Point FT C)
    (s : Mesh_2 Point FT C) (f : Face_handle) :
    (∀ (st : Scan C) (e : Edge),
      encroached_constrained ext s.tr (ext.circumcenter s.tr f) e = true →
      cluster_protects ext s.tr st.cdata f (s.tr.vertex e.1 (cw e.2))
        (s.tr.vertex e.1 (ccw e.2)) →
      refine_face_edge ext s.tr f (ext.circumcenter s.tr f) st e =
        { st with split_the_face := false }) ∧
    (∀ l1 e l2,
      (ext.get_conflicts_and_boundary s.tr (ext.circumcenter s.tr f) f).2 = l1 ++ e :: l2 →
      encroached_constrained ext s.tr (ext.circumcenter s.tr f) e = true →
      cluster_protects ext s.tr
        (l1.foldl (refine_face_edge ext s.tr f (ext.circumcenter s.tr f))
          { cdata := s.cdata, split_the_face := true, keep_the_face_bad := false }).cdata f
        (s.tr.vertex e.1 (cw e.2)) (s.tr.vertex e.1 (ccw e.2)) →
      (l1 ++ [e]).foldl (refine_face_edge ext s.tr f (ext.circumcenter s.tr f))
          { cdata := s.cdata, split_the_face := true, keep_the_face_bad := false } =
        { (l1.foldl (refine_face_edge ext s.tr f (ext.circumcenter s.tr f))
            { cdata := s.cdata, split_the_face := true, keep_the_face_bad := false }) with
          split_the_face := false }) ∧
    ((∃ e ∈ (ext.get_conflicts_and_boundary s.tr (ext.circumcenter s.tr f) f).2,
        encroached_constrained ext s.tr (ext.circumcenter s.tr f) e = true) →
      ∀ t, refine_face ext s f = some t → t.tr = s.tr) ∧
    ((∃ e ∈ (ext.get_conflicts_and_boundary s.tr (ext.circumcenter s.tr f) f).2,
        encroached_constrained ext s.tr (ext.circumcenter s.tr f) e = true) →
      (∀ e ∈ (ext.get_conflicts_and_boundary s.tr (ext.circumcenter s.tr f) f).2,
        encroached_constrained ext s.tr (ext.circumcenter s.tr f) e = true →
        cluster_protects ext s.tr s.cdata f (s.tr.vertex e.1 (cw e.2))
          (s.tr.vertex e.1 (ccw e.2))) →
      refine_face ext s f = some s) ∧
    (∀ g : Face_handle,
      (∃ l1 a l2,
        (ext.get_conflicts_and_boundary s.tr (ext.circumcenter s.tr f) f).2 =
          l1 ++ a :: l2 ∧
        enqueues_edge ext s.tr f (ext.circumcenter s.tr f)
          (l1.foldl (refine_face_edge ext s.tr f (ext.circumcenter s.tr f))
            { cdata := s.cdata, split_the_face := true, keep_the_face_bad := false }).cdata
          a) →
      ext.is_face s.tr (s.tr.vertex f 0) (s.tr.vertex f 1) (s.tr.vertex f 2) = some g →
      s.tr.is_marked g = true →
      refine_face ext s f =
        some { s with
          cdata := (boundary_scan ext s f).cdata,
          bad_faces := s.bad_faces.insert g (squared_minimum_sine s.tr g) }) := by
  have hturn : ∀ (st : Scan C) (e : Edge),
      encroached_constrained ext s.tr (ext.circumcenter s.tr f) e = true →
      cluster_protects ext s.tr st.cdata f (s.tr.vertex e.1 (cw e.2))
        (s.tr.vertex e.1 (ccw e.2)) →
      refine_face_edge ext s.tr f (ext.circumcenter s.tr f) st e =
        { st with split_the_face := false } := by
    intro st e henc hp
    have hno : ¬ enqueues_edge ext s.tr f (ext.circumcenter s.tr f) st.cdata e := fun hq =>
      cluster_protects_not_clause ext s.tr st.cdata f _ _ hp hq.2
    have hsp := refine_face_edge_encroached ext s.tr f (ext.circumcenter s.tr f) st e henc
    rcases refine_face_edge_by_clause ext s.tr f (ext.circumcenter s.tr f) st e with
      ⟨hq, _⟩ | ⟨_, h1, h2⟩
    · exact absurd hq hno
    · revert hsp h1 h2
      cases refine_face_edge ext s.tr f (ext.circumcenter s.tr f) st e
      intro hsp h1 h2
      simp only at hsp h1 h2
      rw [hsp, h1, h2]
  refine ⟨hturn, ?_, ?_, ?_, ?_⟩
  · intro l1 e l2 _ henc hp
    rw [List.foldl_append, List.foldl_cons, List.foldl_nil]
    exact hturn _ e henc hp
  · intro henc t ht
    have hs : (boundary_scan ext s f).split_the_face = false :=
      refine_scan_encroached ext s.tr f (ext.circumcenter s.tr f) _ _ henc
    rcases refine_face_result ext s t f ht with ⟨h1, _, _⟩ | ⟨_, _, h3⟩ | ⟨_, _, h3⟩
    · rw [hs] at h1; exact absurd h1 (by simp)
    · exact (push_in_bad_faces_v_frame ext _ t _ _ _ h3).1
    · rw [h3]
  · intro henc hprot
    have hs : (boundary_scan ext s f).split_the_face = false :=
      refine_scan_encroached ext s.tr f (ext.circumcenter s.tr f) _ _ henc
    obtain ⟨hc, hk⟩ := refine_scan_protected ext s.tr f (ext.circumcenter s.tr f)
      (ext.get_conflicts_and_boundary s.tr (ext.circumcenter s.tr f) f).2
      { cdata := s.cdata, split_the_face := true, keep_the_face_bad := false } hprot
    have hc2 : (boundary_scan ext s f).cdata = s.cdata := hc
    have hk2 : (boundary_scan ext s f).keep_the_face_bad = false := hk
    rw [refine_face_cases, hs, hk2, hc2]
    rfl
  · intro g hq hisf hm
    have hk : (boundary_scan ext s f).keep_the_face_bad = true := by
      rw [boundary_scan, refine_scan_keep]
      exact Or.inr hq
    have hs : (boundary_scan ext s f).split_the_face = false := by
      obtain ⟨l1, a, l2, hl, ha⟩ := hq
      exact refine_scan_encroached ext s.tr f (ext.circumcenter s.tr f) _ _
        ⟨a, by rw [hl]; simp, ha.1⟩
    have hisf2 : ext.is_face ({ s with cdata := (boundary_scan ext s f).cdata } :
        Mesh_2 Point FT C).tr (s.tr.vertex f 0) (s.tr.vertex f 1) (s.tr.vertex f 2) =
        some g := hisf
    have hm2 : ({ s with cdata := (boundary_scan ext s f).cdata } :
        Mesh_2 Point FT C).tr.is_marked g = true := hm
    rw [refine_face_cases, hs, hk]
    simp only [Bool.false_eq_true, if_false, if_true, push_in_bad_faces_v, hisf2,
      push_in_bad_faces, hm]

theorem terminator_protects_face_witness :
    refine_face corner_stub corner_popped 1 = some corner_popped ∧
      refine_face two_sides_stub corner_popped 1 =
        some { corner_popped with
          cdata := (boundary_scan two_sides_stub corner_popped 1).cdata,
          bad_faces := corner_popped.bad_faces.insert 1
            (squared_minimum_sine corner_popped.tr 1) } :=
  ⟨(terminator_protects_face corner_stub corner_popped 1).2.2.2.1 ⟨(2, 2), by decide, by decide⟩
    (fun e he henc => by
      have hb : (corner_stub.get_conflicts_and_boundary corner_popped.tr
          (corner_stub.circumcenter corner_popped.tr 1) 1).2 =
          [(2, 2), (3, 2), (4, 2), (5, 2)] := by decide
      have he2 : e = (2, 2) ∨ e = (3, 2) ∨ e = (4, 2) ∨ e = (5, 2) := by
        rw [hb] at he
        simpa using he
      rcases he2 with h | h | h | h
      · subst h
        exact ⟨⟨true, 30⟩, Or.inr ⟨rfl, rfl⟩, rfl, by decide⟩
      · subst h; exact absurd henc (by decide)
      · subst h; exact absurd henc (by decide)
      · subst h; exact absurd henc (by decide)),
   (terminator_protects_face two_sides_stub corner_popped 1).2.2.2.2 1
    ⟨[(2, 2), (3, 2)], (4, 2), [(5, 2)], by decide,
      by decide, Or.inr (Or.inl ⟨rfl, rfl⟩)⟩
    (by decide) (by decide)⟩

/-- C21, as stated, fails: the circumcentre of the face 1 encroaches the side 2-1, which
the terminator protects, and also the side 4-3, which has no cluster.  The scan enqueues
the side 4-3 and sets `keep_the_face_bad`, so `refine_face` enters the face 1 in the map
of bad faces again, although the protected side 2-1 is not enqueued. -/
theorem protected_face_is_kept_bad :
    (2, 2) ∈ (two_sides_stub.get_conflicts_and_boundary corner_popped.tr
        (two_sides_stub.circumcenter corner_popped.tr 1) 1).2 ∧
      encroached_constrained two_sides_stub corner_popped.tr
        (two_sides_stub.circumcenter corner_popped.tr 1) (2, 2) = true ∧
      cluster_protects two_sides_stub corner_popped.tr corner_popped.cdata 1
        (corner_popped.tr.vertex 2 (cw 2)) (corner_popped.tr.vertex 2 (ccw 2)) ∧
      ∃ t, refine_face two_sides_stub corner_popped 1 = some t ∧
        (1, 100) ∈ t.bad_faces ∧ (1, 100) ∉ corner_popped.bad_faces ∧
        t.cdata = [(3, 4)] ∧ t.tr.all_faces = corner_popped.tr.all_faces :=
  ⟨by decide, by decide, ⟨⟨true, 30⟩, Or.inr ⟨rfl, rfl⟩, rfl, by decide⟩,
    (refine_face two_sides_stub corner_popped 1).get (by decide),
    (Option.some_get _).symm, by decide, by decide, by decide, by decide⟩

/-! ## The path of `refine_face` that does not split -/

/-- C27: the path of `refine_face(f)` that does not split, for the face `f` at the front
of a map of bad faces with one entry per handle that has P1, when `is_face` on the three
vertices of `f` in the unchanged triangulation finds `f`.  The flag that decides the
new entry of `f` is set exactly when some turn of the scan enqueued its edge; and
`process_one_face()` returns with the triangulation as it was and the map holding either
the same entries as before the pop (some edge enqueued) or the same entries except the
entry of `f` (no edge enqueued). -/
theorem no_split_path_queue [LinearOrder FT] (ext : Collaborators Point FT C)
    (s : Mesh_2 Point FT C) (e : Face_handle × FT) (hfr : s.bad_faces.front = some e)
    (hkeys : (s.bad_faces.map Prod.fst).Nodup) (hP1 : P1 s.tr s.bad_faces)
    (hisf : ext.is_face s.tr (s.tr.vertex e.1 0) (s.tr.vertex e.1 1) (s.tr.vertex e.1 2) =
      some e.1)
    (hns : (boundary_scan ext s e.1).split_the_face = false) :
    ((boundary_scan ext s e.1).keep_the_face_bad = true ↔
      ∃ l1 a l2,
        (ext.get_conflicts_and_boundary s.tr (ext.circumcenter s.tr e.1) e.1).2 =
          l1 ++ a :: l2 ∧
        enqueues_edge ext s.tr e.1 (ext.circumcenter s.tr e.1)
          (l1.foldl (refine_face_edge ext s.tr e.1 (ext.circumcenter s.tr e.1))
            { cdata := s.cdata, split_the_face := true, keep_the_face_bad := false }).cdata
          a) ∧
    ∃ t, process_one_face ext s = some t ∧ t.tr = s.tr ∧
      t.cdata = (boundary_scan ext s e.1).cdata ∧
      ((boundary_scan ext s e.1).keep_the_face_bad = true →
        ∀ x, x ∈ t.bad_faces ↔ x ∈ s.bad_faces) ∧
      ((boundary_scan ext s e.1).keep_the_face_bad = false →
        ∀ x, x ∈ t.bad_faces ↔ (x ∈ s.bad_faces ∧ x ≠ e)) := by
  constructor
  · rw [boundary_scan, refine_scan_keep]
    simp only [Bool.false_eq_true, false_or]
  · have hmem := (Double_map.front_spec _ e hfr).1
    obtain ⟨_, hm, _, hk⟩ := hP1 e hmem
    have hpop := Double_map.mem_pop_front s.bad_faces hkeys e hfr
    have hproc : process_one_face ext s =
        refine_face ext { s with bad_faces := s.bad_faces.pop_front } e.1 := by
      simp [process_one_face, hfr]
    have hns2 : (boundary_scan ext { s with bad_faces := s.bad_faces.pop_front }
        e.1).split_the_face = false := hns
    rw [hproc, refine_face_cases, hns2]
    cases hkb : (boundary_scan ext s e.1).keep_the_face_bad with
    | true =>
      have hkb2 : (boundary_scan ext { s with bad_faces := s.bad_faces.pop_front }
          e.1).keep_the_face_bad = true := hkb
      rw [hkb2]
      simp only [Bool.false_eq_true, if_false, if_true, push_in_bad_faces_v]
      have hisf2 : ext.is_face s.tr (s.tr.vertex e.1 0) (s.tr.vertex e.1 1)
          (s.tr.vertex e.1 2) = some e.1 := hisf
      simp only [hisf2, push_in_bad_faces, hm, if_true]
      refine ⟨_, rfl, rfl, rfl, fun _ x => ?_, fun h => absurd h (by simp)⟩
      obtain ⟨g, k⟩ := x
      show (g, k) ∈ Double_map.insert s.bad_faces.pop_front e.1
        (squared_minimum_sine s.tr e.1) ↔ _
      rw [Double_map.mem_insert, hpop]
      constructor
      · rintro (⟨⟨h1, _⟩, _⟩ | ⟨h1, h2⟩)
        · exact h1
        · have he : (g, k) = e := by
            rw [h1, h2, ← hk]
          rw [he]; exact hmem
      · intro hx
        by_cases hg : g = e.1
        · have hxe := Double_map.key_unique s.bad_faces hkeys (g, k) e hx hmem hg
          exact Or.inr ⟨hg, by rw [← hk, ← hxe]⟩
        · exact Or.inl ⟨⟨hx, fun hxe => hg (by rw [← hxe])⟩, hg⟩
    | false =>
      have hkb2 : (boundary_scan ext { s with bad_faces := s.bad_faces.pop_front }
          e.1).keep_the_face_bad = false := hkb
      rw [hkb2]
      simp only [Bool.false_eq_true, if_false]
      exact ⟨_, rfl, rfl, rfl, fun h => absurd h (by simp), fun _ x => hpop x⟩

theorem no_split_path_queue_witness :
    (∃ t, process_one_face two_sides_stub corner_pending = some t ∧
        t.tr = corner_pending.tr ∧ ∀ x, x ∈ t.bad_faces ↔ x ∈ corner_pending.bad_faces) ∧
      ∃ t, process_one_face corner_stub corner_pending = some t ∧
        t.tr = corner_pending.tr ∧
        ∀ x, x ∈ t.bad_faces ↔ (x ∈ corner_pending.bad_faces ∧ x ≠ (1, 100)) :=
  ⟨(let ⟨t, h1, h2, _, h3, _⟩ :=
      (no_split_path_queue two_sides_stub corner_pending (1, 100) (by decide) (by decide)
        (by unfold P1; decide) (by decide) (by decide)).2
    ⟨t, h1, h2, h3 (by decide)⟩),
   (let ⟨t, h1, h2, _, _, h4⟩ :=
      (no_split_path_queue corner_stub corner_pending (1, 100) (by decide) (by decide)
        (by unfold P1; decide) (by decide) (by decide)).2
    ⟨t, h1, h2, h4 (by decide)⟩)⟩

/-! ## The assertions during `refine_step` -/

/-- Under P1, and with `is_face` finding the face at the front of the map, a
`process_one_face()` on a map that is not empty returns: the popped face is marked, so
neither the assertion of `refine_face` nor that of `push_in_bad_faces` fails. -/
theorem process_one_face_returns [LinearOrder FT] (ext : Collaborators Point FT C)
    (u : Mesh_2 Point FT C) (hface : Face_contract ext u) (h : P1 u.tr u.bad_faces)
    (hne : u.bad_faces.empty = false) :
    (∀ e, u.bad_faces.front = some e → u.tr.is_marked e.1 = true) ∧
      ∃ t, process_one_face ext u = some t := by
  have hne2 : u.bad_faces ≠ [] := by
    intro hnil
    rw [hnil] at hne
    exact absurd hne (by simp [Double_map.empty])
  obtain ⟨e, hfr⟩ := Double_map.front_some u.bad_faces hne2
  obtain ⟨_, hm, _, _⟩ := h e (Double_map.front_spec _ e hfr).1
  refine ⟨fun e2 he2 => by rw [hfr] at he2; injection he2 with he2; rw [← he2]; exact hm, ?_⟩
  have hisf := (hface e hfr).1
  have hproc : process_one_face ext u =
      refine_face ext { u with bad_faces := u.bad_faces.pop_front } e.1 := by
    simp [process_one_face, hfr]
  rw [hproc, refine_face_cases]
  cases hs : (boundary_scan ext { u with bad_faces := u.bad_faces.pop_front }
      e.1).split_the_face with
  | true =>
    have hm2 : ({ u with bad_faces := u.bad_faces.pop_front } : Mesh_2 Point FT C).tr.is_marked
        e.1 = true := hm
    rw [if_pos rfl, if_pos hm2]
    obtain ⟨μ, _, _, heq⟩ := split_face_state ext
      { u with bad_faces := u.bad_faces.pop_front,
               cdata := (boundary_scan ext { u with bad_faces := u.bad_faces.pop_front }
                 e.1).cdata } e.1 (ext.circumcenter u.tr e.1)
    exact ⟨_, heq⟩
  | false =>
    cases hk : (boundary_scan ext { u with bad_faces := u.bad_faces.pop_front }
        e.1).keep_the_face_bad with
    | true =>
      have hisf2 : ext.is_face u.tr (u.tr.vertex e.1 0) (u.tr.vertex e.1 1)
          (u.tr.vertex e.1 2) = some e.1 := hisf
      simp only [Bool.false_eq_true, if_false, if_true, push_in_bad_faces_v, hisf2,
        push_in_bad_faces, hm]
      exact ⟨_, rfl⟩
    | false =>
      simp only [Bool.false_eq_true, if_false]
      exact ⟨_, rfl⟩

/-- C26: under P1 the assertions do not fire during `refine_step()`.  The scans
`fill_facet_map()` and `compute_new_bad_faces(v)` always return, because they call
`push_in_bad_faces` on faces they have tested to be marked.  And when the step of the
conformance base meets `Conform_step_contract`, the triangulation meets `Face_contract`
for the face at the front of the map and the map has P1 before the call, then the face
popped by `process_one_face()` is marked and `refine_step()` returns: the assertion of
`refine_face` holds on the path that splits and the assertion of `push_in_bad_faces`
holds on the path that keeps the face bad. -/
theorem assertions_hold_under_P1 [LinearOrder FT] (ext : Collaborators Point FT C)
    (ed : Edge_collaborators Point FT) (s : Mesh_2 Point FT C) :
    (∀ u : Mesh_2 Point FT C, ∃ t, fill_facet_map u = some t) ∧
    (∀ (u : Mesh_2 Point FT C) (v : Vertex_handle),
      ∃ t, compute_new_bad_faces ext u v = some t) ∧
    (Conform_step_contract ext ed s → Face_contract ext (ext.Conform_refine_step s).1 →
      P1 s.tr s.bad_faces →
      (∀ e, (ext.Conform_refine_step s).1.bad_faces.front = some e →
        (ext.Conform_refine_step s).1.tr.is_marked e.1 = true) ∧
      ∃ t b, refine_step ext s = some (t, b)) := by
  refine ⟨fun u => ⟨_, fill_fold_eq _ u⟩, fun u v => ⟨_, new_bad_fold_eq _ u⟩, ?_⟩
  intro hconf hface h
  have hu : P1 (ext.Conform_refine_step s).1.tr (ext.Conform_refine_step s).1.bad_faces := by
    rcases hconf with ⟨h1, h2⟩ | ⟨fh, i, p, r, hc, hr, h1, h2⟩
    · rw [h1, h2]; exact h
    · rw [h1, h2]; exact virtual_insert_keeps_P1 ext ed s fh i p r hc h hr
  refine ⟨fun e he => (hu e (Double_map.front_spec _ e he).1).2.1, ?_⟩
  cases hr2 : (ext.Conform_refine_step s).2 with
  | true => exact ⟨(ext.Conform_refine_step s).1, true, by simp [refine_step, hr2]⟩
  | false =>
    cases hemp : (ext.Conform_refine_step s).1.bad_faces.empty with
    | true => exact ⟨(ext.Conform_refine_step s).1, false, by simp [refine_step, hr2, hemp]⟩
    | false =>
      obtain ⟨_, t, ht⟩ := process_one_face_returns ext _ hface hu hemp
      exact ⟨t, true, by simp [refine_step, hr2, hemp, ht]⟩

theorem assertions_hold_under_P1_witness :
    ∃ t b, refine_step corner_stub corner_ready = some (t, b) :=
  ((assertions_hold_under_P1 corner_stub (corner_edge false) corner_ready).2.2
    (Or.inl ⟨rfl, rfl⟩) corner_ready_face_contract (by unfold P1; decide)).2

/-! ## The marks around the vertex inserted in an edge -/

theorem findIdx_takeWhile {α : Type} (p : α → Bool) (l l2 : List α) (n : Nat)
    (h : ∃ g ∈ l, p g = true) :
    (l ++ l2).findIdx? p n = some (n + (l.takeWhile (fun x => !p x)).length) ∧
      (l.takeWhile (fun x => !p x)).length < l.length := by
  induction l generalizing n with
  | nil => simp at h
  | cons a l ih =>
    cases hp : p a with
    | true => simp [List.findIdx?_cons, hp, List.takeWhile_cons]
    | false =>
      have h2 : ∃ g ∈ l, p g = true := by
        obtain ⟨g, hg, hpg⟩ := h
        simp only [List.mem_cons] at hg
        rcases hg with hg | hg
        · subst hg; rw [hp] at hpg; exact absurd hpg (by simp)
        · exact ⟨g, hg, hpg⟩
      obtain ⟨k1, k2⟩ := ih (n + 1) h2
      simp only [List.cons_append, List.findIdx?_cons, hp, Bool.false_eq_true, if_false, k1,
        List.takeWhile_cons, Bool.not_false, if_true, List.length_cons]
      exact ⟨by congr 1; omega, by omega⟩

/-- The first loop of `virtual_insert_in_the_edge` goes through the faces of the side
where the turn starts, when the turn starts on that side and crosses the line. -/
theorem right_stretch_near (tr : Triangulation Point FT) (vp vb : Vertex_handle)
    (fcs : List Face_handle)
    (hstart : ∀ a ∈ fcs.head?, follows tr vp vb a = false)
    (hcross : ∃ g ∈ fcs, follows tr vp vb g = true) :
    right_stretch tr vp vb fcs = some (near_side tr vp vb fcs).length ∧
      (near_side tr vp vb fcs).length < fcs.length ∧
      fcs.take (near_side tr vp vb fcs).length = near_side tr vp vb fcs ∧
      fcs.drop (near_side tr vp vb fcs).length = far_side tr vp vb fcs := by
  have hsplit : near_side tr vp vb fcs ++ far_side tr vp vb fcs = fcs :=
    List.takeWhile_append_dropWhile _ fcs
  have htake : fcs.take (near_side tr vp vb fcs).length = near_side tr vp vb fcs := by
    have h := @List.take_left' _ (near_side tr vp vb fcs) (far_side tr vp vb fcs) _ rfl
    rwa [hsplit] at h
  have hdrop : fcs.drop (near_side tr vp vb fcs).length = far_side tr vp vb fcs := by
    have h := @List.drop_left' _ (near_side tr vp vb fcs) (far_side tr vp vb fcs) _ rfl
    rwa [hsplit] at h
  cases fcs with
  | nil => simp at hcross
  | cons a rest =>
    have ha : follows tr vp vb a = false := hstart a (by simp)
    have hrest : ∃ g ∈ rest, follows tr vp vb g = true := by
      obtain ⟨g, hg, hpg⟩ := hcross
      simp only [List.mem_cons] at hg
      rcases hg with hg | hg
      · subst hg; rw [ha] at hpg; exact absurd hpg (by simp)
      · exact ⟨g, hg, hpg⟩
    obtain ⟨k1, k2⟩ := findIdx_takeWhile (follows tr vp vb) rest [a] 0 hrest
    have hnear : near_side tr vp vb (a :: rest) =
        a :: rest.takeWhile (fun x => !follows tr vp vb x) := by
      simp [near_side, List.takeWhile_cons, ha]
    refine ⟨?_, ?_, htake, hdrop⟩
    · have hrs : right_stretch tr vp vb (a :: rest) =
          ((rest ++ [a]).findIdx? (follows tr vp vb) 0).map (fun j => j + 1) := rfl
      rw [hrs, k1, hnear]
      simp
    · rw [hnear]
      simp only [List.length_cons]
      omega

theorem virtual_insert_unfold (ext : Collaborators Point FT C)
    (ed : Edge_collaborators Point FT) (s : Mesh_2 Point FT C) (fh : Face_handle)
    (i : Fin 3) (p : Point) :
    virtual_insert_in_the_edge ext ed s fh i p =
      match right_stretch (edge_insertion ed s.tr fh i p).1 (edge_insertion ed s.tr fh i p).2
          (s.tr.vertex fh (ccw i)) (edge_turn ed s.tr fh i p) with
      | none => none
      | some k =>
        (compute_new_bad_faces ext
          { s with
            tr := mark_finite
              (mark_finite (edge_insertion ed s.tr fh i p).1 (s.tr.is_marked fh)
                ((edge_turn ed s.tr fh i p).take k))
              (s.tr.is_marked (s.tr.neighbor fh i))
              (if k < (edge_turn ed s.tr fh i p).length then (edge_turn ed s.tr fh i p).drop k
                else edge_turn ed s.tr fh i p),
            bad_faces := (edge_zone ext ed s.tr fh i p).foldl Double_map.erase s.bad_faces }
          (edge_insertion ed s.tr fh i p).2).map
          (fun t => (t, (edge_insertion ed s.tr fh i p).2)) := rfl

/-- The function `virtual_insert_in_the_edge(fh, i, p)` returns when its first loop
ends. -/
theorem virtual_insert_returns (ext : Collaborators Point FT C)
    (ed : Edge_collaborators Point FT) (s : Mesh_2 Point FT C) (fh : Face_handle)
    (i : Fin 3) (p : Point) (k : Nat)
    (hk : right_stretch (edge_insertion ed s.tr fh i p).1 (edge_insertion ed s.tr fh i p).2
      (s.tr.vertex fh (ccw i)) (edge_turn ed s.tr fh i p) = some k) :
    ∃ t, virtual_insert_in_the_edge ext ed s fh i p = some t := by
  rw [virtual_insert_unfold, hk]
  simp only [compute_new_bad_faces, new_bad_fold_eq, Option.map_some']
  exact ⟨_, rfl⟩

/-- C22: the marks after `virtual_insert_in_the_edge(fh, i, p)`.  Let the turn of the
circulator around the new vertex `vp` list each face once, start on the side of `fh` (its
first face does not have `vb` next after `vp`) and cross the line (some face has), and
let `insert` leave the marks of the faces outside the turn alone.  Then the call returns
`vp` and keeps the finiteness `insert` gave the faces; every finite face around `vp` on
the side where the turn starts carries the mark `fh` had before the call, every finite
face around `vp` on the other side carries the mark the neighbour of `fh` had, and the
marks of the faces that are not around `vp` are those before the call. -/
theorem virtual_insert_marks_sides (ext : Collaborators Point FT C)
    (ed : Edge_collaborators Point FT) (s : Mesh_2 Point FT C) (fh : Face_handle)
    (i : Fin 3) (p : Point)
    (hstart : ∀ a ∈ (edge_turn ed s.tr fh i p).head?,
      follows (edge_insertion ed s.tr fh i p).1 (edge_insertion ed s.tr fh i p).2
        (s.tr.vertex fh (ccw i)) a = false)
    (hcross : ∃ g ∈ edge_turn ed s.tr fh i p,
      follows (edge_insertion ed s.tr fh i p).1 (edge_insertion ed s.tr fh i p).2
        (s.tr.vertex fh (ccw i)) g = true)
    (hturn : (edge_turn ed s.tr fh i p).Nodup)
    (hkept : ∀ g, g ∉ edge_turn ed s.tr fh i p →
      (edge_insertion ed s.tr fh i p).1.is_marked g = s.tr.is_marked g) :
    ∃ t, virtual_insert_in_the_edge ext ed s fh i p = some t ∧
      t.2 = (edge_insertion ed s.tr fh i p).2 ∧
      t.1.tr.is_infinite = (edge_insertion ed s.tr fh i p).1.is_infinite ∧
      near_side (edge_insertion ed s.tr fh i p).1 (edge_insertion ed s.tr fh i p).2
          (s.tr.vertex fh (ccw i)) (edge_turn ed s.tr fh i p) ++
        far_side (edge_insertion ed s.tr fh i p).1 (edge_insertion ed s.tr fh i p).2
          (s.tr.vertex fh (ccw i)) (edge_turn ed s.tr fh i p) = edge_turn ed s.tr fh i p ∧
      (∀ g ∈ near_side (edge_insertion ed s.tr fh i p).1 (edge_insertion ed s.tr fh i p).2
          (s.tr.vertex fh (ccw i)) (edge_turn ed s.tr fh i p),
        (edge_insertion ed s.tr fh i p).1.is_infinite g = false →
        t.1.tr.is_marked g = s.tr.is_marked fh) ∧
      (∀ g ∈ far_side (edge_insertion ed s.tr fh i p).1 (edge_insertion ed s.tr fh i p).2
          (s.tr.vertex fh (ccw i)) (edge_turn ed s.tr fh i p),
        (edge_insertion ed s.tr fh i p).1.is_infinite g = false →
        t.1.tr.is_marked g = s.tr.is_marked (s.tr.neighbor fh i)) ∧
      (∀ g, g ∉ edge_turn ed s.tr fh i p → t.1.tr.is_marked g = s.tr.is_marked g) := by
  obtain ⟨hk, hlt, htake, hdrop⟩ := right_stretch_near _ _ _ _ hstart hcross
  obtain ⟨t, ht⟩ := virtual_insert_returns ext ed s fh i p _ hk
  obtain ⟨k, hk2, hvp, heq⟩ := virtual_insert_state ext ed s fh i p t ht
  rw [hk] at hk2
  injection hk2 with hk2
  subst hk2
  have hsplit : near_side (edge_insertion ed s.tr fh i p).1 (edge_insertion ed s.tr fh i p).2
      (s.tr.vertex fh (ccw i)) (edge_turn ed s.tr fh i p) ++
      far_side (edge_insertion ed s.tr fh i p).1 (edge_insertion ed s.tr fh i p).2
        (s.tr.vertex fh (ccw i)) (edge_turn ed s.tr fh i p) = edge_turn ed s.tr fh i p :=
    List.takeWhile_append_dropWhile _ _
  have hdisj := hturn
  rw [← hsplit, List.nodup_append] at hdisj
  refine ⟨t, ht, hvp, by rw [heq], hsplit, ?_, ?_, ?_⟩
  · rw [heq]
    intro g hg hfin
    have hnf : g ∉ far_side (edge_insertion ed s.tr fh i p).1 (edge_insertion ed s.tr fh i p).2
        (s.tr.vertex fh (ccw i)) (edge_turn ed s.tr fh i p) := fun h => hdisj.2.2 hg h
    show edge_marks _ _ _ _ _ g = _
    simp only [edge_marks, hlt, if_true, hdrop, htake, hnf, hg, hfin, false_and, and_self,
      if_false]
  · rw [heq]
    intro g hg hfin
    show edge_marks _ _ _ _ _ g = _
    simp only [edge_marks, hlt, if_true, hdrop, hg, hfin, and_self]
  · rw [heq]
    intro g hg
    show edge_marks _ _ _ _ _ g = _
    rw [edge_marks_outside _ _ _ _ _ g hg]
    exact hkept g hg

theorem virtual_insert_marks_sides_witness :
    ∃ t, virtual_insert_in_the_edge edge_stub (corner_edge false) corner_pending 0 2 5 =
        some t ∧ t.2 = 5 ∧
      t.1.tr.is_marked 6 = true ∧ t.1.tr.is_marked 0 = true ∧ t.1.tr.is_marked 1 = true ∧
      t.1.tr.is_marked 3 = false :=
  let ⟨t, h1, h2, _, _, h4, _, h6⟩ :=
    virtual_insert_marks_sides edge_stub (corner_edge false) corner_pending 0 2 5
      (by decide) (by decide) (by decide) (fun _ _ => rfl)
  ⟨t, h1, h2, h4 6 (by decide) (by decide), h4 0 (by decide) (by decide),
    h6 1 (by decide), h6 3 (by decide)⟩

/-- The triangulation in which the conflicts are looked for, when `mirror_index` does not
read the constraints: the triangulation at entry with the two sides of the edge not
constrained. -/
theorem edge_open_eq (ed : Edge_collaborators Point FT) (tr : Triangulation Point FT)
    (fh : Face_handle) (i : Fin 3)
    (hmi : ed.mirror_index (tr.set_constraint fh i false) fh i = ed.mirror_index tr fh i) :
    edge_open ed tr fh i =
      { tr with
        is_constrained := fun g j =>
          if (g = fh ∧ j = i) ∨ (g = tr.neighbor fh i ∧ j = ed.mirror_index tr fh i) then false
          else tr.is_constrained g j } := by
  rw [edge_open, hmi]
  simp only [Triangulation.set_constraint]
  congr 1
  funext g j
  by_cases h1 : g = tr.neighbor fh i ∧ j = ed.mirror_index tr fh i
  · simp only [h1, and_self, if_true, or_true]
  · by_cases h2 : g = fh ∧ j = i
    · simp only [h2, and_self, if_true, true_or]
      split <;> rfl
    · simp only [h1, h2, if_false, or_self]

/-- The triangulation handed to `insert`, when the two sides of the edge are constrained
at entry and `mirror_index` does not read the constraints: the triangulation at entry. -/
theorem edge_closed_eq (ed : Edge_collaborators Point FT) (tr : Triangulation Point FT)
    (fh : Face_handle) (i : Fin 3)
    (hc : tr.is_constrained fh i = true)
    (hm : tr.is_constrained (tr.neighbor fh i) (ed.mirror_index tr fh i) = true)
    (hmi1 : ed.mirror_index (tr.set_constraint fh i false) fh i = ed.mirror_index tr fh i)
    (hmi2 : ed.mirror_index ((edge_open ed tr fh i).set_constraint fh i true) fh i =
      ed.mirror_index tr fh i) :
    edge_closed ed tr fh i = tr := by
  rw [edge_closed, hmi2, edge_open_eq ed tr fh i hmi1]
  simp only [Triangulation.set_constraint]
  generalize ed.mirror_index tr fh i = mi at hm
  clear hmi1 hmi2
  cases tr with
  | mk gt dimension all_faces infinite_face is_infinite vertex neighbor is_constrained
      is_marked point =>
    simp only at hc hm
    congr 1
    funext g j
    by_cases h1 : g = neighbor fh i ∧ j = mi
    · rw [if_pos h1, h1.1, h1.2]
      exact hm.symm
    · rw [if_neg h1]
      by_cases h2 : g = fh ∧ j = i
      · rw [if_pos h2, h2.1, h2.2]
        exact hc.symm
      · rw [if_neg h2, if_neg (by tauto)]

/-- C23: the un-constraining in `virtual_insert_in_the_edge(fh, i, p)` is undone before
the insertion.  Let the edge be constrained at entry, on the side of `fh` and on the side
of the neighbour, and let `mirror_index` not read the constraints.  Then the triangulation
handed to `insert(p, EDGE, fh, i)` is the triangulation at entry, so the constraint of
every edge has its value at entry; the triangulation in which the conflicts of `p` are
looked for is the triangulation at entry with the two sides of this one edge not
constrained; and the call is the insertion in the triangulation at entry, with the faces
of that conflict zone erased from the map of bad faces. -/
theorem edge_constraints_restored (ext : Collaborators Point FT C)
    (ed : Edge_collaborators Point FT) (s : Mesh_2 Point FT C) (fh : Face_handle)
    (i : Fin 3) (p : Point)
    (hc : s.tr.is_constrained fh i = true)
    (hm : s.tr.is_constrained (s.tr.neighbor fh i) (ed.mirror_index s.tr fh i) = true)
    (hmi1 : ed.mirror_index (s.tr.set_constraint fh i false) fh i = ed.mirror_index s.tr fh i)
    (hmi2 : ed.mirror_index ((edge_open ed s.tr fh i).set_constraint fh i true) fh i =
      ed.mirror_index s.tr fh i) :
    edge_closed ed s.tr fh i = s.tr ∧
    (∀ g j, (edge_closed ed s.tr fh i).is_constrained g j = s.tr.is_constrained g j) ∧
    edge_insertion ed s.tr fh i p = ed.insert_in_edge s.tr p fh i ∧
    edge_open ed s.tr fh i =
      { s.tr with
        is_constrained := fun g j =>
          if (g = fh ∧ j = i) ∨ (g = s.tr.neighbor fh i ∧ j = ed.mirror_index s.tr fh i)
          then false else s.tr.is_constrained g j } ∧
    edge_zone ext ed s.tr fh i p =
      (ext.get_conflicts_and_boundary
        { s.tr with
          is_constrained := fun g j =>
            if (g = fh ∧ j = i) ∨ (g = s.tr.neighbor fh i ∧ j = ed.mirror_index s.tr fh i)
            then false else s.tr.is_constrained g j } p fh).1 ∧
    virtual_insert_in_the_edge ext ed s fh i p =
      match right_stretch (ed.insert_in_edge s.tr p fh i).1 (ed.insert_in_edge s.tr p fh i).2
          (s.tr.vertex fh (ccw i)) (edge_turn ed s.tr fh i p) with
      | none => none
      | some k =>
        (compute_new_bad_faces ext
          { s with
            tr := mark_finite
              (mark_finite (ed.insert_in_edge s.tr p fh i).1 (s.tr.is_marked fh)
                ((edge_turn ed s.tr fh i p).take k))
              (s.tr.is_marked (s.tr.neighbor fh i))
              (if k < (edge_turn ed s.tr fh i p).length then (edge_turn ed s.tr fh i p).drop k
                else edge_turn ed s.tr fh i p),
            bad_faces :=
              ((ext.get_conflicts_and_boundary
                { s.tr with
                  is_constrained := fun g j =>
                    if (g = fh ∧ j = i) ∨
                        (g = s.tr.neighbor fh i ∧ j = ed.mirror_index s.tr fh i)
                    then false else s.tr.is_constrained g j } p fh).1).foldl
                Double_map.erase s.bad_faces }
          (ed.insert_in_edge s.tr p fh i).2).map
          (fun t => (t, (ed.insert_in_edge s.tr p fh i).2)) := by
  have hclosed := edge_closed_eq ed s.tr fh i hc hm hmi1 hmi2
  have hopen := edge_open_eq ed s.tr fh i hmi1
  have hins : edge_insertion ed s.tr fh i p = ed.insert_in_edge s.tr p fh i := by
    rw [edge_insertion, hclosed]
  have hzone : edge_zone ext ed s.tr fh i p =
      (ext.get_conflicts_and_boundary
        { s.tr with
          is_constrained := fun g j =>
            if (g = fh ∧ j = i) ∨ (g = s.tr.neighbor fh i ∧ j = ed.mirror_index s.tr fh i)
            then false else s.tr.is_constrained g j } p fh).1 := by
    rw [edge_zone, hopen]
  refine ⟨hclosed, fun g j => by rw [hclosed], hins, hopen, hzone, ?_⟩
  rw [virtual_insert_unfold, hins, hzone]

theorem edge_constraints_restored_witness :
    edge_closed (corner_edge false) corner_pending.tr 0 2 = corner_pending.tr ∧
      edge_zone edge_stub (corner_edge false) corner_pending.tr 0 2 5 = [0, 2] ∧
      (edge_open (corner_edge false) corner_pending.tr 0 2).is_constrained 0 2 = false ∧
      (edge_open (corner_edge false) corner_pending.tr 0 2).is_constrained 2 2 = false ∧
      (edge_open (corner_edge false) corner_pending.tr 0 2).is_constrained 0 0 = true :=
  let h := edge_constraints_restored edge_stub (corner_edge false) corner_pending 0 2 5
    (by decide) (by decide) (by decide) (by decide)
  ⟨h.1, by decide, by decide, by decide, by decide⟩

/-! ## The edges that `refine_face` enqueues -/

/-- The test `enqueue_test` holds exactly when the edge is constrained, encroached, and
the cluster clause of the specification holds. -/
theorem enqueue_test_iff [LinearOrder FT] (ext : Collaborators Point FT C)
    (tr : Triangulation Point FT) (f : Face_handle) (pc : Point) (c : C) (e : Edge) :
    enqueue_test ext tr f pc c e = true ↔
      (tr.is_constrained e.1 e.2 = true ∧
        ext.is_locally_gabriel_conform tr e.1 e.2 pc = false ∧
        cluster_clause ext tr c f (tr.vertex e.1 (cw e.2)) (tr.vertex e.1 (ccw e.2))) := by
  simp only [enqueue_test, cluster_clause, Bool.and_eq_true, Bool.not_eq_true', and_assoc]
  refine and_congr_right (fun _ => and_congr_right (fun _ => ?_))
  cases h1 : ext.get_cluster tr c (tr.vertex e.1 (cw e.2)) (tr.vertex e.1 (ccw e.2)) <;>
    cases h2 : ext.get_cluster tr c (tr.vertex e.1 (ccw e.2)) (tr.vertex e.1 (cw e.2))
  · simp
  · rename_i c2
    simp only [Bool.or_eq_true, Bool.not_eq_true', decide_eq_true_eq, Option.isSome_none,
      Option.isSome_some, Bool.false_eq_true, false_and, and_false, reduceCtorEq, false_or,
      and_true, Option.some.injEq, true_and]
    constructor
    · intro h
      exact ⟨c2, rfl, h⟩
    · rintro ⟨cl, hcl, h⟩
      rw [hcl]
      exact h
  · rename_i c1
    simp only [Bool.or_eq_true, Bool.not_eq_true', decide_eq_true_eq, Option.isSome_none,
      Option.isSome_some, Bool.false_eq_true, false_and, and_false, reduceCtorEq, false_or,
      or_false, and_true, Option.some.injEq]
    constructor
    · intro h
      exact ⟨c1, rfl, h⟩
    · rintro ⟨cl, hcl, h⟩
      rw [hcl]
      exact h
  · simp

/-- One turn of the scan of `refine_face(f)` hands its edge to
`add_contrained_edge_to_be_conform` exactly when the edge passes `enqueue_test`. -/
theorem refine_face_edge_data [LinearOrder FT] (ext : Collaborators Point FT C)
    (tr : Triangulation Point FT) (f : Face_handle) (pc : Point) (st : Scan C) (e : Edge) :
    (refine_face_edge ext tr f pc st e).cdata =
      if enqueue_test ext tr f pc st.cdata e then
        ext.add_contrained_edge_to_be_conform tr st.cdata (tr.vertex e.1 (cw e.2))
          (tr.vertex e.1 (ccw e.2))
      else st.cdata := by
  have hiff : enqueue_test ext tr f pc st.cdata e = true ↔
      enqueues_edge ext tr f pc st.cdata e := by
    rw [enqueue_test_iff]
    simp only [enqueues_edge, encroached_constrained, Bool.and_eq_true, Bool.not_eq_true',
      and_assoc]
  rcases refine_face_edge_by_clause ext tr f pc st e with ⟨hq, heq⟩ | ⟨hq, h1, _⟩
  · rw [heq, if_pos (hiff.2 hq)]
  · rw [h1, if_neg (fun h => hq (hiff.1 h))]

/-- The data of the conformance base after the scan of `refine_face(f)` over the edges
`l` is the data of the specification. -/
theorem refine_scan_data [LinearOrder FT] (ext : Collaborators Point FT C)
    (tr : Triangulation Point FT) (f : Face_handle) (pc : Point) (l : List Edge)
    (st : Scan C) :
    (l.foldl (refine_face_edge ext tr f pc) st).cdata =
      enqueued_data ext tr f pc l st.cdata := by
  induction l generalizing st with
  | nil => rfl
  | cons a l ih =>
    rw [List.foldl_cons, ih, refine_face_edge_data]
    rfl

/-- A returning `split_face` leaves the data of the conformance base alone. -/
theorem split_face_cdata (ext : Collaborators Point FT C) (s t : Mesh_2 Point FT C)
    (f : Face_handle) (c : Point) (h : split_face ext s f c = some t) : t.cdata = s.cdata := by
  obtain ⟨μ, _, _, heq⟩ := split_face_state ext s f c
  rw [heq] at h
  injection h with h
  rw [← h]

/-- C20: the edges that `refine_face(f)` enqueues for conformance.  The test
`enqueue_test` says in the words of the specification when a boundary edge is enqueued:
it is constrained, encroached by the circumcentre, and the cluster clause holds.  At
every place of the boundary of the conflict zone of the circumcentre of `f`, the turn of
the loop of `refine_face(f)` hands the edge to `add_contrained_edge_to_be_conform` if the
edge passes the test on the data at that place, and leaves the data alone if it does
not.  So `refine_face(f)` is the choice between `split_face`, the new entry of `f` and
nothing, made on the data in which exactly the boundary edges that pass the test have
been enqueued, and a returning `refine_face(f)` leaves that data.  The length compared
with `rmin` is the least of the three squared edge lengths of `f`. -/
theorem refine_face_enqueues [LinearOrder FT] (ext : Collaborators Point FT C)
    (s : Mesh_2 Point FT C) (f : Face_handle) :
    (∀ (c : C) (e : Edge),
      enqueue_test ext s.tr f (ext.circumcenter s.tr f) c e = true ↔
        (s.tr.is_constrained e.1 e.2 = true ∧
          ext.is_locally_gabriel_conform s.tr e.1 e.2 (ext.circumcenter s.tr f) = false ∧
          cluster_clause ext s.tr c f (s.tr.vertex e.1 (cw e.2))
            (s.tr.vertex e.1 (ccw e.2)))) ∧
    (∀ l1 e l2,
      (ext.get_conflicts_and_boundary s.tr (ext.circumcenter s.tr f) f).2 = l1 ++ e :: l2 →
      ((l1 ++ [e]).foldl (refine_face_edge ext s.tr f (ext.circumcenter s.tr f))
          { cdata := s.cdata, split_the_face := true, keep_the_face_bad := false }).cdata =
        if enqueue_test ext s.tr f (ext.circumcenter s.tr f)
            (l1.foldl (refine_face_edge ext s.tr f (ext.circumcenter s.tr f))
              { cdata := s.cdata, split_the_face := true,
                keep_the_face_bad := false }).cdata e then
          ext.add_contrained_edge_to_be_conform s.tr
            (l1.foldl (refine_face_edge ext s.tr f (ext.circumcenter s.tr f))
              { cdata := s.cdata, split_the_face := true,
                keep_the_face_bad := false }).cdata
            (s.tr.vertex e.1 (cw e.2)) (s.tr.vertex e.1 (ccw e.2))
        else
          (l1.foldl (refine_face_edge ext s.tr f (ext.circumcenter s.tr f))
            { cdata := s.cdata, split_the_face := true,
              keep_the_face_bad := false }).cdata) ∧
    refine_face ext s f =
      (if (boundary_scan ext s f).split_the_face then
        if s.tr.is_marked f then
          split_face ext
            { s with cdata := (enqueued_data ext s.tr f (ext.circumcenter s.tr f)
                (ext.get_conflicts_and_boundary s.tr (ext.circumcenter s.tr f) f).2 s.cdata) }
            f (ext.circumcenter s.tr f)
        else none
      else if (boundary_scan ext s f).keep_the_face_bad then
        push_in_bad_faces_v ext
          { s with cdata := (enqueued_data ext s.tr f (ext.circumcenter s.tr f)
              (ext.get_conflicts_and_boundary s.tr (ext.circumcenter s.tr f) f).2 s.cdata) }
          (s.tr.vertex f 0) (s.tr.vertex f 1) (s.tr.vertex f 2)
      else
        some { s with cdata := (enqueued_data ext s.tr f (ext.circumcenter s.tr f)
          (ext.get_conflicts_and_boundary s.tr (ext.circumcenter s.tr f) f).2 s.cdata) }) ∧
    (∀ t, refine_face ext s f = some t →
      t.cdata = enqueued_data ext s.tr f (ext.circumcenter s.tr f)
        (ext.get_conflicts_and_boundary s.tr (ext.circumcenter s.tr f) f).2 s.cdata) ∧
    ((shortest_edge_squared_length s.tr f ≤
        s.tr.gt.compute_squared_distance_2 (s.tr.point (s.tr.vertex f 1))
          (s.tr.point (s.tr.vertex f 2)) ∧
      shortest_edge_squared_length s.tr f ≤
        s.tr.gt.compute_squared_distance_2 (s.tr.point (s.tr.vertex f 2))
          (s.tr.point (s.tr.vertex f 0)) ∧
      shortest_edge_squared_length s.tr f ≤
        s.tr.gt.compute_squared_distance_2 (s.tr.point (s.tr.vertex f 0))
          (s.tr.point (s.tr.vertex f 1))) ∧
     (shortest_edge_squared_length s.tr f =
        s.tr.gt.compute_squared_distance_2 (s.tr.point (s.tr.vertex f 1))
          (s.tr.point (s.tr.vertex f 2)) ∨
      shortest_edge_squared_length s.tr f =
        s.tr.gt.compute_squared_distance_2 (s.tr.point (s.tr.vertex f 2))
          (s.tr.point (s.tr.vertex f 0)) ∨
      shortest_edge_squared_length s.tr f =
        s.tr.gt.compute_squared_distance_2 (s.tr.point (s.tr.vertex f 0))
          (s.tr.point (s.tr.vertex f 1)))) := by
  have hdata : (boundary_scan ext s f).cdata =
      enqueued_data ext s.tr f (ext.circumcenter s.tr f)
        (ext.get_conflicts_and_boundary s.tr (ext.circumcenter s.tr f) f).2 s.cdata :=
    refine_scan_data ext s.tr f _ _ _
  refine ⟨fun c e => enqueue_test_iff ext s.tr f _ c e, ?_, ?_, ?_, shortest_edge_is_min s.tr f⟩
  · intro l1 e l2 _
    rw [List.foldl_append, List.foldl_cons, List.foldl_nil, refine_face_edge_data]
  · rw [refine_face_cases, hdata]
  · intro t ht
    rw [← hdata]
    rcases refine_face_result ext s t f ht with ⟨_, _, h3⟩ | ⟨_, _, h3⟩ | ⟨_, _, h3⟩
    · exact split_face_cdata ext _ t f _ h3
    · exact (push_in_bad_faces_v_frame ext _ t _ _ _ h3).2
    · rw [h3]

theorem refine_face_enqueues_witness :
    ∃ t, refine_face two_sides_stub corner_popped 1 = some t ∧ t.cdata = [(3, 4)] :=
  let ⟨t, ht⟩ := Option.isSome_iff_exists.1
    (show (refine_face two_sides_stub corner_popped 1).isSome = true by decide)
  ⟨t, ht, ((refine_face_enqueues two_sides_stub corner_popped 1).2.2.2.1 t ht).trans
    (by decide)⟩

/-! ## Termination of `refine()` when the splits come to an end -/

/-- The call `insert(k, d)` adds at most one entry to the map. -/
theorem Double_map.insert_length (Q : Double_map FT) (k : Face_handle) (d : FT) :
    (Double_map.insert Q k d).length ≤ Q.length + 1 := by
  simp only [Double_map.insert, Double_map.erase, List.length_append, List.length_singleton]
  exact Nat.add_le_add_right (List.length_filter_le _ _) 1

/-- When the scan of `refine_face(f)` ends with `keep_the_face_bad` set, either the flag
was set before and the data of the conformance base is as before, or the data comes out
of a call of `add_contrained_edge_to_be_conform`. -/
theorem refine_scan_added [LinearOrder FT] (ext : Collaborators Point FT C)
    (tr : Triangulation Point FT) (f : Face_handle) (pc : Point) (l : List Edge)
    (st : Scan C)
    (h : (l.foldl (refine_face_edge ext tr f pc) st).keep_the_face_bad = true) :
    (st.keep_the_face_bad = true ∧
        (l.foldl (refine_face_edge ext tr f pc) st).cdata = st.cdata) ∨
      ∃ c va vb, (l.foldl (refine_face_edge ext tr f pc) st).cdata =
        ext.add_contrained_edge_to_be_conform tr c va vb := by
  induction l generalizing st with
  | nil => exact Or.inl ⟨h, rfl⟩
  | cons a l ih =>
    rw [List.foldl_cons] at h ⊢
    rcases ih _ h with ⟨h1, h2⟩ | h3
    · rcases refine_face_edge_by_clause ext tr f pc st a with ⟨_, heq⟩ | ⟨_, k1, k2⟩
      · right
        refine ⟨st.cdata, tr.vertex a.1 (cw a.2), tr.vertex a.1 (ccw a.2), ?_⟩
        rw [h2, heq]
      · left
        exact ⟨by rw [← k2]; exact h1, by rw [h2, k1]⟩
    · exact Or.inr h3

/-- One `process_one_face()` on a map whose front face is marked and found by `is_face`
returns, and it ends in one of three ways: the face is split and the triangulation is
the one `star_hole` made, with new marks; or the triangulation is as before and the map
has fewer entries (the face is dropped); or the triangulation is as before, the map has
no more entries than before and the data of the conformance base comes out of
`add_contrained_edge_to_be_conform` (an edge is enqueued and the face entered again). -/
theorem process_one_face_turn [LinearOrder FT] (ext : Collaborators Point FT C)
    (u : Mesh_2 Point FT C) (e : Face_handle × FT) (hfr : u.bad_faces.front = some e)
    (hm : u.tr.is_marked e.1 = true)
    (hisf : ext.is_face u.tr (u.tr.vertex e.1 0) (u.tr.vertex e.1 1) (u.tr.vertex e.1 2) =
      some e.1) :
    ∃ t, process_one_face ext u = some t ∧
      (((boundary_scan ext u e.1).split_the_face = true ∧
          ∃ μ, t.tr =
            { (star_of ext u.tr (ext.circumcenter u.tr e.1) e.1).1 with is_marked := μ }) ∨
        (t.tr = u.tr ∧ t.bad_faces.length < u.bad_faces.length) ∨
        (t.tr = u.tr ∧ t.bad_faces.length ≤ u.bad_faces.length ∧
          ∃ c va vb, t.cdata = ext.add_contrained_edge_to_be_conform u.tr c va vb)) := by
  have hproc : process_one_face ext u =
      refine_face ext { u with bad_faces := u.bad_faces.pop_front } e.1 := by
    simp [process_one_face, hfr]
  have hpop := Double_map.pop_front_length u.bad_faces e hfr
  rw [hproc, refine_face_cases]
  cases hs : (boundary_scan ext { u with bad_faces := u.bad_faces.pop_front }
      e.1).split_the_face with
  | true =>
    have hm2 : ({ u with bad_faces := u.bad_faces.pop_front } : Mesh_2 Point FT C).tr.is_marked
        e.1 = true := hm
    rw [if_pos rfl, if_pos hm2]
    obtain ⟨μ, _, _, heq⟩ := split_face_state ext
      { u with bad_faces := u.bad_faces.pop_front,
               cdata := (boundary_scan ext { u with bad_faces := u.bad_faces.pop_front }
                 e.1).cdata } e.1 (ext.circumcenter u.tr e.1)
    exact ⟨_, heq, Or.inl ⟨hs, μ, rfl⟩⟩
  | false =>
    cases hk : (boundary_scan ext { u with bad_faces := u.bad_faces.pop_front }
        e.1).keep_the_face_bad with
    | true =>
      have hisf2 : ext.is_face u.tr (u.tr.vertex e.1 0) (u.tr.vertex e.1 1)
          (u.tr.vertex e.1 2) = some e.1 := hisf
      simp only [Bool.false_eq_true, if_false, if_true, push_in_bad_faces_v, hisf2,
        push_in_bad_faces, hm]
      refine ⟨_, rfl, Or.inr (Or.inr ⟨rfl, ?_, ?_⟩)⟩
      · have h1 := Double_map.insert_length u.bad_faces.pop_front e.1
          (squared_minimum_sine u.tr e.1)
        show (Double_map.insert u.bad_faces.pop_front e.1
          (squared_minimum_sine u.tr e.1)).length ≤ u.bad_faces.length
        omega
      · rcases refine_scan_added ext u.tr e.1 (ext.circumcenter u.tr e.1)
            (ext.get_conflicts_and_boundary u.tr (ext.circumcenter u.tr e.1) e.1).2
            { cdata := u.cdata, split_the_face := true, keep_the_face_bad := false } hk with
          ⟨h1, _⟩ | h3
        · exact absurd h1 (by simp)
        · exact h3
    | false =>
      simp only [Bool.false_eq_true, if_false]
      exact ⟨_, rfl, Or.inr (Or.inl ⟨rfl, hpop⟩)⟩

/-- One turn of the loop of `refine()` from a state of the run: the turn returns a state
of the run, and either the budget of the triangulation is lower, or the budget is the
same, nothing was waiting to be conformed, and the map of bad faces is shorter, or no
longer and now an edge waits to be conformed. -/
theorem refine_body_turn [LinearOrder FT] (ext : Collaborators Point FT C)
    (R : Mesh_2 Point FT C → Prop) (budget : Triangulation Point FT → Nat)
    (hconform : ∀ u, R u → ∃ u1, ext.Conform_conform u = some u1 ∧ R u1 ∧
      ext.Conform_is_conformed u1.tr u1.cdata = true ∧
      ((ext.Conform_is_conformed u.tr u.cdata = true ∧ u1 = u) ∨
        budget u1.tr < budget u.tr))
    (hface : ∀ u u1, R u → ext.Conform_is_conformed u.tr u.cdata = true →
      process_one_face ext u = some u1 → R u1)
    (hfront : ∀ u e, R u → ext.Conform_is_conformed u.tr u.cdata = true →
      u.bad_faces.front = some e →
      u.tr.is_marked e.1 = true ∧
        ext.is_face u.tr (u.tr.vertex e.1 0) (u.tr.vertex e.1 1) (u.tr.vertex e.1 2) =
          some e.1)
    (hsplit : ∀ u e, R u → ext.Conform_is_conformed u.tr u.cdata = true →
      u.bad_faces.front = some e → (boundary_scan ext u e.1).split_the_face = true →
      budget (star_of ext u.tr (ext.circumcenter u.tr e.1) e.1).1 < budget u.tr)
    (hmarks : ∀ (tr : Triangulation Point FT) (m : Face_handle → Bool),
      budget { tr with is_marked := m } = budget tr)
    (hadd : ∀ u, R u → ∀ c va vb,
      ext.Conform_is_conformed u.tr (ext.add_contrained_edge_to_be_conform u.tr c va vb) =
        false)
    (u : Mesh_2 Point FT C) (hu : R u) (hc : refine_cond ext u = true) :
    ∃ t, refine_body ext u = some t ∧ R t ∧
      (budget t.tr < budget u.tr ∨
        (budget t.tr = budget u.tr ∧ ext.Conform_is_conformed u.tr u.cdata = true ∧
          (t.bad_faces.length < u.bad_faces.length ∨
            (t.bad_faces.length ≤ u.bad_faces.length ∧
              ext.Conform_is_conformed t.tr t.cdata = false)))) := by
  obtain ⟨u1, hc1, hR1, hconf1, halt⟩ := hconform u hu
  have hle : budget u1.tr ≤ budget u.tr := by
    rcases halt with ⟨_, h⟩ | h
    · rw [h]
    · exact Nat.le_of_lt h
  cases hemp : u1.bad_faces.empty with
  | true =>
    refine ⟨u1, by simp [refine_body, hc1, hemp], hR1, ?_⟩
    rcases halt with ⟨h1, h2⟩ | h
    · subst h2
      simp [refine_cond, h1, hemp] at hc
    · exact Or.inl h
  | false =>
    have hne : u1.bad_faces ≠ [] := by
      intro hnil
      rw [hnil] at hemp
      exact absurd hemp (by simp [Double_map.empty])
    obtain ⟨e, hfr⟩ := Double_map.front_some u1.bad_faces hne
    obtain ⟨hm, hisf⟩ := hfront u1 e hR1 hconf1 hfr
    obtain ⟨t, ht, hcases⟩ := process_one_face_turn ext u1 e hfr hm hisf
    refine ⟨t, by simp [refine_body, hc1, hemp, ht], hface u1 t hR1 hconf1 ht, ?_⟩
    rcases hcases with ⟨hs, μ, htr⟩ | ⟨htr, hlen⟩ | ⟨htr, hlen, c, va, vb, hcd⟩
    · left
      rw [htr, hmarks]
      exact Nat.lt_of_lt_of_le (hsplit u1 e hR1 hconf1 hfr hs) hle
    · rcases halt with ⟨h1, h2⟩ | h
      · subst h2
        exact Or.inr ⟨by rw [htr], h1, Or.inl hlen⟩
      · left
        rw [htr]
        exact h
    · rcases halt with ⟨h1, h2⟩ | h
      · subst h2
        refine Or.inr ⟨by rw [htr], h1, Or.inr ⟨hlen, ?_⟩⟩
        rw [htr, hcd]
        exact hadd u1 hR1 c va vb
      · left
        rw [htr]
        exact h

/-- The loop of `refine()` returns from a state of a set of states `R` when every turn
from a state of `R` returns a state of `R` and lowers the triple of the budget, the
length of the map and the flag "nothing waits to be conformed" in the order of the
dictionary. -/
theorem refine_loop_of_turns [LinearOrder FT] (ext : Collaborators Point FT C)
    (R : Mesh_2 Point FT C → Prop) (budget : Triangulation Point FT → Nat)
    (hturn : ∀ u, R u → refine_cond ext u = true →
      ∃ t, refine_body ext u = some t ∧ R t ∧
        (budget t.tr < budget u.tr ∨
          (budget t.tr = budget u.tr ∧ ext.Conform_is_conformed u.tr u.cdata = true ∧
            (t.bad_faces.length < u.bad_faces.length ∨
              (t.bad_faces.length ≤ u.bad_faces.length ∧
                ext.Conform_is_conformed t.tr t.cdata = false)))))
    (b : Nat) :
    ∀ u, R u → budget u.tr = b →
      ∃ fuel t, refine_loop ext fuel u = some t ∧ refine_cond ext t = false := by
  induction b using Nat.strong_induction_on with
  | _ b ihb =>
    have hnext : ∀ u t, refine_cond ext u = true → refine_body ext u = some t →
        (∃ fuel t2, refine_loop ext fuel t = some t2 ∧ refine_cond ext t2 = false) →
        ∃ fuel t2, refine_loop ext fuel u = some t2 ∧ refine_cond ext t2 = false := by
      rintro u t hc hb ⟨fuel, t2, h1, h2⟩
      exact ⟨fuel + 1, t2, by rw [refine_loop_of_cond ext fuel u hc, hb]; exact h1, h2⟩
    have hwait : ∀ u, R u → budget u.tr = b →
        ext.Conform_is_conformed u.tr u.cdata = false →
        ∃ fuel t, refine_loop ext fuel u = some t ∧ refine_cond ext t = false := by
      intro u hu hbu hnc
      cases hc : refine_cond ext u with
      | false => exact ⟨0, u, refine_loop_of_not_cond ext 0 u hc, hc⟩
      | true =>
        obtain ⟨t, hb, hRt, hprog⟩ := hturn u hu hc
        rcases hprog with h | ⟨_, h, _⟩
        · exact hnext u t hc hb (ihb (budget t.tr) (by omega) t hRt rfl)
        · rw [hnc] at h
          exact absurd h (by simp)
    intro u hu hbu
    generalize hq : u.bad_faces.length = q
    induction q using Nat.strong_induction_on generalizing u with
    | _ q ihq =>
      cases hc : refine_cond ext u with
      | false => exact ⟨0, u, refine_loop_of_not_cond ext 0 u hc, hc⟩
      | true =>
        obtain ⟨t, hb, hRt, hprog⟩ := hturn u hu hc
        rcases hprog with h | ⟨h1, _, h2 | ⟨h2, h3⟩⟩
        · exact hnext u t hc hb (ihb (budget t.tr) (by omega) t hRt rfl)
        · exact hnext u t hc hb
            (ihq t.bad_faces.length (by omega) t hRt (by omega) rfl)
        · exact hnext u t hc hb (hwait t hRt (by omega) h3)

/-- The turn of the terminator: when the circumcentre of the face at the front of the
map encroaches a constrained boundary edge and the terminator protects every such edge,
`process_one_face()` returns the state without the entry of the face and with nothing
else changed, and the map is shorter. -/
theorem process_one_face_of_protected [LinearOrder FT] (ext : Collaborators Point FT C)
    (u : Mesh_2 Point FT C) (e : Face_handle × FT) (hfr : u.bad_faces.front = some e)
    (henc : ∃ x ∈ (ext.get_conflicts_and_boundary u.tr (ext.circumcenter u.tr e.1) e.1).2,
      encroached_constrained ext u.tr (ext.circumcenter u.tr e.1) x = true)
    (hprot : ∀ x ∈ (ext.get_conflicts_and_boundary u.tr (ext.circumcenter u.tr e.1) e.1).2,
      encroached_constrained ext u.tr (ext.circumcenter u.tr e.1) x = true →
      cluster_protects ext u.tr u.cdata e.1 (u.tr.vertex x.1 (cw x.2))
        (u.tr.vertex x.1 (ccw x.2))) :
    process_one_face ext u = some { u with bad_faces := u.bad_faces.pop_front } ∧
      u.bad_faces.pop_front.length < u.bad_faces.length := by
  refine ⟨?_, Double_map.pop_front_length u.bad_faces e hfr⟩
  have hproc : process_one_face ext u =
      refine_face ext { u with bad_faces := u.bad_faces.pop_front } e.1 := by
    simp [process_one_face, hfr]
  have hs : (boundary_scan ext { u with bad_faces := u.bad_faces.pop_front }
      e.1).split_the_face = false :=
    refine_scan_encroached ext u.tr e.1 (ext.circumcenter u.tr e.1) _ _ henc
  obtain ⟨hc, hk⟩ := refine_scan_protected ext u.tr e.1 (ext.circumcenter u.tr e.1)
    (ext.get_conflicts_and_boundary u.tr (ext.circumcenter u.tr e.1) e.1).2
    { cdata := u.cdata, split_the_face := true, keep_the_face_bad := false } hprot
  have hc2 : (boundary_scan ext { u with bad_faces := u.bad_faces.pop_front }
      e.1).cdata = u.cdata := hc
  have hk2 : (boundary_scan ext { u with bad_faces := u.bad_faces.pop_front }
      e.1).keep_the_face_bad = false := hk
  rw [hproc, refine_face_cases, hs, hk2, hc2]
  rfl

/-- C16, as amended: `refine()` returns when the splits come to an end.  Let `R` hold of
the states of the run and let `budget` be a natural number read off the triangulation
that does not depend on the marks.  The conformance base is asked: `conform()` returns a
state of the run in which nothing waits, it does nothing when nothing waits, and when an
edge waits it splits edges and so lowers the budget; an edge handed to
`add_contrained_edge_to_be_conform` waits.  The triangulation is asked: `star_hole`
lowers the budget when `refine_face` splits the face at the front of the map, and this
face is marked and found by `is_face` on its vertices.  Then every turn of the loop
returns, a turn that splits nothing either drops the popped face (the map gets shorter)
or enqueues an edge that the next `conform()` splits; the terminator rule gives the
first kind of turn: a face whose circumcentre encroaches only protected edges leaves the
map and nothing else changes; and `refine()` returns, for some number of turns, with
the conformance base conformed and the map of bad faces empty. -/
theorem refine_terminates_when_splits_end [LinearOrder FT] (ext : Collaborators Point FT C)
    (R : Mesh_2 Point FT C → Prop) (budget : Triangulation Point FT → Nat)
    (s s1 : Mesh_2 Point FT C)
    (hstart : (if !s.initialized then init ext s else some s) = some s1) (hs1 : R s1)
    (hconform : ∀ u, R u → ∃ u1, ext.Conform_conform u = some u1 ∧ R u1 ∧
      ext.Conform_is_conformed u1.tr u1.cdata = true ∧
      ((ext.Conform_is_conformed u.tr u.cdata = true ∧ u1 = u) ∨
        budget u1.tr < budget u.tr))
    (hface : ∀ u u1, R u → ext.Conform_is_conformed u.tr u.cdata = true →
      process_one_face ext u = some u1 → R u1)
    (hfront : ∀ u e, R u → ext.Conform_is_conformed u.tr u.cdata = true →
      u.bad_faces.front = some e →
      u.tr.is_marked e.1 = true ∧
        ext.is_face u.tr (u.tr.vertex e.1 0) (u.tr.vertex e.1 1) (u.tr.vertex e.1 2) =
          some e.1)
    (hsplit : ∀ u e, R u → ext.Conform_is_conformed u.tr u.cdata = true →
      u.bad_faces.front = some e → (boundary_scan ext u e.1).split_the_face = true →
      budget (star_of ext u.tr (ext.circumcenter u.tr e.1) e.1).1 < budget u.tr)
    (hmarks : ∀ (tr : Triangulation Point FT) (m : Face_handle → Bool),
      budget { tr with is_marked := m } = budget tr)
    (hadd : ∀ u, R u → ∀ c va vb,
      ext.Conform_is_conformed u.tr (ext.add_contrained_edge_to_be_conform u.tr c va vb) =
        false) :
    (∀ u, R u → refine_cond ext u = true →
      ∃ t, refine_body ext u = some t ∧ R t ∧
        (budget t.tr < budget u.tr ∨
          (budget t.tr = budget u.tr ∧ ext.Conform_is_conformed u.tr u.cdata = true ∧
            (t.bad_faces.length < u.bad_faces.length ∨
              (t.bad_faces.length ≤ u.bad_faces.length ∧
                ext.Conform_is_conformed t.tr t.cdata = false))))) ∧
    (∀ (u : Mesh_2 Point FT C) (e : Face_handle × FT), u.bad_faces.front = some e →
      (∃ x ∈ (ext.get_conflicts_and_boundary u.tr (ext.circumcenter u.tr e.1) e.1).2,
        encroached_constrained ext u.tr (ext.circumcenter u.tr e.1) x = true) →
      (∀ x ∈ (ext.get_conflicts_and_boundary u.tr (ext.circumcenter u.tr e.1) e.1).2,
        encroached_constrained ext u.tr (ext.circumcenter u.tr e.1) x = true →
        cluster_protects ext u.tr u.cdata e.1 (u.tr.vertex x.1 (cw x.2))
          (u.tr.vertex x.1 (ccw x.2))) →
      process_one_face ext u = some { u with bad_faces := u.bad_faces.pop_front } ∧
        u.bad_faces.pop_front.length < u.bad_faces.length) ∧
    ∃ fuel t, refine ext fuel s = some t ∧
      ext.Conform_is_conformed t.tr t.cdata = true ∧ t.bad_faces.empty = true := by
  have hturn := refine_body_turn ext R budget hconform hface hfront hsplit hmarks hadd
  refine ⟨hturn, fun u e hfr henc hprot =>
    process_one_face_of_protected ext u e hfr henc hprot, ?_⟩
  obtain ⟨fuel, t, ht, hc⟩ := refine_loop_of_turns ext R budget hturn _ s1 hs1 rfl
  refine ⟨fuel, t, by simp only [refine, hstart, Option.some_bind, ht], ?_⟩
  simpa [refine_cond] using hc

theorem refine_terminates_when_splits_end_witness :
    (∃ fuel t, refine corner_stub fuel corner_mesh = some t ∧
      corner_stub.Conform_is_conformed t.tr t.cdata = true ∧ t.bad_faces.empty = true) ∧
    ∃ fuel t, refine corner_stub fuel corner_ready = some t ∧
      corner_stub.Conform_is_conformed t.tr t.cdata = true ∧ t.bad_faces.empty = true :=
  ⟨(refine_terminates_when_splits_end corner_stub
    (fun u => u = corner_run1 ∨ u = corner_run2 ∨ u = corner_run3 ∨ u = corner_run4)
    corner_budget corner_mesh corner_run1
    (some_getD_of_isSome (init corner_stub corner_mesh) corner_mesh (by decide))
    (Or.inl rfl)
    (fun u hu => by
      rcases hu with h | h | h | h
      · subst h
        exact ⟨corner_run1, rfl, Or.inl rfl, by decide, Or.inl ⟨by decide, rfl⟩⟩
      · subst h
        exact ⟨corner_run2, rfl, Or.inr (Or.inl rfl), by decide, Or.inl ⟨by decide, rfl⟩⟩
      · subst h
        exact ⟨corner_run4,
          some_getD_of_isSome (corner_stub.Conform_conform corner_run3) corner_run3
            (by decide),
          Or.inr (Or.inr (Or.inr rfl)), by decide, Or.inr (by decide)⟩
      · subst h
        exact ⟨corner_run4, rfl, Or.inr (Or.inr (Or.inr rfl)), by decide,
          Or.inl ⟨by decide, rfl⟩⟩)
    (fun u u1 hu hc h => by
      rcases hu with hu | hu | hu | hu
      · subst hu
        exact Or.inr (Or.inl (getD_of_eq_some _ corner_run1 u1 h).symm)
      · subst hu
        exact Or.inr (Or.inr (Or.inl (getD_of_eq_some _ corner_run2 u1 h).symm))
      · subst hu
        exact absurd hc (by decide)
      · subst hu
        have h0 : (process_one_face corner_stub corner_run4).isSome = false := by decide
        rw [h] at h0
        exact absurd h0 (by simp))
    (fun u e hu hc hfr => by
      rcases hu with hu | hu | hu | hu
      · subst hu
        have he := corner_front corner_run1 (1, 100) e (by decide) hfr
        subst he
        exact ⟨by decide, by decide⟩
      · subst hu
        have he := corner_front corner_run2 (0, 200) e (by decide) hfr
        subst he
        exact ⟨by decide, by decide⟩
      · subst hu
        exact absurd hc (by decide)
      · subst hu
        have h0 : corner_run4.bad_faces.front = none := by decide
        rw [h0] at hfr
        exact absurd hfr (by simp))
    (fun u e hu hc hfr hs => by
      rcases hu with hu | hu | hu | hu
      · subst hu
        have he := corner_front corner_run1 (1, 100) e (by decide) hfr
        subst he
        exact absurd hs (by decide)
      · subst hu
        have he := corner_front corner_run2 (0, 200) e (by decide) hfr
        subst he
        exact absurd hs (by decide)
      · subst hu
        exact absurd hc (by decide)
      · subst hu
        have h0 : corner_run4.bad_faces.front = none := by decide
        rw [h0] at hfr
        exact absurd hfr (by simp))
    (fun _ _ => rfl)
    (fun u _ c va vb => by simp [corner_stub])).2.2,
   (refine_terminates_when_splits_end corner_stub
    (fun u => u = corner_started ∨ u = corner_refined)
    corner_budget corner_ready corner_started
    (some_getD_of_isSome (init corner_stub corner_ready) corner_ready (by decide))
    (Or.inl rfl)
    (fun u hu => by
      rcases hu with h | h
      · subst h
        exact ⟨corner_started, rfl, Or.inl rfl, by decide, Or.inl ⟨by decide, rfl⟩⟩
      · subst h
        exact ⟨corner_refined, rfl, Or.inr rfl, by decide, Or.inl ⟨by decide, rfl⟩⟩)
    (fun u u1 hu _ h => by
      rcases hu with hu | hu
      · subst hu
        exact Or.inr (getD_of_eq_some _ corner_started u1 h).symm
      · subst hu
        have h0 : (process_one_face corner_stub corner_refined).isSome = false := by decide
        rw [h] at h0
        exact absurd h0 (by simp))
    (fun u e hu _ hfr => by
      rcases hu with hu | hu
      · subst hu
        have he := corner_front corner_started (1, 100) e (by decide) hfr
        subst he
        exact ⟨by decide, by decide⟩
      · subst hu
        have h0 : corner_refined.bad_faces.front = none := by decide
        rw [h0] at hfr
        exact absurd hfr (by simp))
    (fun u e hu _ hfr _ => by
      rcases hu with hu | hu
      · subst hu
        have he := corner_front corner_started (1, 100) e (by decide) hfr
        subst he
        decide
      · subst hu
        have h0 : corner_refined.bad_faces.front = none := by decide
        rw [h0] at hfr
        exact absurd hfr (by simp))
    (fun _ _ => rfl)
    (fun u _ c va vb => by simp [corner_stub])).2.2⟩

end Refinement

end CGAL
